import Mathlib

/-!
# smart-calculator: a shallow embedding of `main.go`

Go strings are modelled as lists of Unicode characters (valid UTF-8 text),
Go's 64-bit `int` as `Int` reduced to two's complement after every operation,
`[]byte` as a list of byte values, the `map[string]int` as a partial function,
and the `*Calculator` receiver as explicit state passing.  A run-time panic and
`os.Exit` are results of their own, next to a returned `error`.
-/

namespace SmartCalculator

/-! ## Go `int` (64 bit) -/

/-- Smallest value of Go's `int` on a 64-bit platform. -/
def minInt : Int := -9223372036854775808

/-- Largest value of Go's `int` on a 64-bit platform. -/
def maxInt : Int := 9223372036854775807

/-- Two's-complement reduction of a mathematical integer to 64 bits. -/
def wrap (x : Int) : Int := (x + 9223372036854775808) % 18446744073709551616 - 9223372036854775808

/-- Go `a + b` on `int`. -/
def goAdd (a b : Int) : Int := wrap (a + b)

/-- Go `a - b` on `int`. -/
def goSub (a b : Int) : Int := wrap (a - b)

/-- Go `a * b` on `int`. -/
def goMul (a b : Int) : Int := wrap (a * b)

/-- Go `a / b` on `int` for `b ≠ 0`: truncation toward zero (and `minInt / -1 = minInt`). -/
def goDiv (a b : Int) : Int := wrap (Int.tdiv a b)

/-- The value lies in the range of Go's `int`. -/
def InRange (x : Int) : Prop := minInt ≤ x ∧ x ≤ maxInt

instance (x : Int) : Decidable (InRange x) :=
  inferInstanceAs (Decidable (minInt ≤ x ∧ x ≤ maxInt))

/-! ## Strings, bytes and the library functions the program calls -/

/-- A Go string holding valid UTF-8 text, as its list of characters. -/
abbrev Str := List Char

/-- The number of bytes of a string (`len(s)` in Go). -/
def byteLen (s : Str) : Nat := (s.map Char.utf8Size).sum

/-- The first byte of the UTF-8 encoding of a character (`s[0]` for a string starting with it). -/
def firstByte (ch : Char) : Nat :=
  if ch.toNat < 128 then ch.toNat
  else if ch.toNat < 2048 then 192 + ch.toNat / 64
  else if ch.toNat < 65536 then 224 + ch.toNat / 4096
  else 240 + ch.toNat / 262144

/-- Go `unicode.IsSpace`, the class `strings.TrimSpace` removes. -/
def isSpace (ch : Char) : Bool :=
  (9 ≤ ch.toNat && ch.toNat ≤ 13) || ch.toNat = 32 || ch.toNat = 133 || ch.toNat = 160
    || ch.toNat = 5760 || (8192 ≤ ch.toNat && ch.toNat ≤ 8202) || ch.toNat = 8232
    || ch.toNat = 8233 || ch.toNat = 8239 || ch.toNat = 8287 || ch.toNat = 12288

/-- The regexp class `\s` of Go (RE2): tab, newline, form feed, carriage return, space. -/
def isReSpace (ch : Char) : Bool :=
  ch.toNat = 9 || ch.toNat = 10 || ch.toNat = 12 || ch.toNat = 13 || ch.toNat = 32

/-- The regexp class `[0-9]`. -/
def isDigit (ch : Char) : Bool := 48 ≤ ch.toNat && ch.toNat ≤ 57

/-- The regexp class `[a-zA-Z]`. -/
def isLetter (ch : Char) : Bool :=
  (97 ≤ ch.toNat && ch.toNat ≤ 122) || (65 ≤ ch.toNat && ch.toNat ≤ 90)

/-- The regexp class `[a-zA-Z0-9\)]`. -/
def isOperandChar (ch : Char) : Bool := isLetter ch || isDigit ch || ch = ')'

/-- The regexp class `[\+\=\*\/]`. -/
def isOpNoMinus (ch : Char) : Bool := ch = '+' || ch = '=' || ch = '*' || ch = '/'

/-- The regexp class `[\+\-\=\*\/]`. -/
def isOpChar (ch : Char) : Bool := ch = '+' || ch = '-' || ch = '=' || ch = '*' || ch = '/'

/-- The regexp class `[\*\/]`. -/
def isMulDiv (ch : Char) : Bool := ch = '*' || ch = '/'

/-- The regexp class `[^\(\)]`. -/
def isNotParen (ch : Char) : Bool := ch ≠ '(' && ch ≠ ')'

/-- Go `strings.TrimSpace`. -/
def trimSpace (s : Str) : Str :=
  ((s.dropWhile isSpace).reverse.dropWhile isSpace).reverse

/-- Go `strings.Contains(s, "  ")`. -/
def containsDoubleSpace : Str → Bool
  | a :: b :: t => (a = ' ' && b = ' ') || containsDoubleSpace (b :: t)
  | _ => false

/-- Go `strings.ReplaceAll(s, "  ", " ")`: non-overlapping occurrences, left to right. -/
def replaceDoubleSpace : Str → Str
  | a :: b :: t =>
    if a = ' ' ∧ b = ' ' then ' ' :: replaceDoubleSpace t else a :: replaceDoubleSpace (b :: t)
  | s => s

/-- The loop `for strings.Contains(line, "  ") { line = strings.ReplaceAll(line, "  ", " ") }`,
bounded by a number of rounds. -/
def collapseSpaces : Nat → Str → Str
  | 0, s => s
  | k + 1, s => if containsDoubleSpace s then collapseSpaces k (replaceDoubleSpace s) else s

/-- Go `strings.Replace(s, old, new, 1)`: the first occurrence of `old` is replaced. -/
def replaceFirst : Str → Str → Str → Str
  | [], old, new => if old = [] then new else []
  | ch :: t, old, new =>
    if old <+: ch :: t then new ++ (ch :: t).drop old.length else ch :: replaceFirst t old new

/-- Go `strings.Split(s, " ")`. -/
def splitSpace : Str → List Str
  | [] => [[]]
  | ch :: t =>
    if ch = ' ' then [] :: splitSpace t
    else
      match splitSpace t with
      | [] => [[ch]]
      | h :: r => (ch :: h) :: r

/-- Go `regexp.ReplaceAllString` for a pattern that never matches the empty string.
`m` tries the pattern at the head of the text and yields the replacement and
the number of characters the match consumed; `skip` counts the characters
of the previous match still to pass over. -/
def replaceAllWith (m : Str → Option (Str × Nat)) : Nat → Str → Str
  | _, [] => []
  | skip + 1, _ :: t => replaceAllWith m skip t
  | 0, ch :: t =>
    match m (ch :: t) with
    | some (r, n) => r ++ replaceAllWith m (n - 1) t
    | none => ch :: replaceAllWith m 0 t

/-- A match of `(P+)(Q+)` at the head of the text, for disjoint classes `P` and `Q`,
replaced by `${1} ${2}`.  With disjoint classes the greedy first group is the
maximal run of `P`, and a shorter one cannot be followed by a `Q`. -/
def matchRunRun (p q : Char → Bool) (minP : Nat) (s : Str) : Option (Str × Nat) :=
  let g1 := s.takeWhile p
  let g2 := (s.dropWhile p).takeWhile q
  if minP ≤ g1.length ∧ 1 ≤ g2.length then some (g1 ++ ' ' :: g2, g1.length + g2.length)
  else none

/-- The pattern `([\+\=\*\/]+)([a-zA-Z0-9\)]+)` with replacement `${1} ${2}`. -/
def matchOpOperand : Str → Option (Str × Nat) := matchRunRun isOpNoMinus isOperandChar 1

/-- The pattern `([a-zA-Z0-9\)]+)([\+\-\=\*\/]+)` with replacement `${1} ${2}`. -/
def matchOperandOp : Str → Option (Str × Nat) := matchRunRun isOperandChar isOpChar 1

/-- The pattern `([\-]{2,})([a-zA-Z0-9\)]+)` with replacement `${1} ${2}`. -/
def matchMinusRun : Str → Option (Str × Nat) := matchRunRun (fun ch => ch = '-') isOperandChar 2

/-- The pattern `\(\s+` with replacement `(`. -/
def matchOpenSpace : Str → Option (Str × Nat)
  | ch :: t =>
    if ch = '(' ∧ 1 ≤ (t.takeWhile isReSpace).length then
      some (['('], 1 + (t.takeWhile isReSpace).length)
    else none
  | [] => none

/-- The pattern `\s+\)` with replacement `)`. -/
def matchSpaceClose (s : Str) : Option (Str × Nat) :=
  if 1 ≤ (s.takeWhile isReSpace).length ∧ (s.dropWhile isReSpace).head? = some ')' then
    some ([')'], (s.takeWhile isReSpace).length + 1)
  else none

/-- A match of `\([^\(\)]+\)` at the head of the text. -/
def matchGroup : Str → Option Str
  | ch :: t =>
    if ch = '(' ∧ 1 ≤ (t.takeWhile isNotParen).length
        ∧ (t.dropWhile isNotParen).head? = some ')' then
      some ('(' :: t.takeWhile isNotParen ++ [')'])
    else none
  | [] => none

/-- The call `regexp.MustCompile("\([^\(\)]+\)").FindString(s)`: the leftmost match, or
the empty string when there is none. -/
def findGroup : Str → Str
  | [] => []
  | ch :: t =>
    match matchGroup (ch :: t) with
    | some g => g
    | none => findGroup t

/-- The call `regexp.MustCompile("[\*\/]{2,}").MatchString(s)`. -/
def hasMulDivRun : Str → Bool
  | a :: b :: t => (isMulDiv a && isMulDiv b) || hasMulDivRun (b :: t)
  | _ => false

/-- The decimal digits of a natural number, most significant first. -/
def natDigits : Nat → Nat → Str
  | 0, _ => []
  | fuel + 1, n =>
    if n < 10 then [Char.ofNat (48 + n)]
    else natDigits fuel (n / 10) ++ [Char.ofNat (48 + n % 10)]

/-- Go `strconv.Itoa`. -/
def itoa (n : Int) : Str :=
  if n < 0 then '-' :: natDigits (n.natAbs + 1) n.natAbs else natDigits (n.natAbs + 1) n.natAbs

/-- The number a run of decimal digits denotes. -/
def parseNat (s : Str) : Nat := s.foldl (fun acc ch => acc * 10 + (ch.toNat - 48)) 0

/-- The integer a decimal literal with an optional leading minus denotes. -/
def litVal (s : Str) : Int :=
  match s with
  | ch :: t => if ch = '-' then -(parseNat t : Int) else (parseNat (ch :: t) : Int)
  | [] => 0

/-- The value Go `strconv.Atoi` returns for text matching `^-?[0-9]+$` (the program calls
it on nothing else and drops its error): the number, or when that is out of range the
nearest of `minInt` and `maxInt`. -/
def atoi (s : Str) : Int := max minInt (min maxInt (litVal s))

/-! ## The program -/

/-- The function `prepareExpression`. -/
def prepareExpression (line : Str) : Str :=
  let line := trimSpace line
  if line.head? = some '/' then line
  else
    let line := collapseSpaces line.length line
    let line := replaceAllWith matchOpOperand 0 line
    let line := replaceAllWith matchOperandOp 0 line
    let line := replaceAllWith matchMinusRun 0 line
    let line := replaceAllWith matchOpenSpace 0 line
    let line := replaceAllWith matchSpaceClose 0 line
    line

/-- The errors `errors.New` builds in the program. -/
inductive Err
  | invalidExpression
  | invalidIdentifier
  | unknownVariable
  | unknownCommand
  deriving DecidableEq, Repr

/-- The text of an error as printed by `main`. -/
def Err.message : Err → String
  | .invalidExpression => "Invalid expression"
  | .invalidIdentifier => "Invalid identifier"
  | .unknownVariable => "Unknown variable"
  | .unknownCommand => "Unknown command"

/-- Go run-time panics the program can raise. -/
inductive Panic
  | indexOutOfRange
  | divideByZero
  deriving DecidableEq, Repr

/-- How a call ends: it returns with a nil error, returns an error, panics, ends the
process through `os.Exit(0)`, or (in the model only) exhausts the bound of a loop. -/
inductive Res (α : Type)
  | ok (a : α)
  | error (e : Err)
  | panic (p : Panic)
  | exit
  | outOfFuel
  deriving DecidableEq, Repr

/-- A result that is not `ok`, at another type. -/
def Res.cast {α β : Type} (b : β) : Res α → Res β
  | .ok _ => .ok b
  | .error e => .error e
  | .panic p => .panic p
  | .exit => .exit
  | .outOfFuel => .outOfFuel

/-- A line written to standard output. -/
inductive Out
  | int (n : Int)
  | text (s : String)
  deriving DecidableEq, Repr

/-- The struct `Expression`. -/
structure Expression where
  varName : Str
  operands : List Int
  operators : List Nat

/-- The struct `Calculator`, which embeds `Expression`. -/
structure Calculator extends Expression where
  vars : Str → Option Int

/-- The variable `priotiritisedOperators`: first `*` and `/`, then `+` and `-`. -/
def priotiritisedOperators : List (List Nat) := [[42, 47], [43, 45]]

/-- The function `NewExpression`. -/
def NewExpression : Expression := { varName := [], operands := [], operators := [] }

/-- The function `NewCalculator`. -/
def NewCalculator : Calculator := { toExpression := NewExpression, vars := fun _ => none }

/-- The method `reset`. -/
def reset (c : Calculator) : Calculator :=
  { c with varName := [], operands := [], operators := [] }

/-- The function `isValidVariable`: the pattern `^[a-zA-Z]+$`. -/
def isValidVariable (str : Str) : Bool := str ≠ [] && str.all isLetter

/-- The function `isNumeric`: the pattern `^-?[0-9]+$`. -/
def isNumeric (str : Str) : Bool :=
  match str with
  | ch :: t => if ch = '-' then t ≠ [] && t.all isDigit else (ch :: t).all isDigit
  | [] => false

/-- The function `findAny`; `none` stands for the result `-1`. -/
def findAny (needle : List Nat) : List Nat → Option Nat
  | [] => none
  | h :: t => if h ∈ needle then some 0 else (findAny needle t).map (· + 1)

/-- The function `removeByIndexInt`, for an index within the slice (as at its call site). -/
def removeByIndexInt (slice : List Int) (index : Nat) : List Int :=
  if index = 0 then slice.drop 1
  else if index = slice.length - 1 then slice.take (slice.length - 1)
  else slice.take index ++ slice.drop (index + 1)

/-- The function `removeByIndexByte`, for an index within the slice (as at its call site). -/
def removeByIndexByte (slice : List Nat) (index : Nat) : List Nat :=
  if index = 0 then slice.drop 1
  else if index = slice.length - 1 then slice.take (slice.length - 1)
  else slice.take index ++ slice.drop (index + 1)

/-- The method `getValue`. -/
def getValue (c : Calculator) (name : Str) : Res Int :=
  if isNumeric name then .ok (atoi name)
  else if !isValidVariable name then .error .invalidIdentifier
  else
    match c.vars name with
    | some n => .ok n
    | none => .error .unknownVariable

/-- The body of the loop `for i, v := range parts` of `parseExpression`. -/
def parsePart (i : Nat) (v : Str) (c : Calculator) : Res Unit × Calculator :=
  if i % 2 = 0 then
    match getValue c v with
    | .ok n => (.ok (), { c with operands := c.operands ++ [n] })
    | r => (r.cast (), c)
  else
    match v with
    | [] => (.panic .indexOutOfRange, c)
    | ch :: _ =>
      if firstByte ch = 45 ∧ byteLen v % 2 = 0 then
        (.ok (), { c with operators := c.operators ++ [43] })
      else (.ok (), { c with operators := c.operators ++ [firstByte ch] })

/-- The loop `for i, v := range parts` of `parseExpression`, from index `i` on. -/
def parseParts : Nat → List Str → Calculator → Res Unit × Calculator
  | _, [], c => (.ok (), c)
  | i, v :: rest, c =>
    match parsePart i v c with
    | (.ok _, c1) => parseParts (i + 1) rest c1
    | r => r

/-- The part of `parseExpression` after `parts := strings.Split(expression, " ")`. -/
def parseSplit (c : Calculator) (expression : Str) (parts : List Str) : Res Unit × Calculator :=
  match parts with
  | [p] =>
    match getValue c p with
    | .ok n => (.ok (), { c with operands := c.operands ++ [n] })
    | r => (r.cast (), c)
  | _ =>
    if '=' ∈ expression then
      match parts with
      | [p0, p1, p2] =>
        if p1 ≠ ['='] then (.error .invalidExpression, c)
        else if !isValidVariable p0 then (.error .invalidIdentifier, c)
        else
          match getValue c p2 with
          | .ok n =>
            (.ok (), { c with varName := p0, operands := c.operands ++ [n],
                              operators := c.operators ++ [61] })
          | r => (r.cast (), c)
      | _ => (.error .invalidExpression, c)
    else parseParts 0 parts c

/-- The method `parseExpression`. -/
def parseExpression (c : Calculator) (expression : Str) : Res Unit × Calculator :=
  if hasMulDivRun expression then (.error .invalidExpression, c)
  else if expression.count '(' ≠ expression.count ')' then (.error .invalidExpression, c)
  else parseSplit c expression (splitSpace expression)

/-- The `switch op` of `calculate` with the operand reads of the chosen case. -/
def applyOperator (op : Nat) (operands : List Int) (i : Nat) : Res Int :=
  if op = 42 ∨ op = 47 ∨ op = 43 ∨ op = 45 then
    match operands.get? i, operands.get? (i + 1) with
    | some x, some y =>
      if op = 42 then .ok (goMul x y)
      else if op = 47 then (if y = 0 then .panic .divideByZero else .ok (goDiv x y))
      else if op = 43 then .ok (goAdd x y)
      else .ok (goSub x y)
    | _, _ => .panic .indexOutOfRange
  else .ok 0

/-- The inner `for` loop of `calculate` for one tier `ops`, on the fields `c.operands` and
`c.operators`, bounded by a number of rounds.  Each round removes one operator. -/
def reduceTier (ops : List Nat) : Nat → List Int → List Nat → Res (List Int × List Nat)
  | 0, _, _ => .outOfFuel
  | k + 1, operands, operators =>
    match findAny ops operators with
    | none => .ok (operands, operators)
    | some i =>
      match operators.get? i with
      | none => .panic .indexOutOfRange
      | some op =>
        match applyOperator op operands i with
        | .ok result =>
          reduceTier ops k ((removeByIndexInt operands (i + 1)).set i result)
            (removeByIndexByte operators i)
        | r => r.cast ([], [])

/-- The loop `for _, ops := range priotiritisedOperators` of `calculate`, on the fields
`c.operands` and `c.operators`. -/
def reduceTiers : List (List Nat) → List Int → List Nat → Res (List Int × List Nat)
  | [], operands, operators => .ok (operands, operators)
  | ops :: rest, operands, operators =>
    match reduceTier ops (operators.length + 1) operands operators with
    | .ok (operands1, operators1) =>
      if operators1.length = 0 then .ok (operands1, operators1)
      else reduceTiers rest operands1 operators1
    | r => r

/-- The last branch of `calculate`: the reduction loops and the return of `c.operands[0]`.
After a panic the calculator is no longer observed; it is left as it was. -/
def reduce (c : Calculator) : Res (Int × Bool) × Calculator :=
  match reduceTiers priotiritisedOperators c.operands c.operators with
  | .ok (operands, operators) =>
    match operands with
    | [] => (.panic .indexOutOfRange, c)
    | result :: _ =>
      (.ok (result, true), reset { c with operands := operands, operators := operators })
  | r => (r.cast (0, false), c)

/-- The method `calculate`: the result, whether to print it, and the calculator afterwards. -/
def calculate (c : Calculator) (expression : Str) (subExpression : Bool) :
    Res (Int × Bool) × Calculator :=
  match parseExpression c expression with
  | (.ok (), c1) =>
    match c1.operators with
    | [] =>
      if subExpression then (.error .invalidExpression, c1)
      else
        match c1.operands with
        | [] => (.panic .indexOutOfRange, c1)
        | result :: _ => (.ok (result, true), reset c1)
    | op0 :: _ =>
      if op0 = 61 then
        if subExpression then (.error .invalidExpression, c1)
        else
          match c1.operands with
          | [] => (.panic .indexOutOfRange, c1)
          | x :: _ =>
            (.ok (0, false),
              reset { c1 with vars := fun k => if k = c1.varName then some x else c1.vars k })
      else reduce c1
  | (r, c1) => (r.cast (0, false), c1)

/-- What a call of `handleExpression` or `handleCommand` leaves behind. -/
structure Outcome where
  result : Res Unit
  state : Calculator
  printed : List Out

/-- The method `handleCommand`. -/
def handleCommand (c : Calculator) (cmd : Str) : Outcome :=
  if cmd = "/help".toList then
    { result := .ok (), state := c,
      printed := [.text "This program calculates arithmetic expressions (addition and subtraction)"] }
  else if cmd = "/exit".toList then { result := .exit, state := c, printed := [.text "Bye!"] }
  else { result := .error .unknownCommand, state := c, printed := [] }

/-- The first loop of `handleExpression`, which replaces parenthesised groups by their
values, bounded by a number of rounds. -/
def resolveGroups : Nat → Calculator → Str → Res Str × Calculator
  | 0, c, _ => (.outOfFuel, c)
  | k + 1, c, expression =>
    let subExp := findGroup expression
    if subExp = [] then (.ok expression, c)
    else
      let line := replaceFirst (replaceFirst subExp ['('] []) [')'] []
      match calculate c (prepareExpression line) true with
      | (.ok (n, _), c1) => resolveGroups k c1 (replaceFirst expression subExp (itoa n))
      | (r, c1) => (r.cast [], c1)

/-- The part of `handleExpression` after its first loop, on the text `flat` the loop left. -/
def evaluateFlat (c1 : Calculator) (flat : Str) : Outcome :=
  let prepared := prepareExpression flat
  match prepared with
  | [] => { result := .ok (), state := c1, printed := [] }
  | ch :: _ =>
    if ch = '/' then handleCommand c1 prepared
    else
      match calculate c1 prepared false with
      | (.ok (n, print), c2) =>
        { result := .ok (), state := c2, printed := if print then [.int n] else [] }
      | (r, c2) => { result := r.cast (), state := c2, printed := [] }

/-- The method `handleExpression`.  The first loop removes one `(` per round, so the
number of `(` in the text bounds its rounds. -/
def handleExpression (c : Calculator) (expression : Str) : Outcome :=
  match resolveGroups (expression.count '(' + 1) c expression with
  | (.ok flat, c1) => evaluateFlat c1 flat
  | (r, c1) => { result := r.cast (), state := c1, printed := [] }

/-- One round of the loop of `main` on the text `line` that `getExpression` read: the line
is prepared, an empty one is skipped, and otherwise the working set is reset, the
expression handled and a returned error printed. -/
def mainStep (c : Calculator) (line : Str) : Outcome :=
  match prepareExpression line with
  | [] => { result := .ok (), state := c, printed := [] }
  | ch :: t =>
    let o := handleExpression (reset c) (ch :: t)
    match o.result with
    | .error e => { o with printed := o.printed ++ [.text e.message] }
    | _ => o

/-! ## Notions used to state and prove the properties -/

/-- Tokens joined by single spaces. -/
def joinSp : List Str → Str
  | [] => []
  | [t] => t
  | t :: u :: r => t ++ ' ' :: joinSp (u :: r)

/-- Two neighbouring characters at which no pattern of `prepareExpression` and
`parseExpression` other than the minus run can match: no two spaces, no operator next
to an operand character, no blank inside a parenthesis, no two of `*` and `/`. -/
def okPairLoose (x y : Char) : Bool :=
  !(x = ' ' && y = ' ') && !(isOpNoMinus x && isOperandChar y)
    && !(isOperandChar x && isOpChar y)
    && !(x = '(' && isReSpace y) && !(isReSpace x && y = ')')
    && !(isMulDiv x && isMulDiv y)

/-- Two neighbouring characters at which no pattern at all can match: an `okPairLoose`
that is not two minus signs. -/
def okPair (x y : Char) : Bool := okPairLoose x y && !(x = '-' && y = '-')

/-- Text in which every pair of neighbours is an `okPairLoose`. -/
def Loose (s : Str) : Prop := List.Chain' (fun x y => okPairLoose x y = true) s

/-- Text in which every pair of neighbours is an `okPair`. -/
def Clean (s : Str) : Prop := List.Chain' (fun x y => okPair x y = true) s

/-- A token that can stand between single spaces in loose text: not empty, loose, and
free of white space and parentheses. -/
structure Lex (t : Str) : Prop where
  ne : t ≠ []
  loose : Loose t
  noSpace : ∀ ch ∈ t, isSpace ch = false ∧ isReSpace ch = false
  noParen : ∀ ch ∈ t, ch ≠ '(' ∧ ch ≠ ')'

/-- A token that can stand between single spaces in clean text: a `Lex` without two
minus signs in a row. -/
structure Tok (t : Str) : Prop where
  ne : t ≠ []
  clean : Clean t
  noSpace : ∀ ch ∈ t, isSpace ch = false ∧ isReSpace ch = false
  noParen : ∀ ch ∈ t, ch ≠ '(' ∧ ch ≠ ')'

/-- The text matches `^-?[0-9]+$`: an optional minus sign, then one or more of the
digits `0` to `9`, and nothing else. -/
def MatchesNumber (t : Str) : Prop :=
  ∃ sign digits : Str, t = sign ++ digits ∧ (sign = [] ∨ sign = ['-']) ∧ digits ≠ []
    ∧ ∀ ch ∈ digits, '0' ≤ ch ∧ ch ≤ '9'

/-- The text matches `^[a-zA-Z]+$`: one or more of the letters `a` to `z` and `A` to
`Z`, and nothing else. -/
def MatchesName (t : Str) : Prop :=
  t ≠ [] ∧ ∀ ch ∈ t, ('a' ≤ ch ∧ ch ≤ 'z') ∨ ('A' ≤ ch ∧ ch ≤ 'Z')

/-- A non-negative integer literal: the pattern `^[0-9]+$`. -/
def isNatLiteral (str : Str) : Bool := str ≠ [] && str.all isDigit

/-- Text without two minus signs in a row and not ending in a minus sign. -/
def NoMinusPair (t : Str) : Prop :=
  List.Chain' (fun x y => ¬(x = '-' ∧ y = '-')) t ∧ ∀ x ∈ t.getLast?, x ≠ '-'

/-- The tokens of a flat expression: the first operand, then operator characters and
operands in turn. -/
def flatTokens (x0 : Str) (rest : List (Char × Str)) : List Str :=
  x0 :: rest.flatMap (fun p => [[p.1], p.2])

/-- The text of a flat expression: its tokens separated by single spaces. -/
def flatText (x0 : Str) (rest : List (Char × Str)) : Str := joinSp (flatTokens x0 rest)

/-- An arithmetic expression over Go `int` values; a binary node carries the byte of its
operator. -/
inductive Tree
  | num (x : Int)
  | bin (op : Nat) (l r : Tree)

/-- The value of `x op y` for the four operators; `none` for a division by zero. -/
def binValue (op : Nat) (x y : Int) : Option Int :=
  if op = 42 then some (goMul x y)
  else if op = 47 then (if y = 0 then none else some (goDiv x y))
  else if op = 45 then some (goSub x y)
  else some (goAdd x y)

/-- The value of an expression, `none` when some division in it is by zero. -/
def Tree.value : Tree → Option Int
  | .num x => some x
  | .bin op l r =>
    match l.value, r.value with
    | some a, some b => binValue op a b
    | _, _ => none

/-- The sum read so far, with the additive operator that follows it, joined with the
product that was being read. -/
def closeSum (s : Option (Tree × Nat)) (t : Tree) : Tree :=
  match s with
  | none => t
  | some (e, o) => .bin o e t

/-- The standard reading of the rest of a flat expression: `*` and `/` extend the product
`t` to the left-associated `t * y` or `t / y`; `+` and `-` close the product into the
left-associated sum `s` and start a new product. -/
def readFlat (s : Option (Tree × Nat)) (t : Tree) : List (Nat × Int) → Tree
  | [] => closeSum s t
  | (o, y) :: rest =>
    if o = 42 ∨ o = 47 then readFlat s (.bin o t (.num y)) rest
    else readFlat (some (closeSum s t, o)) (.num y) rest

/-- The reference value of `x0 op0 x1 op1 ...` for operands `xs` and operators `ops`: a
left-associated sum or difference of terms, each term a left-associated product or
quotient. -/
def referenceValue (xs : List Int) (ops : List Nat) : Option Int :=
  match xs with
  | [] => none
  | x0 :: tl => (readFlat none (.num x0) (ops.zip tl)).value

/-- What the first tier leaves of `x op0 y0 op1 y1 ...`: every product and quotient
replaced by its value, `none` for a division by zero. -/
def collapseProducts : Int → List (Nat × Int) → Option (Int × List (Nat × Int))
  | x, [] => some (x, [])
  | x, (o, y) :: rest =>
    if o = 42 then collapseProducts (goMul x y) rest
    else if o = 47 then (if y = 0 then none else collapseProducts (goDiv x y) rest)
    else
      match collapseProducts y rest with
      | some (y1, rest1) => some (x, (o, y1) :: rest1)
      | none => none

/-- What the second tier leaves of `x op0 y0 op1 y1 ...` with operators `+` and `-`. -/
def foldSums (x : Int) (rest : List (Nat × Int)) : Int :=
  rest.foldl (fun acc p => if p.1 = 45 then goSub acc p.2 else goAdd acc p.2) x

/-- The value of a sum read so far joined with the value `x` of the next term. -/
def closeValue (s : Option (Int × Nat)) (x : Int) : Int :=
  match s with
  | none => x
  | some (ev, o) => if o = 45 then goSub ev x else goAdd ev x

/-- The sum read so far `s`, ending in `+` or `-`, has the value `sv`. -/
def SumHasValue (s : Option (Tree × Nat)) (sv : Option (Int × Nat)) : Prop :=
  (s = none ∧ sv = none) ∨
    ∃ e o ev, s = some (e, o) ∧ sv = some (ev, o) ∧ e.value = some ev ∧ (o = 43 ∨ o = 45)

/-- The call returned no error and printed exactly the value `n`. -/
def Outcome.Prints (o : Outcome) (n : Int) : Prop := o.result = .ok () ∧ o.printed = [.int n]

instance (o : Outcome) (n : Int) : Decidable (o.Prints n) :=
  inferInstanceAs (Decidable (o.result = .ok () ∧ o.printed = [.int n]))

/-! ## Notions for validation, the working set, the calls of `calculate` and the passes of
`prepareExpression` -/

/-- The text has two neighbouring characters that are both one of `*` and `/`. -/
def HasOperatorRun (s : Str) : Prop :=
  ∃ (pre : Str) (a b : Char) (post : Str),
    s = pre ++ a :: b :: post ∧ (a = '*' ∨ a = '/') ∧ (b = '*' ∨ b = '/')

/-- The working set of the calculator is empty: no operands, no operators, no variable
name. -/
def WorkingSetEmpty (c : Calculator) : Prop :=
  c.operands = [] ∧ c.operators = [] ∧ c.varName = []

instance (c : Calculator) : Decidable (WorkingSetEmpty c) :=
  inferInstanceAs (Decidable (c.operands = [] ∧ c.operators = [] ∧ c.varName = []))

/-- The loop of `main` on the lines read: one round per line, until a panic or `os.Exit`
ends the process; the outcomes of the rounds, in order. -/
def runSession : Calculator → List Str → List Outcome
  | _, [] => []
  | c, line :: rest =>
    mainStep c line ::
      match (mainStep c line).result with
      | .ok _ => runSession (mainStep c line).state rest
      | .error _ => runSession (mainStep c line).state rest
      | _ => []

/-- The first loop of `handleExpression` with a record of its calls of `calculate`: next
to what `resolveGroups` returns, the calculators handed to `calculate` (which hands them
on to `parseExpression`), in the order of the calls. -/
def resolveGroupsTraced : Nat → Calculator → Str → (Res Str × Calculator) × List Calculator
  | 0, c, _ => ((.outOfFuel, c), [])
  | k + 1, c, expression =>
    let subExp := findGroup expression
    if subExp = [] then ((.ok expression, c), [])
    else
      let line := replaceFirst (replaceFirst subExp ['('] []) [')'] []
      match calculate c (prepareExpression line) true with
      | (.ok (n, _), c1) =>
        ((resolveGroupsTraced k c1 (replaceFirst expression subExp (itoa n))).1,
          c :: (resolveGroupsTraced k c1 (replaceFirst expression subExp (itoa n))).2)
      | (r, c1) => ((r.cast [], c1), [c])

/-- The part of `handleExpression` after its first loop with a record of its call of
`calculate`. -/
def evaluateFlatTraced (c1 : Calculator) (flat : Str) : Outcome × List Calculator :=
  let prepared := prepareExpression flat
  match prepared with
  | [] => ({ result := .ok (), state := c1, printed := [] }, [])
  | ch :: _ =>
    if ch = '/' then (handleCommand c1 prepared, [])
    else
      match calculate c1 prepared false with
      | (.ok (n, print), c2) =>
        ({ result := .ok (), state := c2, printed := if print then [.int n] else [] }, [c1])
      | (r, c2) => ({ result := r.cast (), state := c2, printed := [] }, [c1])

/-- The method `handleExpression` with a record of its calls of `calculate`: for each
parenthesised group in turn, then for the top-level expression. -/
def handleExpressionTraced (c : Calculator) (expression : Str) : Outcome × List Calculator :=
  match resolveGroupsTraced (expression.count '(' + 1) c expression with
  | ((.ok flat, c1), calls) =>
    ((evaluateFlatTraced c1 flat).1, calls ++ (evaluateFlatTraced c1 flat).2)
  | ((r, c1), calls) => ({ result := r.cast (), state := c1, printed := [] }, calls)

/-- One round of the loop of `main` with a record of its calls of `calculate`. -/
def mainStepTraced (c : Calculator) (line : Str) : Outcome × List Calculator :=
  match prepareExpression line with
  | [] => ({ result := .ok (), state := c, printed := [] }, [])
  | ch :: t =>
    let o := (handleExpressionTraced (reset c) (ch :: t)).1
    (match o.result with
      | .error e => { o with printed := o.printed ++ [.text e.message] }
      | _ => o,
      (handleExpressionTraced (reset c) (ch :: t)).2)

/-- The loop of `main` on the lines read with a record, for every round, of its calls
of `calculate`. -/
def runSessionTraced : Calculator → List Str → List (Outcome × List Calculator)
  | _, [] => []
  | c, line :: rest =>
    mainStepTraced c line ::
      match (mainStepTraced c line).1.result with
      | .ok _ => runSessionTraced (mainStepTraced c line).1.state rest
      | .error _ => runSessionTraced (mainStepTraced c line).1.state rest
      | _ => []

/-- What of a round of `main` can be observed: how it ends, what it prints and the
variable map it leaves. -/
def Outcome.SameObservable (o o1 : Outcome) : Prop :=
  o.result = o1.result ∧ o.printed = o1.printed ∧ o.state.vars = o1.state.vars

/-- What replacing every match of `(P{k,})(Q+)` by `${1} ${2}` does to a text, for
classes `P` and `Q` without a common character: a blank is put between a character of
`p` and a following character of `q` where the run of `p` has reached the length `k`;
`n` is the length of the run of `p` just before the text. -/
def insertAfterRun (p q : Char → Bool) (k : Nat) : Nat → Str → Str
  | n, x :: y :: t =>
    if p x = true ∧ q y = true ∧ k ≤ n + 1 then
      x :: ' ' :: insertAfterRun p q k (if p x = true then n + 1 else 0) (y :: t)
    else x :: insertAfterRun p q k (if p x = true then n + 1 else 0) (y :: t)
  | _, s => s

/-- What replacing every match of `\(\s+` by `(` does to a text: the white space after
a `(` is dropped; `b` tells that the text follows a `(`. -/
def dropAfterOpen : Bool → Str → Str
  | _, [] => []
  | b, x :: t =>
    if b = true ∧ isReSpace x = true then dropAfterOpen true t
    else x :: dropAfterOpen (decide (x = '(')) t

/-- What replacing every match of `\s+\)` by `)` does to a text: white space that
leads up to a `)` is dropped. -/
def dropBeforeClose : Str → Str
  | [] => []
  | x :: t =>
    if isReSpace x = true ∧ (t.dropWhile isReSpace).head? = some ')' then dropBeforeClose t
    else x :: dropBeforeClose t

/-- Every place of the text where `insertAfterRun p q k n` puts a blank is in front of a
character that `al` allows. -/
def InsertsOnlyBefore (al : Char → Bool) (p q : Char → Bool) (k : Nat) : Nat → Str → Prop
  | n, x :: y :: t =>
    (p x = true ∧ q y = true ∧ k ≤ n + 1 → al y = true)
      ∧ InsertsOnlyBefore al p q k (if p x = true then n + 1 else 0) (y :: t)
  | _, _ => True

/-- The character is a letter or a digit. -/
def isAlphanumeric (ch : Char) : Bool := isLetter ch || isDigit ch

/-- Text as `prepareExpression` returns it for a line that is no command: no white
space at its ends, no two blanks in a row, an operator directly before an operand
character only before `)`, no operand character directly before an operator, a run of
two or more minus signs directly before an operand character only before `)`, no white
space after `(` and none before `)`. -/
structure Normalized (o : Str) : Prop where
  first : ∀ x ∈ o.head?, isSpace x = false ∧ x ≠ '/'
  last : ∀ x ∈ o.getLast?, isSpace x = false
  blanks : List.Chain' (fun x y => ¬(x = ' ' ∧ y = ' ')) o
  afterOperator :
    InsertsOnlyBefore (fun ch => decide (ch = ')')) isOpNoMinus isOperandChar 1 0 o
  afterOperand : InsertsOnlyBefore (fun _ => false) isOperandChar isOpChar 1 0 o
  afterMinusRun :
    InsertsOnlyBefore (fun ch => decide (ch = ')')) (fun ch => decide (ch = '-'))
      isOperandChar 2 0 o
  afterOpen : List.Chain' (fun x y => ¬(x = '(' ∧ isReSpace y = true)) o
  beforeClose : List.Chain' (fun x y => ¬(isReSpace x = true ∧ y = ')')) o

/-! ## Arithmetic of Go `int` -/

theorem wrap_of_inRange {x : Int} (h : InRange x) : wrap x = x := by
  unfold InRange minInt maxInt at h
  unfold wrap
  omega

theorem inRange_wrap (x : Int) : InRange (wrap x) := by
  unfold InRange minInt maxInt wrap
  omega

theorem atoi_of_inRange {s : Str} (h : InRange (litVal s)) : atoi s = litVal s := by
  unfold InRange minInt maxInt at h
  unfold atoi minInt maxInt
  omega

theorem inRange_atoi (s : Str) : InRange (atoi s) := by
  unfold InRange atoi minInt maxInt
  omega

/-! ## Decimal text -/

theorem toNat_digitChar {k : Nat} (h : k < 10) : (Char.ofNat (48 + k)).toNat = 48 + k := by
  interval_cases k <;> rfl

theorem isDigit_digitChar {k : Nat} (h : k < 10) : isDigit (Char.ofNat (48 + k)) = true := by
  interval_cases k <;> rfl

theorem parseNat_append_singleton (l : Str) (ch : Char) :
    parseNat (l ++ [ch]) = parseNat l * 10 + (ch.toNat - 48) := by
  simp [parseNat, List.foldl_append]

theorem natDigits_spec : ∀ (fuel n : Nat), n < fuel →
    natDigits fuel n ≠ [] ∧ (∀ ch ∈ natDigits fuel n, isDigit ch = true)
      ∧ parseNat (natDigits fuel n) = n := by
  intro fuel
  induction fuel with
  | zero => intro n h; omega
  | succ fuel ih =>
    intro n h
    unfold natDigits
    by_cases hn : n < 10
    · simp only [hn, if_true]
      refine ⟨by simp, ?_, ?_⟩
      · intro ch hch
        simp only [List.mem_singleton] at hch
        subst hch
        exact isDigit_digitChar hn
      · simp [parseNat, toNat_digitChar hn]
    · simp only [hn, if_false]
      have hlt : n / 10 < fuel := by omega
      obtain ⟨_, h2, h3⟩ := ih (n / 10) hlt
      have hm : n % 10 < 10 := Nat.mod_lt _ (by decide)
      refine ⟨by simp, ?_, ?_⟩
      · intro ch hch
        rcases List.mem_append.mp hch with hch | hch
        · exact h2 ch hch
        · simp only [List.mem_singleton] at hch
          subst hch
          exact isDigit_digitChar hm
      · rw [parseNat_append_singleton, h3, toNat_digitChar hm]
        omega

/-! ## Characters -/

theorem char_eq_iff (a b : Char) : a = b ↔ a.toNat = b.toNat := by
  constructor
  · intro h; rw [h]
  · intro h
    apply Char.ext
    apply UInt32.ext
    exact h

theorem okPair_space_right {x : Char} (h1 : x ≠ ' ') (h2 : x ≠ '(') : okPair x ' ' = true := by
  simp only [okPair, okPairLoose, isOpNoMinus, isOperandChar, isOpChar, isReSpace, isMulDiv, isLetter,
    isDigit, char_eq_iff, ne_eq] at *
  simp at *
  omega

theorem okPair_space_left {y : Char} (h1 : y ≠ ' ') (h2 : y ≠ ')') : okPair ' ' y = true := by
  simp only [okPair, okPairLoose, isOpNoMinus, isOperandChar, isOpChar, isReSpace, isMulDiv, isLetter,
    isDigit, char_eq_iff, ne_eq] at *
  simp at *
  omega

theorem okPair_digit_digit {x y : Char} (hx : isDigit x = true) (hy : isDigit y = true) :
    okPair x y = true := by
  simp only [okPair, okPairLoose, isOpNoMinus, isOperandChar, isOpChar, isReSpace, isMulDiv, isLetter,
    isDigit, char_eq_iff, ne_eq] at *
  simp at *
  omega

theorem okPair_minus_digit {y : Char} (hy : isDigit y = true) : okPair '-' y = true := by
  simp only [okPair, okPairLoose, isOpNoMinus, isOperandChar, isOpChar, isReSpace, isMulDiv, isLetter,
    isDigit, char_eq_iff, ne_eq] at *
  simp at *
  omega

theorem okPair_letter_letter {x y : Char} (hx : isLetter x = true) (hy : isLetter y = true) :
    okPair x y = true := by
  simp only [okPair, okPairLoose, isOpNoMinus, isOperandChar, isOpChar, isReSpace, isMulDiv, isLetter,
    isDigit, char_eq_iff, ne_eq] at *
  simp at *
  omega

theorem digit_facts {x : Char} (hx : isDigit x = true) :
    isSpace x = false ∧ isReSpace x = false ∧ x ≠ '(' ∧ x ≠ ')' ∧ x ≠ '=' ∧ x ≠ '-' ∧ x ≠ '/'
      ∧ x ≠ ' ' ∧ isLetter x = false := by
  simp only [isSpace, isReSpace, isLetter, isDigit, char_eq_iff, ne_eq] at *
  simp at *
  omega

theorem letter_facts {x : Char} (hx : isLetter x = true) :
    isSpace x = false ∧ isReSpace x = false ∧ x ≠ '(' ∧ x ≠ ')' ∧ x ≠ '=' ∧ x ≠ '-' ∧ x ≠ '/'
      ∧ x ≠ ' ' ∧ isDigit x = false := by
  simp only [isSpace, isReSpace, isLetter, isDigit, char_eq_iff, ne_eq] at *
  simp at *
  omega

/-! ## Clean text is left alone by `prepareExpression` -/

theorem okPairLoose_iff (x y : Char) : okPairLoose x y = true ↔
    ¬(x = ' ' ∧ y = ' ') ∧ ¬(isOpNoMinus x = true ∧ isOperandChar y = true)
      ∧ ¬(isOperandChar x = true ∧ isOpChar y = true)
      ∧ ¬(x = '(' ∧ isReSpace y = true) ∧ ¬(isReSpace x = true ∧ y = ')')
      ∧ ¬(isMulDiv x = true ∧ isMulDiv y = true) := by
  simp only [okPairLoose, Bool.and_eq_true, Bool.not_eq_true', Bool.and_eq_false_iff,
    decide_eq_true_eq, decide_eq_false_iff_not, and_assoc, not_and_or, Bool.not_eq_true]

theorem okPair_iff (x y : Char) : okPair x y = true ↔
    okPairLoose x y = true ∧ ¬(x = '-' ∧ y = '-') := by
  simp only [okPair, Bool.and_eq_true, Bool.not_eq_true', Bool.and_eq_false_iff,
    decide_eq_true_eq, decide_eq_false_iff_not, not_and_or]

theorem Loose.rest {x : Char} {t : Str} (h : Loose (x :: t)) : Loose t :=
  List.Chain'.tail h

theorem Loose.first {x y : Char} {t : Str} (h : Loose (x :: y :: t)) :
    okPairLoose x y = true :=
  (List.chain'_cons.mp h).1

theorem Loose.weaken {R : Char → Char → Prop} (hR : ∀ x y, okPairLoose x y = true → R x y)
    {s : Str} (h : Loose s) : List.Chain' R s :=
  List.Chain'.imp (fun {a b} hab => hR a b hab) h

theorem Clean.cleanRest {x : Char} {t : Str} (h : Clean (x :: t)) : Clean t :=
  List.Chain'.tail h

theorem Clean.cleanFirst {x y : Char} {t : Str} (h : Clean (x :: y :: t)) : okPair x y = true :=
  (List.chain'_cons.mp h).1

theorem Clean.loose {s : Str} (h : Clean s) : Loose s :=
  List.Chain'.imp (fun {a b} hab => ((okPair_iff a b).mp hab).1) h

theorem containsDoubleSpace_of_loose : ∀ s : Str, Loose s → containsDoubleSpace s = false
  | [], _ => rfl
  | [_], _ => rfl
  | x :: y :: t, h => by
    have h1 := ((okPairLoose_iff x y).mp h.first).1
    have h2 := containsDoubleSpace_of_loose (y :: t) h.rest
    simp only [containsDoubleSpace, h2, Bool.or_false]
    simpa using h1

theorem collapseSpaces_of_loose (k : Nat) {s : Str} (h : Loose s) : collapseSpaces k s = s := by
  cases k with
  | zero => rfl
  | succ k => simp [collapseSpaces, containsDoubleSpace_of_loose s h]

theorem hasMulDivRun_of_loose : ∀ s : Str, Loose s → hasMulDivRun s = false
  | [], _ => rfl
  | [_], _ => rfl
  | x :: y :: t, h => by
    have h1 := ((okPairLoose_iff x y).mp h.first).2.2.2.2.2
    have h2 := hasMulDivRun_of_loose (y :: t) h.rest
    simp only [hasMulDivRun, h2, Bool.or_false]
    simpa using h1

/-- In text without a `p` character directly before a `q` character, a run of `p` is not
followed by a `q`. -/
theorem run_not_followed (p q : Char → Bool) : ∀ s : Str,
    List.Chain' (fun x y => ¬(p x = true ∧ q y = true)) s →
    s.takeWhile p = [] ∨ ∀ y ∈ (s.dropWhile p).head?, q y = false
  | [], _ => Or.inl rfl
  | [x], _ => by
    by_cases hx : p x = true
    · right; simp [List.dropWhile, hx]
    · left; simp [List.takeWhile, hx]
  | x :: y :: t, h => by
    by_cases hx : p x = true
    · right
      have hxy : ¬(p x = true ∧ q y = true) := (List.chain'_cons.mp h).1
      have hq : q y = false := by
        cases hqy : q y
        · rfl
        · exact absurd ⟨hx, hqy⟩ hxy
      rw [List.dropWhile_cons_of_pos hx]
      by_cases hy : p y = true
      · rcases run_not_followed p q (y :: t) (List.Chain'.tail h) with h1 | h1
        · simp [List.takeWhile, hy] at h1
        · exact h1
      · simp [List.dropWhile, hy, hq]
    · left; simp [List.takeWhile, hx]

theorem matchRunRun_one_none (p q : Char → Bool) (s : Str)
    (h : List.Chain' (fun x y => ¬(p x = true ∧ q y = true)) s) : matchRunRun p q 1 s = none := by
  unfold matchRunRun
  rcases run_not_followed p q s h with h1 | h1
  · simp [h1]
  · have : (s.dropWhile p).takeWhile q = [] := by
      cases hd : s.dropWhile p with
      | nil => rfl
      | cons y r =>
        have := h1 y (by simp [hd])
        simp [List.takeWhile, this]
    simp [this]

theorem matchOpOperand_of_loose {s : Str} (h : Loose s) : matchOpOperand s = none :=
  matchRunRun_one_none _ _ s (h.weaken fun x y hxy => ((okPairLoose_iff x y).mp hxy).2.1)

theorem matchOperandOp_of_loose {s : Str} (h : Loose s) : matchOperandOp s = none :=
  matchRunRun_one_none _ _ s (h.weaken fun x y hxy => ((okPairLoose_iff x y).mp hxy).2.2.1)

theorem minusRun_short : ∀ s : Str, Clean s → (s.takeWhile (fun ch => ch = '-')).length ≤ 1
  | [], _ => by simp
  | [x], _ => by
    by_cases hx : x = '-' <;> simp [List.takeWhile, hx]
  | x :: y :: t, h => by
    have hxy := ((okPair_iff x y).mp h.cleanFirst).2
    by_cases hx : x = '-'
    · have hy : ¬ y = '-' := fun hy => hxy ⟨hx, hy⟩
      simp [List.takeWhile, hx, hy]
    · simp [List.takeWhile, hx]

theorem matchMinusRun_of_clean {s : Str} (h : Clean s) : matchMinusRun s = none := by
  have := minusRun_short s h
  unfold matchMinusRun matchRunRun
  simp only
  rw [if_neg]
  omega

theorem matchOpenSpace_of_loose : ∀ {s : Str}, Loose s → matchOpenSpace s = none
  | [], _ => rfl
  | [x], _ => by simp [matchOpenSpace]
  | x :: y :: t, h => by
    have hxy := ((okPairLoose_iff x y).mp h.first).2.2.2.1
    simp only [matchOpenSpace]
    rw [if_neg]
    rintro ⟨hx, hlen⟩
    by_cases hy : isReSpace y = true
    · exact hxy ⟨hx, hy⟩
    · simp [List.takeWhile, hy] at hlen

theorem matchSpaceClose_of_loose {s : Str} (h : Loose s) : matchSpaceClose s = none := by
  have hc : List.Chain' (fun x y => ¬(isReSpace x = true ∧ (fun ch => decide (ch = ')')) y = true)) s :=
    h.weaken fun x y hxy => by
      have := ((okPairLoose_iff x y).mp hxy).2.2.2.2.1
      simpa using this
  unfold matchSpaceClose
  rw [if_neg]
  rintro ⟨hlen, hhead⟩
  rcases run_not_followed isReSpace (fun ch => decide (ch = ')')) s hc with h1 | h1
  · simp [h1] at hlen
  · have := h1 ')' (by simp [hhead])
    simp at this

theorem replaceAllWith_of_chain (m : Str → Option (Str × Nat)) (R : Char → Char → Prop)
    (hm : ∀ t : Str, List.Chain' R t → m t = none) :
    ∀ s : Str, List.Chain' R s → replaceAllWith m 0 s = s
  | [], _ => rfl
  | x :: t, h => by
    simp only [replaceAllWith, hm (x :: t) h, replaceAllWith_of_chain m R hm t h.tail]

theorem trimSpace_eq_self {s : Str} (h1 : ∀ x ∈ s.head?, isSpace x = false)
    (h2 : ∀ x ∈ s.getLast?, isSpace x = false) : trimSpace s = s := by
  unfold trimSpace
  have e1 : s.dropWhile isSpace = s := by
    cases s with
    | nil => rfl
    | cons x t =>
      have := h1 x (by simp)
      simp [List.dropWhile, this]
  rw [e1]
  have e2 : s.reverse.dropWhile isSpace = s.reverse := by
    cases hr : s.reverse with
    | nil => rfl
    | cons x t =>
      have hx : x ∈ s.getLast? := by
        have : s = (x :: t).reverse := by rw [← hr, List.reverse_reverse]
        rw [this]; simp
      have := h2 x hx
      simp [List.dropWhile, this]
  rw [e2, List.reverse_reverse]

theorem length_replaceDoubleSpace_le : ∀ s : Str, (replaceDoubleSpace s).length ≤ s.length
  | [] => by simp [replaceDoubleSpace]
  | [_] => by simp [replaceDoubleSpace]
  | a :: b :: t => by
    rw [replaceDoubleSpace]
    split
    · have := length_replaceDoubleSpace_le t
      simp only [List.length_cons]
      omega
    · have := length_replaceDoubleSpace_le (b :: t)
      simp only [List.length_cons] at this ⊢
      omega

theorem length_replaceDoubleSpace_lt : ∀ s : Str, containsDoubleSpace s = true →
    (replaceDoubleSpace s).length < s.length
  | [], h => by simp [containsDoubleSpace] at h
  | [_], h => by simp [containsDoubleSpace] at h
  | a :: b :: t, h => by
    rw [replaceDoubleSpace]
    split
    · have := length_replaceDoubleSpace_le t
      simp only [List.length_cons]
      omega
    · next hab =>
      have h' : containsDoubleSpace (b :: t) = true := by
        simp only [containsDoubleSpace, Bool.or_eq_true, Bool.and_eq_true, decide_eq_true_eq] at h
        rcases h with h | h
        · exact absurd h hab
        · exact h
      have := length_replaceDoubleSpace_lt (b :: t) h'
      simp only [List.length_cons] at this ⊢
      omega

/-- The bound `len(line)` on the rounds of the loop that collapses spaces is never
reached: the loop ends, as in the program, when no two spaces in a row are left. -/
theorem collapseSpaces_complete : ∀ (k : Nat) (s : Str), s.length ≤ k →
    containsDoubleSpace (collapseSpaces k s) = false
  | 0, s, h => by
    have : s = [] := List.length_eq_zero.mp (Nat.le_zero.mp h)
    subst this
    rfl
  | k + 1, s, h => by
    rw [collapseSpaces]
    split
    · next hc =>
      have := length_replaceDoubleSpace_lt s hc
      exact collapseSpaces_complete k _ (by omega)
    · next hc => simpa using hc

/-- Loose text on which the minus-run pattern changes nothing, that neither starts nor
ends with white space and is not a command, is a fixed point of `prepareExpression`. -/
theorem prepareExpression_of_loose {s : Str} (hc : Loose s)
    (hm : replaceAllWith matchMinusRun 0 s = s)
    (h1 : ∀ x ∈ s.head?, isSpace x = false ∧ x ≠ '/')
    (h2 : ∀ x ∈ s.getLast?, isSpace x = false) : prepareExpression s = s := by
  unfold prepareExpression
  have e : trimSpace s = s := trimSpace_eq_self (fun x hx => (h1 x hx).1) h2
  have hh : ¬ s.head? = some '/' := fun hh => (h1 '/' (by simp [hh])).2 rfl
  simp only [e, hh, if_false, collapseSpaces_of_loose _ hc,
    replaceAllWith_of_chain _ _ (fun t ht => matchOpOperand_of_loose ht) s hc,
    replaceAllWith_of_chain _ _ (fun t ht => matchOperandOp_of_loose ht) s hc, hm,
    replaceAllWith_of_chain _ _ (fun t ht => matchOpenSpace_of_loose ht) s hc,
    replaceAllWith_of_chain _ _ (fun t ht => matchSpaceClose_of_loose ht) s hc]

/-- Clean text that neither starts nor ends with white space and is not a command is a
fixed point of `prepareExpression`. -/
theorem prepareExpression_of_clean {s : Str} (hc : Clean s)
    (h1 : ∀ x ∈ s.head?, isSpace x = false ∧ x ≠ '/')
    (h2 : ∀ x ∈ s.getLast?, isSpace x = false) : prepareExpression s = s :=
  prepareExpression_of_loose hc.loose
    (replaceAllWith_of_chain _ _ (fun _ ht => matchMinusRun_of_clean ht) s hc) h1 h2

/-! ## Tokens -/

theorem isNumeric_iff (s : Str) : isNumeric s = true ↔
    (∃ ds : Str, s = '-' :: ds ∧ ds ≠ [] ∧ ∀ ch ∈ ds, isDigit ch = true)
      ∨ (s ≠ [] ∧ ∀ ch ∈ s, isDigit ch = true) := by
  cases s with
  | nil => simp [isNumeric]
  | cons x t =>
    by_cases hx : x = '-'
    · subst hx
      simp only [isNumeric, if_true, Bool.and_eq_true, decide_eq_true_eq, List.all_eq_true]
      constructor
      · rintro ⟨h1, h2⟩
        exact Or.inl ⟨t, rfl, h1, h2⟩
      · rintro (⟨ds, h0, h1, h2⟩ | ⟨_, h2⟩)
        · cases h0
          exact ⟨h1, h2⟩
        · exact absurd (h2 '-' (by simp)) (by decide)
    · simp only [isNumeric, hx, if_false, List.all_eq_true]
      constructor
      · intro h
        exact Or.inr ⟨by simp, h⟩
      · rintro (⟨ds, h0, _, _⟩ | ⟨_, h2⟩)
        · cases h0
          exact absurd rfl hx
        · exact h2

theorem isValidVariable_iff (s : Str) : isValidVariable s = true ↔
    s ≠ [] ∧ ∀ ch ∈ s, isLetter ch = true := by
  simp [isValidVariable]

theorem clean_of_all (P : Char → Prop) (hP : ∀ x y, P x → P y → okPair x y = true) :
    ∀ s : Str, (∀ ch ∈ s, P ch) → Clean s
  | [], _ => List.chain'_nil
  | [_], _ => List.chain'_singleton _
  | x :: y :: t, h => by
    refine List.chain'_cons.mpr ⟨hP x y (h x (by simp)) (h y (by simp)), ?_⟩
    exact clean_of_all P hP (y :: t) (fun ch hch => h ch (List.mem_cons_of_mem _ hch))

theorem tok_digits {s : Str} (hne : s ≠ []) (h : ∀ ch ∈ s, isDigit ch = true) : Tok s where
  ne := hne
  clean := clean_of_all (fun ch => isDigit ch = true) (fun _ _ hx hy => okPair_digit_digit hx hy) s h
  noSpace := fun ch hch => ⟨(digit_facts (h ch hch)).1, (digit_facts (h ch hch)).2.1⟩
  noParen := fun ch hch => ⟨(digit_facts (h ch hch)).2.2.1, (digit_facts (h ch hch)).2.2.2.1⟩

theorem tok_numeric {s : Str} (h : isNumeric s = true) : Tok s := by
  rcases (isNumeric_iff s).mp h with ⟨ds, rfl, hne, hd⟩ | ⟨hne, hd⟩
  · have hds := tok_digits hne hd
    refine ⟨by simp, ?_, ?_, ?_⟩
    · cases ds with
      | nil => exact absurd rfl hne
      | cons y r => exact List.chain'_cons.mpr ⟨okPair_minus_digit (hd y (by simp)), hds.clean⟩
    · intro ch hch
      rcases List.mem_cons.mp hch with rfl | hch
      · exact ⟨by decide, by decide⟩
      · exact hds.noSpace ch hch
    · intro ch hch
      rcases List.mem_cons.mp hch with rfl | hch
      · exact ⟨by decide, by decide⟩
      · exact hds.noParen ch hch
  · exact tok_digits hne hd

theorem tok_name {s : Str} (h : isValidVariable s = true) : Tok s := by
  obtain ⟨hne, hl⟩ := (isValidVariable_iff s).mp h
  exact
    { ne := hne
      clean := clean_of_all (fun ch => isLetter ch = true)
        (fun _ _ hx hy => okPair_letter_letter hx hy) s hl
      noSpace := fun ch hch => ⟨(letter_facts (hl ch hch)).1, (letter_facts (hl ch hch)).2.1⟩
      noParen := fun ch hch =>
        ⟨(letter_facts (hl ch hch)).2.2.1, (letter_facts (hl ch hch)).2.2.2.1⟩ }

theorem tok_single {o : Char} (h1 : isSpace o = false) (h2 : isReSpace o = false)
    (h3 : o ≠ '(') (h4 : o ≠ ')') : Tok [o] where
  ne := by simp
  clean := List.chain'_singleton _
  noSpace := fun ch hch => by
    rw [List.mem_singleton] at hch; subst hch; exact ⟨h1, h2⟩
  noParen := fun ch hch => by
    rw [List.mem_singleton] at hch; subst hch; exact ⟨h3, h4⟩

theorem Tok.lex {t : Str} (h : Tok t) : Lex t :=
  ⟨h.ne, h.clean.loose, h.noSpace, h.noParen⟩

theorem Lex.noBlank {t : Str} (h : Lex t) {ch : Char} (hch : ch ∈ t) : ch ≠ ' ' := by
  rintro rfl
  exact absurd (h.noSpace ' ' hch).1 (by decide)

theorem Tok.noBlankTok {t : Str} (h : Tok t) {ch : Char} (hch : ch ∈ t) : ch ≠ ' ' :=
  h.lex.noBlank hch

theorem lex_of_tok {ts : List Str} (h : ∀ t ∈ ts, Tok t) : ∀ t ∈ ts, Lex t :=
  fun t ht => (h t ht).lex

theorem joinSp_cons_cons (t u : Str) (r : List Str) :
    joinSp (t :: u :: r) = t ++ ' ' :: joinSp (u :: r) := rfl

theorem head?_joinSp (t : Str) (r : List Str) (ht : t ≠ []) :
    (joinSp (t :: r)).head? = t.head? := by
  cases t with
  | nil => exact absurd rfl ht
  | cons x t' => cases r <;> rfl

theorem mem_joinSp {ch : Char} : ∀ {ts : List Str}, ch ∈ joinSp ts →
    ch = ' ' ∨ ∃ t ∈ ts, ch ∈ t
  | [], h => by simp [joinSp] at h
  | [t], h => Or.inr ⟨t, by simp, h⟩
  | t :: u :: r, h => by
    rw [joinSp_cons_cons] at h
    rcases List.mem_append.mp h with h | h
    · exact Or.inr ⟨t, by simp, h⟩
    · rcases List.mem_cons.mp h with h | h
      · exact Or.inl h
      · rcases mem_joinSp h with h | ⟨t', ht', h⟩
        · exact Or.inl h
        · exact Or.inr ⟨t', List.mem_cons_of_mem _ ht', h⟩

theorem chain_joinSp (R : Char → Char → Prop) (hr : ∀ x, x ≠ ' ' → x ≠ '(' → R x ' ')
    (hl : ∀ y, y ≠ ' ' → y ≠ ')' → R ' ' y) :
    ∀ ts : List Str, (∀ t ∈ ts, Lex t ∧ List.Chain' R t) → List.Chain' R (joinSp ts)
  | [], _ => List.chain'_nil
  | [t], h => (h t (by simp)).2
  | t :: u :: r, h => by
    have ht := h t (by simp)
    have hu := h u (by simp)
    have ih := chain_joinSp R hr hl (u :: r) (fun t' ht' => h t' (List.mem_cons_of_mem _ ht'))
    rw [joinSp_cons_cons]
    refine List.chain'_append.mpr ⟨ht.2, ?_, ?_⟩
    · refine List.chain'_cons'.mpr ⟨?_, ih⟩
      intro y hy
      rw [head?_joinSp u r hu.1.ne] at hy
      have hy' : y ∈ u := List.mem_of_mem_head? hy
      exact hl y (hu.1.noBlank hy') (hu.1.noParen y hy').2
    · intro x hx y hy
      simp only [List.head?_cons, Option.mem_def, Option.some.injEq] at hy
      subst hy
      have hx' : x ∈ t := List.mem_of_mem_getLast? hx
      exact hr x (ht.1.noBlank hx') (ht.1.noParen x hx').1

theorem loose_joinSp (ts : List Str) (h : ∀ t ∈ ts, Lex t) : Loose (joinSp ts) :=
  chain_joinSp _
    (fun _ h1 h2 => ((okPair_iff _ _).mp (okPair_space_right h1 h2)).1)
    (fun _ h1 h2 => ((okPair_iff _ _).mp (okPair_space_left h1 h2)).1)
    ts (fun t ht => ⟨h t ht, (h t ht).loose⟩)

theorem clean_joinSp (ts : List Str) (h : ∀ t ∈ ts, Tok t) : Clean (joinSp ts) :=
  chain_joinSp _ (fun _ h1 h2 => okPair_space_right h1 h2)
    (fun _ h1 h2 => okPair_space_left h1 h2)
    ts (fun t ht => ⟨(h t ht).lex, (h t ht).clean⟩)

theorem splitSpace_ne_nil : ∀ s : Str, splitSpace s ≠ []
  | [] => by simp [splitSpace]
  | x :: t => by
    unfold splitSpace
    split
    · simp
    · split <;> simp

theorem splitSpace_append : ∀ (t r : Str), (∀ ch ∈ t, ch ≠ ' ') →
    splitSpace (t ++ ' ' :: r) = t :: splitSpace r
  | [], r, _ => by simp [splitSpace]
  | x :: t, r, h => by
    have hx : x ≠ ' ' := h x (by simp)
    have ih := splitSpace_append t r (fun ch hch => h ch (List.mem_cons_of_mem _ hch))
    show splitSpace (x :: (t ++ ' ' :: r)) = (x :: t) :: splitSpace r
    rw [splitSpace, if_neg hx, ih]

theorem splitSpace_single : ∀ t : Str, (∀ ch ∈ t, ch ≠ ' ') → splitSpace t = [t]
  | [], _ => rfl
  | x :: t, h => by
    have hx : x ≠ ' ' := h x (by simp)
    have ih := splitSpace_single t (fun ch hch => h ch (List.mem_cons_of_mem _ hch))
    simp only [splitSpace, hx, if_false, ih]

theorem splitSpace_joinSp : ∀ ts : List Str, ts ≠ [] → (∀ t ∈ ts, Lex t) →
    splitSpace (joinSp ts) = ts
  | [], h, _ => absurd rfl h
  | [t], _, h => splitSpace_single t (fun ch hch => (h t (by simp)).noBlank hch)
  | t :: u :: r, _, h => by
    rw [joinSp_cons_cons, splitSpace_append t _ (fun ch hch => (h t (by simp)).noBlank hch),
      splitSpace_joinSp (u :: r) (by simp) (fun t' ht' => h t' (List.mem_cons_of_mem _ ht'))]

theorem joinSp_ne_nil {t : Str} (r : List Str) (ht : t ≠ []) : joinSp (t :: r) ≠ [] := by
  intro he
  have := head?_joinSp t r ht
  rw [he] at this
  cases t with
  | nil => exact ht rfl
  | cons a b => simp at this

theorem getLast?_joinSp : ∀ (ts : List Str), (∀ t ∈ ts, Lex t) →
    ∀ x ∈ (joinSp ts).getLast?, isSpace x = false
  | [], _, x, hx => by simp [joinSp] at hx
  | [t], h, x, hx => ((h t (by simp)).noSpace x (List.mem_of_mem_getLast? hx)).1
  | t :: u :: r, h, x, hx => by
    have hu := h u (by simp)
    have hne : joinSp (u :: r) ≠ [] := joinSp_ne_nil r hu.ne
    obtain ⟨a, b, hab⟩ := List.exists_cons_of_ne_nil hne
    rw [joinSp_cons_cons, List.getLast?_append_of_ne_nil _ (by simp), hab,
      List.getLast?_cons_cons, ← hab] at hx
    exact getLast?_joinSp (u :: r) (fun t' ht' => h t' (List.mem_cons_of_mem _ ht')) x hx

/-- Tokens joined by single spaces, the first of them not starting with `/`, are a fixed
point of `prepareExpression`. -/
theorem prepareExpression_joinSp (t : Str) (r : List Str) (h : ∀ u ∈ t :: r, Tok u)
    (hcmd : ∀ x ∈ t.head?, x ≠ '/') : prepareExpression (joinSp (t :: r)) = joinSp (t :: r) := by
  have ht := h t (by simp)
  apply prepareExpression_of_clean (clean_joinSp _ h)
  · intro x hx
    rw [head?_joinSp t r ht.ne] at hx
    exact ⟨(ht.noSpace x (List.mem_of_mem_head? hx)).1, hcmd x hx⟩
  · exact getLast?_joinSp _ (lex_of_tok h)

theorem count_joinSp_eq_zero {p : Char} (hp : p ≠ ' ') (ts : List Str)
    (h : ∀ t ∈ ts, p ∉ t) : (joinSp ts).count p = 0 := by
  rw [List.count_eq_zero]
  intro hmem
  rcases mem_joinSp hmem with h1 | ⟨t, ht, h1⟩
  · exact hp h1
  · exact h t ht h1

/-! ## Parsing and evaluating token text -/

theorem numeric_chars {a : Str} (h : isNumeric a = true) :
    ∀ ch ∈ a, ch = '-' ∨ isDigit ch = true := by
  rcases (isNumeric_iff a).mp h with ⟨ds, rfl, _, hd⟩ | ⟨_, hd⟩
  · intro ch hch
    rcases List.mem_cons.mp hch with h1 | h1
    · exact Or.inl h1
    · exact Or.inr (hd ch h1)
  · intro ch hch
    exact Or.inr (hd ch hch)

theorem numeric_noEq {a : Str} (h : isNumeric a = true) : '=' ∉ a := by
  intro hmem
  rcases numeric_chars h '=' hmem with h1 | h1
  · exact absurd h1 (by decide)
  · exact absurd h1 (by decide)

theorem numeric_head {a : Str} (h : isNumeric a = true) : ∀ x ∈ a.head?, x ≠ '/' := by
  intro x hx
  rcases numeric_chars h x (List.mem_of_mem_head? hx) with h1 | h1
  · rw [h1]; decide
  · exact (digit_facts h1).2.2.2.2.2.2.1

theorem name_noEq {v : Str} (h : isValidVariable v = true) : '=' ∉ v := by
  intro hmem
  exact absurd ((isValidVariable_iff v).mp h |>.2 '=' hmem) (by decide)

theorem name_head {v : Str} (h : isValidVariable v = true) : ∀ x ∈ v.head?, x ≠ '/' := by
  intro x hx
  exact (letter_facts ((isValidVariable_iff v).mp h |>.2 x (List.mem_of_mem_head? hx))).2.2.2.2.2.2.1

theorem name_not_numeric {v : Str} (h : isValidVariable v = true) : isNumeric v = false := by
  obtain ⟨hne, hl⟩ := (isValidVariable_iff v).mp h
  cases hn : isNumeric v
  · rfl
  · obtain ⟨x, t, rfl⟩ := List.exists_cons_of_ne_nil hne
    have hx := hl x (by simp)
    rcases numeric_chars hn x (by simp) with h1 | h1
    · exact absurd hx (by rw [h1]; decide)
    · rw [(letter_facts hx).2.2.2.2.2.2.2.2] at h1
      exact absurd h1 (by decide)

theorem getValue_numeric (c : Calculator) {a : Str} (h : isNumeric a = true) :
    getValue c a = .ok (atoi a) := by
  simp [getValue, h]

theorem getValue_name (c : Calculator) {v : Str} (h : isValidVariable v = true) :
    getValue c v = match c.vars v with
      | some n => .ok n
      | none => .error .unknownVariable := by
  simp [getValue, h, name_not_numeric h]

theorem parseExpression_joinSp_lex (c : Calculator) (ts : List Str) (hne : ts ≠ [])
    (h : ∀ t ∈ ts, Lex t) :
    parseExpression c (joinSp ts) = parseSplit c (joinSp ts) ts := by
  have h1 : hasMulDivRun (joinSp ts) = false := hasMulDivRun_of_loose _ (loose_joinSp ts h)
  have h2 : (joinSp ts).count '(' = 0 :=
    count_joinSp_eq_zero (by decide) ts (fun t ht hm => ((h t ht).noParen _ hm).1 rfl)
  have h3 : (joinSp ts).count ')' = 0 :=
    count_joinSp_eq_zero (by decide) ts (fun t ht hm => ((h t ht).noParen _ hm).2 rfl)
  have h4 := splitSpace_joinSp ts hne h
  unfold parseExpression
  simp only [h1, h2, h3, h4, ne_eq, not_true_eq_false, if_false, Bool.false_eq_true]

theorem parseExpression_joinSp (c : Calculator) (ts : List Str) (hne : ts ≠ [])
    (h : ∀ t ∈ ts, Tok t) :
    parseExpression c (joinSp ts) = parseSplit c (joinSp ts) ts :=
  parseExpression_joinSp_lex c ts hne (lex_of_tok h)

theorem not_mem_joinSp {p : Char} (hp : p ≠ ' ') {ts : List Str} (h : ∀ t ∈ ts, p ∉ t) :
    p ∉ joinSp ts := by
  intro hmem
  rcases mem_joinSp hmem with h1 | ⟨t, ht, h1⟩
  · exact hp h1
  · exact h t ht h1

/-- The four arithmetic operator characters. -/
theorem tok_arith {o : Char} (ho : o = '+' ∨ o = '-' ∨ o = '*' ∨ o = '/') : Tok [o] := by
  rcases ho with rfl | rfl | rfl | rfl <;>
    exact tok_single (by decide) (by decide) (by decide) (by decide)

theorem calculate_binary (c0 : Calculator) (a b : Str) (o : Char) (sub : Bool)
    (ha : isNumeric a = true) (hb : isNumeric b = true)
    (ho : o = '+' ∨ o = '-' ∨ o = '*' ∨ o = '/') :
    calculate (reset c0) (joinSp [a, [o], b]) sub =
      match applyOperator (firstByte o) [atoi a, atoi b] 0 with
      | .ok r => (.ok (r, true), reset c0)
      | r => (r.cast (0, false),
          { reset c0 with operands := [atoi a, atoi b], operators := [firstByte o] }) := by
  have htok : ∀ t ∈ [a, [o], b], Tok t := by
    intro t ht
    simp only [List.mem_cons, List.mem_singleton, List.not_mem_nil, or_false] at ht
    rcases ht with rfl | rfl | rfl
    · exact tok_numeric ha
    · exact tok_arith ho
    · exact tok_numeric hb
  have hne : '=' ∉ joinSp [a, [o], b] := by
    apply not_mem_joinSp (by decide)
    intro t ht
    simp only [List.mem_cons, List.mem_singleton, List.not_mem_nil, or_false] at ht
    rcases ht with rfl | rfl | rfl
    · exact numeric_noEq ha
    · rcases ho with rfl | rfl | rfl | rfl <;> decide
    · exact numeric_noEq hb
  unfold calculate
  rw [parseExpression_joinSp _ _ (by simp) htok]
  simp only [parseSplit, hne, if_false]
  have e1 : firstByte '+' = 43 := by decide
  have e2 : firstByte '-' = 45 := by decide
  have e3 : firstByte '*' = 42 := by decide
  have e4 : firstByte '/' = 47 := by decide
  have e5 : byteLen ['-'] = 1 := by decide
  rcases ho with rfl | rfl | rfl | rfl
  · simp [parseParts, parsePart, getValue_numeric, ha, hb, reset, e1, reduce, reduceTiers, reduceTier,
      findAny, applyOperator, priotiritisedOperators, removeByIndexByte, removeByIndexInt]
  · simp [parseParts, parsePart, getValue_numeric, ha, hb, reset, e2, e5, reduce, reduceTiers, reduceTier,
      findAny, applyOperator, priotiritisedOperators, removeByIndexByte, removeByIndexInt]
  · simp [parseParts, parsePart, getValue_numeric, ha, hb, reset, e3, reduce, reduceTiers, reduceTier,
      findAny, applyOperator, priotiritisedOperators, removeByIndexByte, removeByIndexInt]
  · by_cases hz : atoi b = 0 <;>
      simp [parseParts, parsePart, getValue_numeric, ha, hb, reset, e4, reduce, reduceTiers, reduceTier,
        findAny, applyOperator, priotiritisedOperators, removeByIndexByte, removeByIndexInt, hz,
        Res.cast]

/-! ## Parenthesised groups -/

theorem matchGroup_none_of_ne {x : Char} (t : Str) (hx : x ≠ '(') : matchGroup (x :: t) = none := by
  simp [matchGroup, hx]

theorem findGroup_of_no_open : ∀ s : Str, '(' ∉ s → findGroup s = []
  | [], _ => rfl
  | x :: t, h => by
    have hx : x ≠ '(' := fun hx => h (by simp [hx])
    have ht : '(' ∉ t := fun ht => h (List.mem_cons_of_mem _ ht)
    simp only [findGroup, matchGroup_none_of_ne t hx, findGroup_of_no_open t ht]

theorem takeWhile_body {body : Str} (rest : Str) (h : ∀ ch ∈ body, isNotParen ch = true) :
    (body ++ ')' :: rest).takeWhile isNotParen = body := by
  rw [List.takeWhile_append_of_pos h]
  simp [List.takeWhile, isNotParen]

theorem dropWhile_body {body : Str} (rest : Str) (h : ∀ ch ∈ body, isNotParen ch = true) :
    (body ++ ')' :: rest).dropWhile isNotParen = ')' :: rest := by
  induction body with
  | nil => simp [List.dropWhile, isNotParen]
  | cons x t ih =>
    have hx := h x (by simp)
    simp only [List.cons_append, List.dropWhile, hx]
    exact ih (fun ch hch => h ch (List.mem_cons_of_mem _ hch))

theorem matchGroup_body {body : Str} (rest : Str) (hne : body ≠ [])
    (h : ∀ ch ∈ body, isNotParen ch = true) :
    matchGroup ('(' :: (body ++ ')' :: rest)) = some ('(' :: (body ++ [')'])) := by
  have hlen : 1 ≤ body.length := List.length_pos.mpr hne
  simp [matchGroup, takeWhile_body rest h, dropWhile_body rest h, hlen]

/-- Before the first `)` of a text the next parenthesis after any position is a `(`. -/
theorem head?_dropWhile_open : ∀ (pre rest : Str), ')' ∉ pre →
    ((pre ++ '(' :: rest).dropWhile isNotParen).head? = some '('
  | [], rest, _ => by simp [List.dropWhile, isNotParen]
  | x :: t, rest, h => by
    have ht : ')' ∉ t := fun ht => h (List.mem_cons_of_mem _ ht)
    have hx : x ≠ ')' := fun hx => h (by simp [hx])
    by_cases hx2 : x = '('
    · simp [List.dropWhile, isNotParen, hx2]
    · have : isNotParen x = true := by simp [isNotParen, hx, hx2]
      simp only [List.cons_append, List.dropWhile, this]
      exact head?_dropWhile_open t rest ht

theorem matchGroup_none_before (x : Char) (pre rest : Str) (h : ')' ∉ pre) :
    matchGroup (x :: (pre ++ '(' :: rest)) = none := by
  simp only [matchGroup]
  rw [if_neg]
  rintro ⟨_, _, h3⟩
  rw [head?_dropWhile_open pre rest h] at h3
  exact absurd h3 (by decide)

theorem findGroup_first : ∀ (pre : Str) {body : Str} (suf : Str), ')' ∉ pre → body ≠ [] →
    (∀ ch ∈ body, isNotParen ch = true) →
    findGroup (pre ++ '(' :: body ++ ')' :: suf) = '(' :: body ++ [')']
  | [], body, suf, _, hne, hb => by
    have e : ([] : Str) ++ '(' :: body ++ ')' :: suf = ('(' :: body ++ ')' :: suf) := rfl
    rw [e, List.cons_append, findGroup, matchGroup_body suf hne hb]
    rfl
  | x :: t, body, suf, h, hne, hb => by
    have ht : ')' ∉ t := fun ht => h (List.mem_cons_of_mem _ ht)
    have e : (x :: t) ++ '(' :: body ++ ')' :: suf = x :: (t ++ '(' :: (body ++ ')' :: suf)) := by
      simp
    rw [e, findGroup, matchGroup_none_before x t _ ht]
    have := findGroup_first t suf ht hne hb
    simpa using this

theorem head?_dropWhile_append (p : Char → Bool) : ∀ (l r : Str) (y : Char),
    (l.dropWhile p).head? = some y → ((l ++ r).dropWhile p).head? = some y
  | [], _, _, h => by simp at h
  | x :: t, r, y, h => by
    by_cases hx : p x = true
    · simp only [List.dropWhile, hx] at h
      simp only [List.cons_append, List.dropWhile, hx]
      exact head?_dropWhile_append p t r y h
    · simp only [List.dropWhile, hx] at h
      simp only [List.cons_append, List.dropWhile, hx]
      exact h

theorem not_prefix_before (x : Char) (pre : Str) {body : Str} (rest : Str) (h : ')' ∉ pre)
    (hb : ∀ ch ∈ body, isNotParen ch = true) :
    ¬ ('(' :: body ++ [')']) <+: x :: (pre ++ '(' :: rest) := by
  rintro ⟨r, hr⟩
  have h1 : ((body ++ [')']).dropWhile isNotParen).head? = some ')' := by
    rw [dropWhile_body [] hb]; rfl
  have h2 := head?_dropWhile_append isNotParen (body ++ [')']) r ')' h1
  have e : body ++ [')'] ++ r = pre ++ '(' :: rest := by
    have := List.tail_eq_of_cons_eq hr
    simpa using this
  rw [e, head?_dropWhile_open pre rest h] at h2
  exact absurd h2 (by decide)

theorem replaceFirst_at_head (g new suf : Str) (hg : g ≠ []) :
    replaceFirst (g ++ suf) g new = new ++ suf := by
  obtain ⟨x, t, rfl⟩ := List.exists_cons_of_ne_nil hg
  have hp : (x :: t) <+: x :: (t ++ suf) := List.prefix_append (x :: t) suf
  have e : (x :: (t ++ suf)).drop (x :: t).length = suf := List.drop_left (x :: t) suf
  rw [List.cons_append, replaceFirst, if_pos hp, e]

theorem replaceFirst_group : ∀ (pre : Str) {body : Str} (suf new : Str), ')' ∉ pre →
    (∀ ch ∈ body, isNotParen ch = true) →
    replaceFirst (pre ++ '(' :: body ++ ')' :: suf) ('(' :: body ++ [')']) new = pre ++ new ++ suf
  | [], body, suf, new, _, _ => by
    have e : ([] : Str) ++ '(' :: body ++ ')' :: suf = ('(' :: body ++ [')']) ++ suf := by simp
    rw [e, replaceFirst_at_head _ _ _ (by simp)]
    rfl
  | x :: t, body, suf, new, h, hb => by
    have ht : ')' ∉ t := fun ht => h (List.mem_cons_of_mem _ ht)
    have e : (x :: t) ++ '(' :: body ++ ')' :: suf = x :: (t ++ '(' :: (body ++ ')' :: suf)) := by
      simp
    rw [e, replaceFirst, if_neg (not_prefix_before x t _ ht hb)]
    have := replaceFirst_group t suf new ht hb
    simp only [List.append_assoc, List.cons_append] at this ⊢
    rw [this]

theorem replaceFirst_close : ∀ (body : Str), ')' ∉ body →
    replaceFirst (body ++ [')']) [')'] [] = body
  | [], _ => by simp [replaceFirst]
  | x :: t, h => by
    have ht : ')' ∉ t := fun ht => h (List.mem_cons_of_mem _ ht)
    have hx : ¬ x = ')' := fun hx => h (by simp [hx])
    have hp : ¬ [')'] <+: x :: (t ++ [')']) := by
      rintro ⟨r, hr⟩
      exact hx (List.head_eq_of_cons_eq hr).symm
    rw [List.cons_append, replaceFirst, if_neg hp, replaceFirst_close t ht]

theorem strip_group {body : Str} (hb : ∀ ch ∈ body, isNotParen ch = true) :
    replaceFirst (replaceFirst ('(' :: body ++ [')']) ['('] []) [')'] [] = body := by
  have e1 : replaceFirst ('(' :: body ++ [')']) ['('] [] = body ++ [')'] := by
    have := replaceFirst_at_head ['('] [] (body ++ [')']) (by simp)
    simpa using this
  rw [e1]
  apply replaceFirst_close
  intro hm
  have := hb ')' hm
  simp [isNotParen] at this

/-- One round of the first loop of `handleExpression` on a text whose leftmost innermost
group is `(body)`. -/
theorem resolveGroups_step (k : Nat) (c : Calculator) (pre : Str) {body : Str} (suf : Str)
    (hpre : ')' ∉ pre) (hne : body ≠ []) (hb : ∀ ch ∈ body, isNotParen ch = true) :
    resolveGroups (k + 1) c (pre ++ '(' :: body ++ ')' :: suf) =
      match calculate c (prepareExpression body) true with
      | (.ok (n, _), c1) => resolveGroups k c1 (pre ++ itoa n ++ suf)
      | (r, c1) => (r.cast [], c1) := by
  rw [resolveGroups]
  simp only [findGroup_first pre suf hpre hne hb, strip_group hb, replaceFirst_group pre suf _ hpre hb]
  simp

theorem resolveGroups_flat (k : Nat) (c : Calculator) (s : Str) (h : '(' ∉ s) :
    resolveGroups (k + 1) c s = (.ok s, c) := by
  simp [resolveGroups, findGroup_of_no_open s h]

/-! ## `strconv.Itoa` produces literals that `strconv.Atoi` reads back -/

theorem digit_ne_minus {s : Str} (h : ∀ ch ∈ s, isDigit ch = true) {x : Char} {t : Str}
    (hs : s = x :: t) : x ≠ '-' :=
  (digit_facts (h x (by simp [hs]))).2.2.2.2.2.1

theorem isNumeric_itoa (n : Int) : isNumeric (itoa n) = true := by
  obtain ⟨h1, h2, _⟩ := natDigits_spec (n.natAbs + 1) n.natAbs (Nat.lt_succ_self _)
  rw [isNumeric_iff]
  unfold itoa
  by_cases hn : n < 0
  · rw [if_pos hn]
    exact Or.inl ⟨_, rfl, h1, h2⟩
  · rw [if_neg hn]
    exact Or.inr ⟨h1, h2⟩

theorem litVal_itoa (n : Int) : litVal (itoa n) = n := by
  obtain ⟨h1, h2, h3⟩ := natDigits_spec (n.natAbs + 1) n.natAbs (Nat.lt_succ_self _)
  unfold itoa
  by_cases hn : n < 0
  · rw [if_pos hn]
    simp only [litVal, if_true, h3]
    omega
  · rw [if_neg hn]
    obtain ⟨x, t, hxt⟩ := List.exists_cons_of_ne_nil h1
    have hx : x ≠ '-' := digit_ne_minus h2 hxt
    rw [hxt]
    simp only [litVal, hx, if_false]
    rw [← hxt, h3]
    omega

theorem atoi_itoa {n : Int} (h : InRange n) : atoi (itoa n) = n := by
  rw [atoi_of_inRange (by rw [litVal_itoa]; exact h), litVal_itoa]

theorem atoi_itoa_wrap (x : Int) : atoi (itoa (wrap x)) = wrap x :=
  atoi_itoa (inRange_wrap x)

/-! ## Whole inputs -/

theorem evaluateFlat_tokens (c : Calculator) (t : Str) (r : List Str) (h : ∀ u ∈ t :: r, Tok u)
    (hcmd : ∀ x ∈ t.head?, x ≠ '/') :
    evaluateFlat c (joinSp (t :: r)) =
      match calculate c (joinSp (t :: r)) false with
      | (.ok (n, print), c2) =>
        { result := .ok (), state := c2, printed := if print then [.int n] else [] }
      | (r, c2) => { result := r.cast (), state := c2, printed := [] } := by
  have ht := h t (by simp)
  unfold evaluateFlat
  rw [prepareExpression_joinSp t r h hcmd]
  obtain ⟨x, s, hs⟩ := List.exists_cons_of_ne_nil (joinSp_ne_nil r ht.ne)
  have hx : x ≠ '/' := by
    apply hcmd
    rw [← head?_joinSp t r ht.ne, hs]
    rfl
  rw [hs]
  simp only [hx, if_false]

theorem not_mem_open_joinSp {ts : List Str} (h : ∀ t ∈ ts, Tok t) : '(' ∉ joinSp ts :=
  not_mem_joinSp (by decide) (fun t ht hm => ((h t ht).noParen _ hm).1 rfl)

theorem handleExpression_tokens (c : Calculator) (t : Str) (r : List Str)
    (h : ∀ u ∈ t :: r, Tok u) :
    handleExpression c (joinSp (t :: r)) = evaluateFlat c (joinSp (t :: r)) := by
  unfold handleExpression
  rw [resolveGroups_flat _ _ _ (not_mem_open_joinSp h)]

theorem tok_list3 {a b : Str} {o : Char} (ha : Tok a) (ho : Tok [o]) (hb : Tok b) :
    ∀ t ∈ [a, [o], b], Tok t := by
  intro t ht
  simp only [List.mem_cons, List.mem_singleton, List.not_mem_nil, or_false] at ht
  rcases ht with rfl | rfl | rfl
  · exact ha
  · exact ho
  · exact hb

theorem calculate_sum_product (c0 : Calculator) (a b c : Str)
    (ha : isNumeric a = true) (hb : isNumeric b = true) (hc : isNumeric c = true) :
    calculate (reset c0) (joinSp [a, ['+'], b, ['*'], c]) false =
      (.ok (goAdd (atoi a) (goMul (atoi b) (atoi c)), true), reset c0) := by
  have htok : ∀ t ∈ [a, ['+'], b, ['*'], c], Tok t := by
    intro t ht
    simp only [List.mem_cons, List.mem_singleton, List.not_mem_nil, or_false] at ht
    rcases ht with rfl | rfl | rfl | rfl | rfl
    · exact tok_numeric ha
    · exact tok_arith (by simp)
    · exact tok_numeric hb
    · exact tok_arith (by simp)
    · exact tok_numeric hc
  have hne : '=' ∉ joinSp [a, ['+'], b, ['*'], c] := by
    apply not_mem_joinSp (by decide)
    intro t ht
    simp only [List.mem_cons, List.mem_singleton, List.not_mem_nil, or_false] at ht
    rcases ht with rfl | rfl | rfl | rfl | rfl
    · exact numeric_noEq ha
    · decide
    · exact numeric_noEq hb
    · decide
    · exact numeric_noEq hc
  have e1 : firstByte '+' = 43 := by decide
  have e3 : firstByte '*' = 42 := by decide
  unfold calculate
  rw [parseExpression_joinSp _ _ (by simp) htok]
  simp [parseSplit, hne, parseParts, parsePart, getValue_numeric, ha, hb, hc, reset, e1, e3, reduce,
    reduceTiers, reduceTier, findAny, applyOperator, priotiritisedOperators, removeByIndexByte,
    removeByIndexInt]

theorem numeric_isNotParen {a : Str} (h : isNumeric a = true) :
    ∀ ch ∈ a, isNotParen ch = true := by
  intro ch hch
  have := (tok_numeric h).noParen ch hch
  simp [isNotParen, this.1, this.2]

theorem joinSp_isNotParen {ts : List Str} (h : ∀ t ∈ ts, Tok t) :
    ∀ ch ∈ joinSp ts, isNotParen ch = true := by
  intro ch hch
  rcases mem_joinSp hch with rfl | ⟨t, ht, h1⟩
  · decide
  · have := (h t ht).noParen ch h1
    simp [isNotParen, this.1, this.2]

theorem count_open_numeric {a : Str} (h : isNumeric a = true) : a.count '(' = 0 :=
  List.count_eq_zero.mpr (fun hm => ((tok_numeric h).noParen _ hm).1 rfl)

theorem not_mem_open_numeric {a : Str} (h : isNumeric a = true) : '(' ∉ a :=
  fun hm => ((tok_numeric h).noParen _ hm).1 rfl

/-- The text `a op b` of two literals evaluates, at the top level, to the operator applied
to their values. -/
theorem handleExpression_binary (c0 : Calculator) (a b : Str) (o : Char)
    (ha : isNumeric a = true) (hb : isNumeric b = true)
    (ho : o = '+' ∨ o = '-' ∨ o = '*' ∨ o = '/') :
    handleExpression (reset c0) (joinSp [a, [o], b]) =
      match applyOperator (firstByte o) [atoi a, atoi b] 0 with
      | .ok r => { result := .ok (), state := reset c0, printed := [.int r] }
      | r => { result := r.cast (), printed := [],
               state := { reset c0 with operands := [atoi a, atoi b],
                                        operators := [firstByte o] } } := by
  have htok := tok_list3 (tok_numeric ha) (tok_arith ho) (tok_numeric hb)
  rw [handleExpression_tokens _ _ _ htok, evaluateFlat_tokens _ _ _ htok (numeric_head ha),
    calculate_binary c0 a b o false ha hb ho]
  cases applyOperator (firstByte o) [atoi a, atoi b] 0 <;> rfl

theorem handleExpression_sum_product (c0 : Calculator) (a b c : Str)
    (ha : isNumeric a = true) (hb : isNumeric b = true) (hc : isNumeric c = true) :
    handleExpression (reset c0) (a ++ " + ".toList ++ b ++ " * ".toList ++ c) =
      { result := .ok (), state := reset c0,
        printed := [.int (goAdd (atoi a) (goMul (atoi b) (atoi c)))] } := by
  have htok : ∀ t ∈ [a, ['+'], b, ['*'], c], Tok t := by
    intro t ht
    simp only [List.mem_cons, List.mem_singleton, List.not_mem_nil, or_false] at ht
    rcases ht with rfl | rfl | rfl | rfl | rfl
    · exact tok_numeric ha
    · exact tok_arith (by simp)
    · exact tok_numeric hb
    · exact tok_arith (by simp)
    · exact tok_numeric hc
  have e : a ++ " + ".toList ++ b ++ " * ".toList ++ c = joinSp [a, ['+'], b, ['*'], c] := by
    simp [joinSp]
  rw [e, handleExpression_tokens _ _ _ htok, evaluateFlat_tokens _ _ _ htok (numeric_head ha),
    calculate_sum_product c0 a b c ha hb hc]
  rfl

theorem handleExpression_group_product (c0 : Calculator) (a b c : Str)
    (ha : isNumeric a = true) (hb : isNumeric b = true) (hc : isNumeric c = true) :
    handleExpression (reset c0) ("(".toList ++ a ++ " + ".toList ++ b ++ ") * ".toList ++ c) =
      { result := .ok (), state := reset c0,
        printed := [.int (goMul (goAdd (atoi a) (atoi b)) (atoi c))] } := by
  have hbody := tok_list3 (tok_numeric ha) (tok_arith (o := '+') (by simp)) (tok_numeric hb)
  have e : "(".toList ++ a ++ " + ".toList ++ b ++ ") * ".toList ++ c
      = [] ++ '(' :: joinSp [a, ['+'], b] ++ ')' :: joinSp [[], ['*'], c] := by
    simp [joinSp]
  have hcount : ("(".toList ++ a ++ " + ".toList ++ b ++ ") * ".toList ++ c).count '(' = 1 := by
    simp [List.count_append, List.count_cons, count_open_numeric ha, count_open_numeric hb,
      count_open_numeric hc]
  unfold handleExpression
  rw [hcount, e, resolveGroups_step _ _ [] _ (by simp) (joinSp_ne_nil _ (tok_numeric ha).ne)
      (joinSp_isNotParen hbody),
    prepareExpression_joinSp _ _ hbody (numeric_head ha),
    calculate_binary c0 a b '+' true ha hb (by simp)]
  have e1 : firstByte '+' = 43 := by decide
  have e3 : firstByte '*' = 42 := by decide
  have hn := isNumeric_itoa (goAdd (atoi a) (atoi b))
  have htok := tok_list3 (tok_numeric hn) (tok_arith (o := '*') (by simp)) (tok_numeric hc)
  have e2 : [] ++ itoa (goAdd (atoi a) (atoi b)) ++ joinSp [[], ['*'], c]
      = joinSp [itoa (goAdd (atoi a) (atoi b)), ['*'], c] := by
    simp [joinSp]
  have happ : applyOperator (firstByte '+') [atoi a, atoi b] 0 = .ok (goAdd (atoi a) (atoi b)) := by
    simp [applyOperator, e1]
  simp only [happ]
  rw [e2, resolveGroups_flat _ _ _ (not_mem_open_joinSp htok)]
  simp only []
  rw [evaluateFlat_tokens _ _ _ htok (numeric_head hn),
    calculate_binary c0 _ c '*' false hn hc (by simp)]
  have happ2 : applyOperator (firstByte '*') [atoi (itoa (goAdd (atoi a) (atoi b))), atoi c] 0
      = .ok (goMul (goAdd (atoi a) (atoi b)) (atoi c)) := by
    simp [applyOperator, e3, goAdd, atoi_itoa_wrap]
  simp only [happ2]
  rfl

/-- C1 fails as stated: the literal `9223372036854775808` does not fit Go's `int`, `Atoi`
yields `9223372036854775807` for it, and `9223372036854775808 + 0 * 0` prints that number
instead of `a + (b*c)`. -/
theorem precedence_literal_out_of_range :
    (handleExpression (reset NewCalculator) "9223372036854775808 + 0 * 0".toList).printed
        = [.int 9223372036854775807]
      ∧ ¬ (handleExpression (reset NewCalculator) "9223372036854775808 + 0 * 0".toList).Prints
          (litVal "9223372036854775808".toList + litVal "0".toList * litVal "0".toList) := by
  decide

/-- C1 (as amended): for integer literals `a`, `b`, `c` and any variable store,
`handleExpression`, entered after `reset`, prints for `a + b * c` the value `a + (b*c)` and
for `(a + b) * c` the value `(a+b)*c`, computed in Go's 64-bit `int` on the values `Atoi`
gives the literals, and leaves the calculator as `reset` made it; these are the
mathematical values whenever the literals and the intermediate results fit 64 bits. -/
theorem precedence_end_to_end (c0 : Calculator) (a b c : Str)
    (ha : isNumeric a = true) (hb : isNumeric b = true) (hc : isNumeric c = true) :
    (handleExpression (reset c0) (a ++ " + ".toList ++ b ++ " * ".toList ++ c)
        = { result := .ok (), state := reset c0,
            printed := [.int (goAdd (atoi a) (goMul (atoi b) (atoi c)))] }
      ∧ handleExpression (reset c0) ("(".toList ++ a ++ " + ".toList ++ b ++ ") * ".toList ++ c)
        = { result := .ok (), state := reset c0,
            printed := [.int (goMul (goAdd (atoi a) (atoi b)) (atoi c))] })
    ∧ (InRange (litVal a) → InRange (litVal b) → InRange (litVal c) →
        (InRange (litVal b * litVal c) → InRange (litVal a + litVal b * litVal c) →
          (handleExpression (reset c0) (a ++ " + ".toList ++ b ++ " * ".toList ++ c)).Prints
            (litVal a + litVal b * litVal c))
        ∧ (InRange (litVal a + litVal b) → InRange ((litVal a + litVal b) * litVal c) →
          (handleExpression (reset c0)
              ("(".toList ++ a ++ " + ".toList ++ b ++ ") * ".toList ++ c)).Prints
            ((litVal a + litVal b) * litVal c))) := by
  have h1 := handleExpression_sum_product c0 a b c ha hb hc
  have h2 := handleExpression_group_product c0 a b c ha hb hc
  refine ⟨⟨h1, h2⟩, ?_⟩
  intro ra rb rc
  rw [h1, h2, atoi_of_inRange ra, atoi_of_inRange rb, atoi_of_inRange rc]
  constructor
  · intro r1 r2
    simp only [goAdd, goMul, wrap_of_inRange r1, wrap_of_inRange r2]
    exact ⟨rfl, rfl⟩
  · intro r1 r2
    simp only [goAdd, goMul, wrap_of_inRange r1, wrap_of_inRange r2]
    exact ⟨rfl, rfl⟩

/-- C1 at the spec's example: `2 + 3 * 4` prints 14 and `(2 + 3) * 4` prints 20. -/
theorem precedence_end_to_end_witness :
    (handleExpression (reset NewCalculator) "2 + 3 * 4".toList).Prints 14
      ∧ (handleExpression (reset NewCalculator) "(2 + 3) * 4".toList).Prints 20 :=
  have h := (precedence_end_to_end NewCalculator "2".toList "3".toList "4".toList
    (by decide) (by decide) (by decide)).2 (by decide) (by decide) (by decide)
  ⟨h.1 (by decide) (by decide), h.2 (by decide) (by decide)⟩

/-! ## The reduction loops -/

theorem removeByIndexInt_eq (l : List Int) (j : Nat) : removeByIndexInt l j = l.eraseIdx j := by
  unfold removeByIndexInt
  split
  · next h => subst h; cases l <;> rfl
  · split
    · next h0 h =>
      rw [h, List.eraseIdx_eq_take_drop_succ]
      have : l.length - 1 + 1 = l.length := by
        cases l with
        | nil => simp at h; exact absurd h h0
        | cons a t => simp
      rw [this, List.drop_length, List.append_nil]
    · rw [List.eraseIdx_eq_take_drop_succ]

theorem removeByIndexByte_eq (l : List Nat) (j : Nat) : removeByIndexByte l j = l.eraseIdx j := by
  unfold removeByIndexByte
  split
  · next h => subst h; cases l <;> rfl
  · split
    · next h0 h =>
      rw [h, List.eraseIdx_eq_take_drop_succ]
      have : l.length - 1 + 1 = l.length := by
        cases l with
        | nil => simp at h; exact absurd h h0
        | cons a t => simp
      rw [this, List.drop_length, List.append_nil]
    · rw [List.eraseIdx_eq_take_drop_succ]

theorem findAny_cons_of_not_mem {tier : List Nat} {o : Nat} (os : List Nat) (h : o ∉ tier) :
    findAny tier (o :: os) = (findAny tier os).map (· + 1) := by
  simp [findAny, h]

theorem findAny_cons_of_mem {tier : List Nat} {o : Nat} (os : List Nat) (h : o ∈ tier) :
    findAny tier (o :: os) = some 0 := by
  simp [findAny, h]

theorem applyOperator_cons (op : Nat) (x : Int) (xs : List Int) (i : Nat) :
    applyOperator op (x :: xs) (i + 1) = applyOperator op xs i := by
  simp [applyOperator]

/-- An operand and an operator outside the tier, in front of the lists, stay in front:
the loop works behind them. -/
theorem reduceTier_frame (tier : List Nat) (x : Int) (o : Nat) (h : o ∉ tier) :
    ∀ (k : Nat) (xs : List Int) (os : List Nat),
      reduceTier tier k (x :: xs) (o :: os) =
        match reduceTier tier k xs os with
        | .ok (a, b) => .ok (x :: a, o :: b)
        | r => r
  | 0, _, _ => rfl
  | k + 1, xs, os => by
    rw [reduceTier, reduceTier, findAny_cons_of_not_mem os h]
    cases hf : findAny tier os with
    | none => rfl
    | some i =>
      simp only [Option.map_some', List.get?_cons_succ]
      cases hop : os.get? i with
      | none => rfl
      | some op =>
        simp only [applyOperator_cons]
        cases happ : applyOperator op xs i with
        | ok result =>
          simp only [removeByIndexInt_eq, removeByIndexByte_eq, List.eraseIdx_cons_succ,
            List.set_cons_succ]
          exact reduceTier_frame tier x o h k _ _
        | error e => rfl
        | panic p => rfl
        | exit => rfl
        | outOfFuel => rfl

theorem reduceTier_products : ∀ (rest : List (Nat × Int)) (x : Int) (k : Nat),
    rest.length < k → (∀ p ∈ rest, p.1 = 42 ∨ p.1 = 47 ∨ p.1 = 43 ∨ p.1 = 45) →
    reduceTier [42, 47] k (x :: rest.map Prod.snd) (rest.map Prod.fst) =
      match collapseProducts x rest with
      | some (x1, rest1) => .ok (x1 :: rest1.map Prod.snd, rest1.map Prod.fst)
      | none => .panic .divideByZero
  | [], x, k, hk, _ => by
    obtain ⟨k, rfl⟩ : ∃ j, k = j + 1 := ⟨k - 1, by omega⟩
    simp [reduceTier, findAny, collapseProducts]
  | (o, y) :: rest, x, k, hk, hops => by
    obtain ⟨k, rfl⟩ : ∃ j, k = j + 1 := ⟨k - 1, by omega⟩
    have hk' : rest.length < k := by simp at hk; omega
    have hrest : ∀ p ∈ rest, p.1 = 42 ∨ p.1 = 47 ∨ p.1 = 43 ∨ p.1 = 45 :=
      fun p hp => hops p (List.mem_cons_of_mem _ hp)
    have ho : o = 42 ∨ o = 47 ∨ o = 43 ∨ o = 45 := hops (o, y) (by simp)
    by_cases h42 : o = 42
    · subst h42
      have ih := reduceTier_products rest (goMul x y) k hk' hrest
      simp only [List.map_cons, collapseProducts, if_true]
      rw [reduceTier, findAny_cons_of_mem _ (by simp)]
      simp only [List.get?_cons_zero, applyOperator, removeByIndexInt_eq, removeByIndexByte_eq]
      simpa using ih
    · by_cases h47 : o = 47
      · subst h47
        by_cases hy : y = 0
        · subst hy
          simp only [List.map_cons, collapseProducts, if_true]
          rw [reduceTier, findAny_cons_of_mem _ (by simp)]
          simp [applyOperator, Res.cast]
        · have ih := reduceTier_products rest (goDiv x y) k hk' hrest
          simp only [List.map_cons, collapseProducts, hy, if_false, if_true]
          rw [reduceTier, findAny_cons_of_mem _ (by simp)]
          simp only [List.get?_cons_zero, applyOperator, removeByIndexInt_eq, removeByIndexByte_eq]
          simpa [hy] using ih
      · have hnot : o ∉ [42, 47] := by simp [h42, h47]
        have ih := reduceTier_products rest y (k + 1) (by omega) hrest
        simp only [List.map_cons, collapseProducts, h42, h47, if_false]
        rw [reduceTier_frame [42, 47] x o hnot, ih]
        cases collapseProducts y rest with
        | none => rfl
        | some p => rfl

theorem collapseProducts_spec : ∀ (rest : List (Nat × Int)) (x : Int) (x1 : Int)
    (rest1 : List (Nat × Int)),
    (∀ p ∈ rest, p.1 = 42 ∨ p.1 = 47 ∨ p.1 = 43 ∨ p.1 = 45) →
    collapseProducts x rest = some (x1, rest1) →
    rest1.length ≤ rest.length ∧ ∀ p ∈ rest1, p.1 = 43 ∨ p.1 = 45
  | [], x, x1, rest1, _, h => by
    simp only [collapseProducts, Option.some.injEq, Prod.mk.injEq] at h
    obtain ⟨_, rfl⟩ := h
    simp
  | (o, y) :: rest, x, x1, rest1, hops, h => by
    have hrest : ∀ p ∈ rest, p.1 = 42 ∨ p.1 = 47 ∨ p.1 = 43 ∨ p.1 = 45 :=
      fun p hp => hops p (List.mem_cons_of_mem _ hp)
    have ho : o = 42 ∨ o = 47 ∨ o = 43 ∨ o = 45 := hops (o, y) (by simp)
    by_cases h42 : o = 42
    · simp only [collapseProducts, h42, if_true] at h
      have := collapseProducts_spec rest _ x1 rest1 hrest h
      exact ⟨by simp; omega, this.2⟩
    · by_cases h47 : o = 47
      · by_cases hy : y = 0
        · simp [collapseProducts, h47, hy] at h
        · simp only [collapseProducts, h47, hy, if_false, if_true] at h
          have := collapseProducts_spec rest _ x1 rest1 hrest (by simpa using h)
          exact ⟨by simp; omega, this.2⟩
      · simp only [collapseProducts, h42, h47, if_false] at h
        cases hc : collapseProducts y rest with
        | none => simp [hc] at h
        | some q =>
          obtain ⟨y1, r1⟩ := q
          simp only [hc, Option.some.injEq, Prod.mk.injEq] at h
          obtain ⟨_, rfl⟩ := h
          have := collapseProducts_spec rest y y1 r1 hrest hc
          refine ⟨by simp; omega, ?_⟩
          intro p hp
          rcases List.mem_cons.mp hp with rfl | hp
          · rcases ho with h | h | h | h
            · exact absurd h h42
            · exact absurd h h47
            · exact Or.inl h
            · exact Or.inr h
          · exact this.2 p hp

theorem reduceTier_sums : ∀ (rest : List (Nat × Int)) (x : Int) (k : Nat),
    rest.length < k → (∀ p ∈ rest, p.1 = 43 ∨ p.1 = 45) →
    reduceTier [43, 45] k (x :: rest.map Prod.snd) (rest.map Prod.fst) =
      .ok ([foldSums x rest], [])
  | [], x, k, hk, _ => by
    obtain ⟨k, rfl⟩ : ∃ j, k = j + 1 := ⟨k - 1, by omega⟩
    simp [reduceTier, findAny, foldSums]
  | (o, y) :: rest, x, k, hk, hops => by
    obtain ⟨k, rfl⟩ : ∃ j, k = j + 1 := ⟨k - 1, by omega⟩
    have hk' : rest.length < k := by simp at hk; omega
    have hrest : ∀ p ∈ rest, p.1 = 43 ∨ p.1 = 45 :=
      fun p hp => hops p (List.mem_cons_of_mem _ hp)
    have ho : o = 43 ∨ o = 45 := hops (o, y) (by simp)
    rcases ho with rfl | rfl
    · have ih := reduceTier_sums rest (goAdd x y) k hk' hrest
      rw [List.map_cons, List.map_cons, reduceTier, findAny_cons_of_mem _ (by simp)]
      simp only [List.get?_cons_zero, applyOperator, removeByIndexInt_eq, removeByIndexByte_eq]
      simpa [foldSums] using ih
    · have ih := reduceTier_sums rest (goSub x y) k hk' hrest
      rw [List.map_cons, List.map_cons, reduceTier, findAny_cons_of_mem _ (by simp)]
      simp only [List.get?_cons_zero, applyOperator, removeByIndexInt_eq, removeByIndexByte_eq]
      simpa [foldSums] using ih

/-- The two tiers of `calculate` on well-formed operand and operator lists. -/
theorem reduceTiers_eq (x : Int) (rest : List (Nat × Int))
    (hops : ∀ p ∈ rest, p.1 = 42 ∨ p.1 = 47 ∨ p.1 = 43 ∨ p.1 = 45) :
    reduceTiers priotiritisedOperators (x :: rest.map Prod.snd) (rest.map Prod.fst) =
      match collapseProducts x rest with
      | some (x1, rest1) => .ok ([foldSums x1 rest1], [])
      | none => .panic .divideByZero := by
  unfold priotiritisedOperators
  rw [reduceTiers, reduceTier_products rest x _ (by simp) hops]
  cases hc : collapseProducts x rest with
  | none => rfl
  | some q =>
    obtain ⟨x1, rest1⟩ := q
    obtain ⟨hlen, hadd⟩ := collapseProducts_spec rest x x1 rest1 hops hc
    simp only
    cases rest1 with
    | nil => simp [foldSums]
    | cons p r =>
      simp only [List.map_cons, List.length_cons, Nat.add_one_ne_zero, if_false]
      rw [reduceTiers]
      have := reduceTier_sums (p :: r) x1 ((p :: r).length + 1) (by simp) hadd
      simp only [List.map_cons, List.length_cons] at this
      simp only [List.length_cons, List.length_map]
      rw [this]
      simp

/-! ## The reference reading has the value the loops compute -/

theorem closeSum_value {s : Option (Tree × Nat)} {sv : Option (Int × Nat)} {t : Tree} {tv : Int}
    (hs : SumHasValue s sv) (ht : t.value = some tv) :
    (closeSum s t).value = some (closeValue sv tv) := by
  rcases hs with ⟨rfl, rfl⟩ | ⟨e, o, ev, rfl, rfl, he, ho⟩
  · exact ht
  · rcases ho with rfl | rfl <;> simp [closeSum, Tree.value, he, ht, binValue, closeValue]

theorem closeSum_none_of_term {s : Option (Tree × Nat)} {t : Tree} (ht : t.value = none) :
    (closeSum s t).value = none := by
  cases s with
  | none => exact ht
  | some p =>
    obtain ⟨e, o⟩ := p
    cases he : e.value <;> simp [closeSum, Tree.value, he, ht]

theorem readFlat_none : ∀ (rest : List (Nat × Int)) (s : Option (Tree × Nat)) (t : Tree),
    (closeSum s t).value = none → (∀ e o, s = some (e, o) → o = 43 ∨ o = 45) →
    (∀ p ∈ rest, p.1 = 42 ∨ p.1 = 47 ∨ p.1 = 43 ∨ p.1 = 45) →
    (readFlat s t rest).value = none
  | [], _, _, h, _, _ => h
  | (o, y) :: rest, s, t, h, hs, hops => by
    have hrest : ∀ p ∈ rest, p.1 = 42 ∨ p.1 = 47 ∨ p.1 = 43 ∨ p.1 = 45 :=
      fun p hp => hops p (List.mem_cons_of_mem _ hp)
    have ho : o = 42 ∨ o = 47 ∨ o = 43 ∨ o = 45 := hops (o, y) (by simp)
    rw [readFlat]
    split
    · refine readFlat_none rest s _ ?_ hs hrest
      cases s with
      | none =>
        have ht : t.value = none := h
        simp [closeSum, Tree.value, ht]
      | some p =>
        obtain ⟨e, o1⟩ := p
        have ho1 := hs e o1 rfl
        cases he : e.value with
        | none => simp [closeSum, Tree.value, he]
        | some ev =>
          cases ht : t.value with
          | none => simp [closeSum, Tree.value, he, ht]
          | some tv =>
            exfalso
            rcases ho1 with rfl | rfl <;> simp [closeSum, Tree.value, he, ht, binValue] at h
    · next hmd =>
      refine readFlat_none rest _ _ ?_ ?_ hrest
      · show (Tree.bin o (closeSum s t) (Tree.num y)).value = none
        simp [Tree.value, h]
      · intro e o1 heq
        simp only [Option.some.injEq, Prod.mk.injEq] at heq
        obtain ⟨_, rfl⟩ := heq
        rcases ho with h1 | h1 | h1 | h1
        · exact absurd (Or.inl h1) hmd
        · exact absurd (Or.inr h1) hmd
        · exact Or.inl h1
        · exact Or.inr h1

theorem readFlat_value : ∀ (rest : List (Nat × Int)) (s : Option (Tree × Nat))
    (sv : Option (Int × Nat)) (t : Tree) (tv : Int),
    SumHasValue s sv → t.value = some tv →
    (∀ p ∈ rest, p.1 = 42 ∨ p.1 = 47 ∨ p.1 = 43 ∨ p.1 = 45) →
    (readFlat s t rest).value =
      match collapseProducts tv rest with
      | some (x1, rest1) => some (foldSums (closeValue sv x1) rest1)
      | none => none
  | [], s, sv, t, tv, hs, ht, _ => by
    simp only [readFlat, collapseProducts, foldSums, List.foldl_nil]
    exact closeSum_value hs ht
  | (o, y) :: rest, s, sv, t, tv, hs, ht, hops => by
    have hrest : ∀ p ∈ rest, p.1 = 42 ∨ p.1 = 47 ∨ p.1 = 43 ∨ p.1 = 45 :=
      fun p hp => hops p (List.mem_cons_of_mem _ hp)
    have ho : o = 42 ∨ o = 47 ∨ o = 43 ∨ o = 45 := hops (o, y) (by simp)
    have hadd : ∀ e o1, s = some (e, o1) → o1 = 43 ∨ o1 = 45 := by
      intro e o1 heq
      rcases hs with ⟨h1, _⟩ | ⟨e', o', ev, h1, _, _, h4⟩
      · rw [h1] at heq; cases heq
      · rw [h1] at heq; cases heq; exact h4
    by_cases h42 : o = 42
    · subst h42
      have hv : (Tree.bin 42 t (Tree.num y)).value = some (goMul tv y) := by
        simp [Tree.value, ht, binValue]
      simp only [readFlat, collapseProducts, true_or, if_true]
      exact readFlat_value rest s sv _ _ hs hv hrest
    · by_cases h47 : o = 47
      · subst h47
        by_cases hy : y = 0
        · subst hy
          have hv : (Tree.bin 47 t (Tree.num 0)).value = none := by
            simp [Tree.value, ht, binValue]
          simp only [readFlat, collapseProducts, or_true, if_true]
          simp only [show ¬ (47 : Nat) = 42 by decide, if_false]
          exact readFlat_none rest s _ (closeSum_none_of_term hv) hadd hrest
        · have hv : (Tree.bin 47 t (Tree.num y)).value = some (goDiv tv y) := by
            simp [Tree.value, ht, binValue, hy]
          simp only [readFlat, collapseProducts, or_true, if_true, hy, if_false]
          simp only [show ¬ (47 : Nat) = 42 by decide, if_false]
          exact readFlat_value rest s sv _ _ hs hv hrest
      · have ho' : o = 43 ∨ o = 45 := by
          rcases ho with h | h | h | h
          · exact absurd h h42
          · exact absurd h h47
          · exact Or.inl h
          · exact Or.inr h
        have hs' : SumHasValue (some (closeSum s t, o)) (some (closeValue sv tv, o)) :=
          Or.inr ⟨_, _, _, rfl, rfl, closeSum_value hs ht, ho'⟩
        have ih := readFlat_value rest _ _ (Tree.num y) y hs' rfl hrest
        simp only [readFlat, collapseProducts, h42, h47, or_self, if_false]
        rw [ih]
        cases collapseProducts y rest with
        | none => rfl
        | some q =>
          obtain ⟨y1, rest1⟩ := q
          simp [foldSums, closeValue]

theorem zip_split (xs : List Int) (ops : List Nat) (hlen : xs.length = ops.length + 1) :
    ∃ x0 tl, xs = x0 :: tl ∧ (ops.zip tl).map Prod.snd = tl ∧ (ops.zip tl).map Prod.fst = ops
      ∧ ∀ p ∈ ops.zip tl, p.1 ∈ ops := by
  cases xs with
  | nil => simp at hlen
  | cons x0 tl =>
    have h : tl.length = ops.length := by simpa using hlen
    refine ⟨x0, tl, rfl, ?_, ?_, ?_⟩
    · exact List.map_snd_zip _ _ (le_of_eq h)
    · exact List.map_fst_zip _ _ (le_of_eq h.symm)
    · intro p hp
      obtain ⟨a, b⟩ := p
      exact (List.of_mem_zip hp).1

/-- The reduction loops return the reference value. -/
theorem reduce_eq_reference (c : Calculator) (xs : List Int) (ops : List Nat)
    (hlen : xs.length = ops.length + 1)
    (hops : ∀ o ∈ ops, o = 42 ∨ o = 47 ∨ o = 43 ∨ o = 45) :
    reduce { c with operands := xs, operators := ops } =
      match referenceValue xs ops with
      | some v => (.ok (v, true), reset c)
      | none => (.panic .divideByZero, { c with operands := xs, operators := ops }) := by
  obtain ⟨x0, tl, rfl, h1, h2, h3⟩ := zip_split xs ops hlen
  have hrest : ∀ p ∈ ops.zip tl, p.1 = 42 ∨ p.1 = 47 ∨ p.1 = 43 ∨ p.1 = 45 :=
    fun p hp => hops p.1 (h3 p hp)
  have hred := reduceTiers_eq x0 (ops.zip tl) hrest
  rw [h1, h2] at hred
  have href := readFlat_value (ops.zip tl) none none (Tree.num x0) x0 (Or.inl ⟨rfl, rfl⟩) rfl hrest
  simp only [reduce, referenceValue, hred, href]
  cases collapseProducts x0 (ops.zip tl) with
  | none => rfl
  | some q => rfl

theorem arith_byte {o : Char} (ho : o = '+' ∨ o = '-' ∨ o = '*' ∨ o = '/') :
    (firstByte o = 42 ∨ firstByte o = 47 ∨ firstByte o = 43 ∨ firstByte o = 45)
      ∧ byteLen [o] = 1 ∧ o ≠ '=' := by
  rcases ho with rfl | rfl | rfl | rfl <;> decide

theorem parseParts_even (i : Nat) (v : Str) (rest : List Str) (c : Calculator)
    (hi : i % 2 = 0) :
    parseParts i (v :: rest) c =
      match getValue c v with
      | .ok n => parseParts (i + 1) rest { c with operands := c.operands ++ [n] }
      | r => (r.cast (), c) := by
  rw [parseParts]
  unfold parsePart
  rw [if_pos hi]
  cases getValue c v <;> rfl

theorem parseParts_pairs : ∀ (rest : List (Char × Str)) (i : Nat) (c : Calculator),
    i % 2 = 1 →
    (∀ p ∈ rest, (p.1 = '+' ∨ p.1 = '-' ∨ p.1 = '*' ∨ p.1 = '/') ∧ isNumeric p.2 = true) →
    parseParts i (rest.flatMap (fun p => [[p.1], p.2])) c =
      (.ok (), { c with operands := c.operands ++ rest.map (fun p => atoi p.2),
                        operators := c.operators ++ rest.map (fun p => firstByte p.1) })
  | [], _, _, _, _ => by simp [parseParts]
  | (o, l) :: rest, i, c, hi, h => by
    obtain ⟨ho, hl⟩ := h (o, l) (by simp)
    obtain ⟨_, hlen, _⟩ := arith_byte ho
    have hrest := fun p hp => h p (List.mem_cons_of_mem _ hp)
    have hi0 : ¬ i % 2 = 0 := by omega
    have hi1 : (i + 1) % 2 = 0 := by omega
    have hi2 : (i + 1 + 1) % 2 = 1 := by omega
    have hpar : ¬ (firstByte o = 45 ∧ byteLen [o] % 2 = 0) := by
      rw [hlen]; simp
    rw [List.flatMap_cons]
    simp only [List.cons_append, List.nil_append]
    have hl' : isNumeric l = true := hl
    rw [parseParts]
    unfold parsePart
    rw [if_neg hi0]
    simp only [hpar, if_false]
    rw [parseParts_even _ _ _ _ hi1, getValue_numeric _ hl']
    simp only
    rw [parseParts_pairs rest (i + 1 + 1) _ hi2 hrest]
    simp

theorem tok_flatTokens (x0 : Str) (rest : List (Char × Str)) (hx : isNumeric x0 = true)
    (h : ∀ p ∈ rest, (p.1 = '+' ∨ p.1 = '-' ∨ p.1 = '*' ∨ p.1 = '/') ∧ isNumeric p.2 = true) :
    (∀ t ∈ flatTokens x0 rest, Tok t) ∧ '=' ∉ flatText x0 rest := by
  have key : ∀ t ∈ flatTokens x0 rest, Tok t ∧ '=' ∉ t := by
    intro t ht
    simp only [flatTokens, List.mem_cons, List.mem_flatMap, List.mem_singleton, List.not_mem_nil,
      or_false] at ht
    rcases ht with rfl | ⟨p, hp, rfl | rfl⟩
    · exact ⟨tok_numeric hx, numeric_noEq hx⟩
    · refine ⟨tok_arith (h p hp).1, ?_⟩
      have := (arith_byte (h p hp).1).2.2
      simpa using this.symm
    · exact ⟨tok_numeric (h p hp).2, numeric_noEq (h p hp).2⟩
  exact ⟨fun t ht => (key t ht).1, not_mem_joinSp (by decide) (fun t ht => (key t ht).2)⟩

/-- On the text of a flat expression of literals `calculate` runs the reduction loops on
the values of the literals and the bytes of the operators. -/
theorem calculate_flatText (c0 : Calculator) (x0 : Str) (rest : List (Char × Str))
    (hx : isNumeric x0 = true)
    (h : ∀ p ∈ rest, (p.1 = '+' ∨ p.1 = '-' ∨ p.1 = '*' ∨ p.1 = '/') ∧ isNumeric p.2 = true) :
    calculate (reset c0) (flatText x0 rest) false =
      match referenceValue (atoi x0 :: rest.map (fun p => atoi p.2))
          (rest.map (fun p => firstByte p.1)) with
      | some v => (.ok (v, true), reset c0)
      | none => (.panic .divideByZero,
          { reset c0 with operands := atoi x0 :: rest.map (fun p => atoi p.2),
                          operators := rest.map (fun p => firstByte p.1) }) := by
  obtain ⟨htok, hne⟩ := tok_flatTokens x0 rest hx h
  unfold calculate flatText
  rw [parseExpression_joinSp _ _ (by simp [flatTokens]) htok]
  cases rest with
  | nil =>
    simp [flatTokens, parseSplit, getValue_numeric _ hx, reset, referenceValue, readFlat,
      closeSum, Tree.value]
  | cons p rest =>
    obtain ⟨o, l⟩ := p
    obtain ⟨ho, hl⟩ := h (o, l) (by simp)
    obtain ⟨hb, _, _⟩ := arith_byte ho
    have hpairs := parseParts_pairs ((o, l) :: rest) 1
      { reset c0 with operands := (reset c0).operands ++ [atoi x0] } rfl h
    have hne' : '=' ∉ joinSp (flatTokens x0 ((o, l) :: rest)) := hne
    have hb' : firstByte o = 42 ∨ firstByte o = 47 ∨ firstByte o = 43 ∨ firstByte o = 45 := hb
    have h61 : ¬ firstByte o = 61 := by
      rcases hb' with hb | hb | hb | hb <;> omega
    have hred := reduce_eq_reference (reset c0) (atoi x0 :: ((o, l) :: rest).map (fun p => atoi p.2))
      (((o, l) :: rest).map (fun p => firstByte p.1)) (by simp) (by
        intro b hb'
        simp only [List.mem_map] at hb'
        obtain ⟨q, hq, rfl⟩ := hb'
        exact (arith_byte (h q hq).1).1)
    simp only [flatTokens, List.flatMap_cons, List.cons_append, List.nil_append] at hpairs hne' ⊢
    simp only [parseSplit, hne', if_false]
    rw [parseParts_even 0 x0 _ _ rfl, getValue_numeric _ hx]
    simp only
    rw [hpairs]
    simp only [reset, List.nil_append, List.map_cons, h61, if_false] at hred ⊢
    exact hred

/-- The text of a flat expression of literals, handed to the part of `handleExpression`
after its first loop. -/
theorem evaluateFlat_flatText (c0 : Calculator) (x0 : Str) (rest : List (Char × Str))
    (hx : isNumeric x0 = true)
    (h : ∀ p ∈ rest, (p.1 = '+' ∨ p.1 = '-' ∨ p.1 = '*' ∨ p.1 = '/') ∧ isNumeric p.2 = true) :
    evaluateFlat (reset c0) (flatText x0 rest) =
      match referenceValue (atoi x0 :: rest.map (fun p => atoi p.2))
          (rest.map (fun p => firstByte p.1)) with
      | some v => { result := .ok (), state := reset c0, printed := [.int v] }
      | none =>
        { result := .panic .divideByZero, printed := [],
          state := { reset c0 with operands := atoi x0 :: rest.map (fun p => atoi p.2),
                                   operators := rest.map (fun p => firstByte p.1) } } := by
  obtain ⟨htok, _⟩ := tok_flatTokens x0 rest hx h
  have hc := calculate_flatText c0 x0 rest hx h
  unfold flatText at hc ⊢
  unfold flatTokens at htok hc ⊢
  rw [evaluateFlat_tokens _ _ _ htok (numeric_head hx), hc]
  cases referenceValue (atoi x0 :: rest.map (fun p => atoi p.2))
    (rest.map (fun p => firstByte p.1)) <;> rfl

/-- The text of a flat expression of literals, handed to `handleExpression`. -/
theorem handleExpression_flatText (c0 : Calculator) (x0 : Str) (rest : List (Char × Str))
    (hx : isNumeric x0 = true)
    (h : ∀ p ∈ rest, (p.1 = '+' ∨ p.1 = '-' ∨ p.1 = '*' ∨ p.1 = '/') ∧ isNumeric p.2 = true) :
    handleExpression (reset c0) (flatText x0 rest) =
      match referenceValue (atoi x0 :: rest.map (fun p => atoi p.2))
          (rest.map (fun p => firstByte p.1)) with
      | some v => { result := .ok (), state := reset c0, printed := [.int v] }
      | none =>
        { result := .panic .divideByZero, printed := [],
          state := { reset c0 with operands := atoi x0 :: rest.map (fun p => atoi p.2),
                                   operators := rest.map (fun p => firstByte p.1) } } := by
  obtain ⟨htok, _⟩ := tok_flatTokens x0 rest hx h
  have hc := evaluateFlat_flatText c0 x0 rest hx h
  unfold flatText at hc ⊢
  unfold flatTokens at htok hc ⊢
  rw [handleExpression_tokens _ _ _ htok, hc]

theorem evaluateFlat_literal (c0 : Calculator) (a : Str) (ha : isNumeric a = true) :
    evaluateFlat (reset c0) a = { result := .ok (), state := reset c0, printed := [.int (atoi a)] } :=
  evaluateFlat_flatText c0 a [] ha (by simp)

/-- C2: the reduction loops of `calculate`, on operands `xs` and operators `ops` over
`*`, `/`, `+`, `-` with `len(xs) = len(ops) + 1`, return the reference value of
`x0 op0 x1 ...` (a left-associated sum or difference of terms, each term a
left-associated product or quotient, division truncating toward zero, all in Go's
`int`) and reset the working set; they panic exactly when the reference value meets a
division by zero.  `calculate` itself returns that value on the text of a flat
expression of literals.  In particular `a - b - c` is `(a - b) - c`, and `20 / 4 / 5`
gives 1. -/
theorem reduction_equals_reference (c : Calculator) :
    (∀ (xs : List Int) (ops : List Nat), xs.length = ops.length + 1 →
      (∀ o ∈ ops, o = 42 ∨ o = 47 ∨ o = 43 ∨ o = 45) →
      reduce { c with operands := xs, operators := ops } =
        match referenceValue xs ops with
        | some v => (.ok (v, true), reset c)
        | none => (.panic .divideByZero, { c with operands := xs, operators := ops }))
    ∧ (∀ (x0 : Str) (rest : List (Char × Str)), isNumeric x0 = true →
      (∀ p ∈ rest, (p.1 = '+' ∨ p.1 = '-' ∨ p.1 = '*' ∨ p.1 = '/') ∧ isNumeric p.2 = true) →
      ∀ v, referenceValue (atoi x0 :: rest.map (fun p => atoi p.2))
          (rest.map (fun p => firstByte p.1)) = some v →
        calculate (reset c) (flatText x0 rest) false = (.ok (v, true), reset c))
    ∧ (∀ x y z : Int, reduce { c with operands := [x, y, z], operators := [45, 45] }
        = (.ok (goSub (goSub x y) z, true), reset c))
    ∧ (handleExpression (reset c) "20 / 4 / 5".toList).Prints 1 := by
  have main := reduce_eq_reference c
  refine ⟨main, ?_, ?_, ?_⟩
  · intro x0 rest hx h v hv
    rw [calculate_flatText c x0 rest hx h, hv]
  · intro x y z
    rw [main [x, y, z] [45, 45] rfl (by simp)]
    rfl
  · have h := handleExpression_flatText c "20".toList [('/', "4".toList), ('/', "5".toList)]
      (by decide) (by decide)
    have e : flatText "20".toList [('/', "4".toList), ('/', "5".toList)] = "20 / 4 / 5".toList := by
      decide
    have hv : referenceValue
        (atoi "20".toList :: [('/', "4".toList), ('/', "5".toList)].map (fun p => atoi p.2))
        ([('/', "4".toList), ('/', "5".toList)].map (fun p => firstByte p.1)) = some 1 := by
      decide
    rw [e, hv] at h
    rw [h]
    exact ⟨rfl, rfl⟩

/-- C2 at `20 / 4 / 5`: operands 20, 4, 5 and operators `/`, `/` reduce to 1, and
`calculate` returns 1 on the text. -/
theorem reduction_equals_reference_witness :
    ([20, 4, 5] : List Int).length = ([47, 47] : List Nat).length + 1
      ∧ reduce { NewCalculator with operands := [20, 4, 5], operators := [47, 47] }
        = (.ok (1, true), reset NewCalculator)
      ∧ calculate (reset NewCalculator)
          (flatText "20".toList [('/', "4".toList), ('/', "5".toList)]) false
        = (.ok (1, true), reset NewCalculator) :=
  ⟨rfl, (reduction_equals_reference NewCalculator).1 [20, 4, 5] [47, 47] rfl (by decide),
    (reduction_equals_reference NewCalculator).2.1 "20".toList
      [('/', "4".toList), ('/', "5".toList)] (by decide) (by decide) 1 (by decide)⟩

theorem not_mem_close_numeric {a : Str} (h : isNumeric a = true) : ')' ∉ a :=
  fun hm => ((tok_numeric h).noParen _ hm).2 rfl

theorem calculate_binary_ok (c0 : Calculator) (a b : Str) (o : Char) (sub : Bool)
    (ha : isNumeric a = true) (hb : isNumeric b = true) (ho : o = '+' ∨ o = '-' ∨ o = '*') :
    calculate (reset c0) (joinSp [a, [o], b]) sub =
      (.ok (if o = '+' then goAdd (atoi a) (atoi b)
            else if o = '-' then goSub (atoi a) (atoi b) else goMul (atoi a) (atoi b), true),
        reset c0) := by
  have ho' : o = '+' ∨ o = '-' ∨ o = '*' ∨ o = '/' := by
    rcases ho with h | h | h
    · exact Or.inl h
    · exact Or.inr (Or.inl h)
    · exact Or.inr (Or.inr (Or.inl h))
  rw [calculate_binary c0 a b o sub ha hb ho']
  rcases ho with rfl | rfl | rfl
  · have e : firstByte '+' = 43 := by decide
    simp [applyOperator, e]
  · have e : firstByte '-' = 45 := by decide
    simp [applyOperator, e]
  · have e : firstByte '*' = 42 := by decide
    simp [applyOperator, e]

theorem handleExpression_nested (c0 : Calculator) (a b c d : Str)
    (ha : isNumeric a = true) (hb : isNumeric b = true) (hc : isNumeric c = true)
    (hd : isNumeric d = true) :
    handleExpression (reset c0)
        ("((".toList ++ a ++ " + ".toList ++ b ++ ") * (".toList ++ c ++ " + ".toList ++ d
          ++ "))".toList) =
      { result := .ok (), state := reset c0,
        printed := [.int (goMul (goAdd (atoi a) (atoi b)) (goAdd (atoi c) (atoi d)))] } := by
  have hab := tok_list3 (tok_numeric ha) (tok_arith (o := '+') (by simp)) (tok_numeric hb)
  have hcd := tok_list3 (tok_numeric hc) (tok_arith (o := '+') (by simp)) (tok_numeric hd)
  have hn1 := isNumeric_itoa (goAdd (atoi a) (atoi b))
  have hn2 := isNumeric_itoa (goAdd (atoi c) (atoi d))
  have h12 := tok_list3 (tok_numeric hn1) (tok_arith (o := '*') (by simp)) (tok_numeric hn2)
  have hn3 := isNumeric_itoa (goMul (goAdd (atoi a) (atoi b)) (goAdd (atoi c) (atoi d)))
  have hcount : ("((".toList ++ a ++ " + ".toList ++ b ++ ") * (".toList ++ c ++ " + ".toList ++ d
      ++ "))".toList).count '(' = 3 := by
    simp [List.count_append, List.count_cons, count_open_numeric ha, count_open_numeric hb,
      count_open_numeric hc, count_open_numeric hd]
  have e1 : "((".toList ++ a ++ " + ".toList ++ b ++ ") * (".toList ++ c ++ " + ".toList ++ d
      ++ "))".toList
      = ['('] ++ '(' :: joinSp [a, ['+'], b]
        ++ ')' :: (" * (".toList ++ c ++ " + ".toList ++ d ++ "))".toList) := by
    simp [joinSp]
  have e2 : ['('] ++ itoa (goAdd (atoi a) (atoi b))
        ++ (" * (".toList ++ c ++ " + ".toList ++ d ++ "))".toList)
      = ('(' :: itoa (goAdd (atoi a) (atoi b)) ++ " * ".toList) ++ '(' :: joinSp [c, ['+'], d]
        ++ ')' :: [')'] := by
    simp [joinSp]
  have hpre2 : ')' ∉ ('(' :: itoa (goAdd (atoi a) (atoi b)) ++ " * ".toList) := by
    intro hm
    simp only [List.cons_append, List.mem_cons, List.mem_append] at hm
    rcases hm with hm | hm | hm
    · exact absurd hm (by decide)
    · exact not_mem_close_numeric hn1 hm
    · exact absurd hm (by decide)
  have e3 : ('(' :: itoa (goAdd (atoi a) (atoi b)) ++ " * ".toList)
        ++ itoa (goAdd (atoi c) (atoi d)) ++ [')']
      = [] ++ '(' :: joinSp [itoa (goAdd (atoi a) (atoi b)), ['*'], itoa (goAdd (atoi c) (atoi d))]
        ++ ')' :: [] := by
    simp [joinSp]
  unfold handleExpression
  rw [hcount, e1, resolveGroups_step _ _ ['('] _ (by decide) (joinSp_ne_nil _ (tok_numeric ha).ne)
      (joinSp_isNotParen hab),
    prepareExpression_joinSp _ _ hab (numeric_head ha),
    calculate_binary_ok c0 a b '+' true ha hb (by simp)]
  simp only [if_true]
  rw [e2, resolveGroups_step _ _ _ _ hpre2 (joinSp_ne_nil _ (tok_numeric hc).ne)
      (joinSp_isNotParen hcd),
    prepareExpression_joinSp _ _ hcd (numeric_head hc),
    calculate_binary_ok c0 c d '+' true hc hd (by simp)]
  simp only [if_true]
  rw [e3, resolveGroups_step _ _ [] _ (by simp) (joinSp_ne_nil _ (tok_numeric hn1).ne)
      (joinSp_isNotParen h12),
    prepareExpression_joinSp _ _ h12 (numeric_head hn1),
    calculate_binary_ok c0 _ _ '*' true hn1 hn2 (by simp)]
  simp only [show ¬ ('*' = '+') by decide, show ¬ ('*' = '-') by decide, if_false]
  have r1 : atoi (itoa (goAdd (atoi a) (atoi b))) = goAdd (atoi a) (atoi b) :=
    atoi_itoa_wrap _
  have r2 : atoi (itoa (goAdd (atoi c) (atoi d))) = goAdd (atoi c) (atoi d) :=
    atoi_itoa_wrap _
  have r3 : atoi (itoa (goMul (goAdd (atoi a) (atoi b)) (goAdd (atoi c) (atoi d))))
      = goMul (goAdd (atoi a) (atoi b)) (goAdd (atoi c) (atoi d)) := atoi_itoa_wrap _
  rw [r1, r2]
  have e4 : [] ++ itoa (goMul (goAdd (atoi a) (atoi b)) (goAdd (atoi c) (atoi d))) ++ []
      = itoa (goMul (goAdd (atoi a) (atoi b)) (goAdd (atoi c) (atoi d))) := by simp
  rw [e4, resolveGroups_flat _ _ _ (not_mem_open_numeric hn3)]
  simp only []
  rw [evaluateFlat_literal c0 _ hn3, r3]

/-- C3 fails as stated: with the literal `9223372036854775808`, which `Atoi` reads as
`9223372036854775807`, the text `((9223372036854775808 + 0) * (1 + 0))` prints
`9223372036854775807`, not `(a+b)*(c+d)`. -/
theorem nested_literal_out_of_range :
    (handleExpression (reset NewCalculator) "((9223372036854775808 + 0) * (1 + 0))".toList).printed
        = [.int 9223372036854775807]
      ∧ ¬ (handleExpression (reset NewCalculator)
            "((9223372036854775808 + 0) * (1 + 0))".toList).Prints
          ((litVal "9223372036854775808".toList + litVal "0".toList)
            * (litVal "1".toList + litVal "0".toList)) := by
  decide

/-- C3 (as amended): for integer literals `a`, `b`, `c`, `d` and any variable store,
`handleExpression`, entered after `reset`, resolves `((a + b) * (c + d))` innermost
group first and prints `(a+b)*(c+d)` computed in Go's 64-bit `int` on the values `Atoi`
gives the literals, a negative inner result included; this is the mathematical value
whenever the literals, both sums and the product fit 64 bits. -/
theorem nested_parentheses (c0 : Calculator) (a b c d : Str)
    (ha : isNumeric a = true) (hb : isNumeric b = true) (hc : isNumeric c = true)
    (hd : isNumeric d = true) :
    handleExpression (reset c0)
        ("((".toList ++ a ++ " + ".toList ++ b ++ ") * (".toList ++ c ++ " + ".toList ++ d
          ++ "))".toList) =
      { result := .ok (), state := reset c0,
        printed := [.int (goMul (goAdd (atoi a) (atoi b)) (goAdd (atoi c) (atoi d)))] }
    ∧ (InRange (litVal a) → InRange (litVal b) → InRange (litVal c) → InRange (litVal d) →
        InRange (litVal a + litVal b) → InRange (litVal c + litVal d) →
        InRange ((litVal a + litVal b) * (litVal c + litVal d)) →
        (handleExpression (reset c0)
          ("((".toList ++ a ++ " + ".toList ++ b ++ ") * (".toList ++ c ++ " + ".toList ++ d
            ++ "))".toList)).Prints ((litVal a + litVal b) * (litVal c + litVal d))) := by
  have h := handleExpression_nested c0 a b c d ha hb hc hd
  refine ⟨h, ?_⟩
  intro ra rb rc rd r1 r2 r3
  rw [h, atoi_of_inRange ra, atoi_of_inRange rb, atoi_of_inRange rc, atoi_of_inRange rd]
  simp only [goAdd, goMul, wrap_of_inRange r1, wrap_of_inRange r2, wrap_of_inRange r3]
  exact ⟨rfl, rfl⟩

/-- C3 at the spec's example and at a negative inner result: `((1 + 2) * (3 + 4))` prints
21 and `((1 + -3) * (3 + 4))` prints -14. -/
theorem nested_parentheses_witness :
    (handleExpression (reset NewCalculator) "((1 + 2) * (3 + 4))".toList).Prints 21
      ∧ (handleExpression (reset NewCalculator) "((1 + -3) * (3 + 4))".toList).Prints (-14) :=
  ⟨(nested_parentheses NewCalculator "1".toList "2".toList "3".toList "4".toList
      (by decide) (by decide) (by decide) (by decide)).2
      (by decide) (by decide) (by decide) (by decide) (by decide) (by decide) (by decide),
    (nested_parentheses NewCalculator "1".toList "-3".toList "3".toList "4".toList
      (by decide) (by decide) (by decide) (by decide)).2
      (by decide) (by decide) (by decide) (by decide) (by decide) (by decide) (by decide)⟩

theorem tok_eq : Tok ['='] := tok_single (by decide) (by decide) (by decide) (by decide)

theorem tok_singleton {t : Str} (h : Tok t) : ∀ u ∈ [t], Tok u := by
  intro u hu
  rw [List.mem_singleton] at hu
  rw [hu]
  exact h

/-- An assignment `v = t` at the top level, for an operand `t` that has a value. -/
theorem handleExpression_assign (c0 : Calculator) (v t : Str) (x : Int)
    (hv : isValidVariable v = true) (ht : Tok t) (hval : getValue (reset c0) t = .ok x) :
    handleExpression (reset c0) (v ++ " = ".toList ++ t) =
      { result := .ok (), printed := [],
        state := reset { c0 with vars := fun k => if k = v then some x else c0.vars k } } := by
  have htok := tok_list3 (tok_name hv) tok_eq ht
  have e : v ++ " = ".toList ++ t = joinSp [v, ['='], t] := by simp [joinSp]
  have hmem : '=' ∈ joinSp [v, ['='], t] := by simp [joinSp]
  rw [e, handleExpression_tokens _ _ _ htok, evaluateFlat_tokens _ _ _ htok (name_head hv)]
  unfold calculate
  rw [parseExpression_joinSp _ _ (by simp) htok]
  have hval' := hval
  simp only [reset] at hval'
  simp [parseSplit, hmem, hv, hval', reset]

/-- A single operand `t` that has a value, at the top level. -/
theorem handleExpression_operand (c0 : Calculator) (t : Str) (x : Int) (ht : Tok t)
    (hcmd : ∀ ch ∈ t.head?, ch ≠ '/') (hval : getValue (reset c0) t = .ok x) :
    handleExpression (reset c0) t =
      { result := .ok (), printed := [.int x], state := reset c0 } := by
  have htok := tok_singleton ht
  have e : t = joinSp [t] := rfl
  rw [e, handleExpression_tokens _ _ _ htok, evaluateFlat_tokens _ _ _ htok hcmd]
  unfold calculate
  rw [parseExpression_joinSp _ _ (by simp) htok]
  have hval' := hval
  simp only [reset] at hval'
  simp [parseSplit, hval', reset]

/-- C4 fails as stated: after `x = 9223372036854775808` the input `x` prints
`9223372036854775807`, the value `Atoi` gives the literal, not the literal's value. -/
theorem assignment_literal_out_of_range :
    (handleExpression
        (reset (handleExpression (reset NewCalculator) "x = 9223372036854775808".toList).state)
        "x".toList).printed = [.int 9223372036854775807]
      ∧ ¬ (handleExpression
        (reset (handleExpression (reset NewCalculator) "x = 9223372036854775808".toList).state)
        "x".toList).Prints (litVal "9223372036854775808".toList) := by
  decide

/-- C4 (as amended): for an alphabetic name `v`, an integer literal `n` and any variable
store, `handleExpression` (entered after `reset`) on `v = n` returns no error, prints
nothing and stores under `v` the value `Atoi` gives `n`, whatever `v` held before; a
following `handleExpression` on `v` prints that value, which is `n` itself whenever `n`
fits 64 bits. -/
theorem assignment_round_trip (c0 : Calculator) (v n : Str)
    (hv : isValidVariable v = true) (hn : isNumeric n = true) :
    handleExpression (reset c0) (v ++ " = ".toList ++ n) =
      { result := .ok (), printed := [],
        state := reset { c0 with vars := fun k => if k = v then some (atoi n) else c0.vars k } }
    ∧ handleExpression (reset (handleExpression (reset c0) (v ++ " = ".toList ++ n)).state) v =
      { result := .ok (), printed := [.int (atoi n)],
        state := reset { c0 with vars := fun k => if k = v then some (atoi n) else c0.vars k } }
    ∧ (InRange (litVal n) →
      (handleExpression (reset (handleExpression (reset c0) (v ++ " = ".toList ++ n)).state)
        v).Prints (litVal n)) := by
  have h1 := handleExpression_assign c0 v n (atoi n) hv (tok_numeric hn) (getValue_numeric _ hn)
  have h2 := handleExpression_operand
    { c0 with vars := fun k => if k = v then some (atoi n) else c0.vars k } v (atoi n)
    (tok_name hv) (name_head hv) (by simp [getValue_name _ hv, reset])
  refine ⟨h1, ?_, ?_⟩
  · rw [h1]
    exact h2
  · intro hr
    rw [h1]
    have h2' : handleExpression (reset (reset
        { c0 with vars := fun k => if k = v then some (atoi n) else c0.vars k })) v = _ := h2
    rw [h2', atoi_of_inRange hr]
    exact ⟨rfl, rfl⟩

/-- C4 at the spec's example: `x = 5` prints nothing and then `x` prints 5, also when `x`
held 7 before. -/
theorem assignment_round_trip_witness :
    (handleExpression (reset NewCalculator) "x = 5".toList).printed = []
      ∧ (handleExpression
          (reset (handleExpression (reset NewCalculator) "x = 5".toList).state)
          "x".toList).Prints 5
      ∧ (handleExpression
          (reset (handleExpression
            (reset (handleExpression (reset NewCalculator) "x = 7".toList).state)
            "x = 5".toList).state)
          "x".toList).Prints 5 :=
  ⟨by
      have h := (assignment_round_trip NewCalculator "x".toList "5".toList
        (by decide) (by decide)).1
      have e : "x".toList ++ " = ".toList ++ "5".toList = "x = 5".toList := by decide
      rw [e] at h
      rw [h],
    (assignment_round_trip NewCalculator "x".toList "5".toList (by decide) (by decide)).2.2
      (by decide),
    (assignment_round_trip (handleExpression (reset NewCalculator) "x = 7".toList).state
      "x".toList "5".toList (by decide) (by decide)).2.2 (by decide)⟩

/-! ## The variable store changes only in a successful top-level assignment -/

theorem parsePart_vars (i : Nat) (v : Str) (c : Calculator) : (parsePart i v c).2.vars = c.vars := by
  unfold parsePart
  split
  · cases getValue c v <;> rfl
  · split
    · rfl
    · split <;> rfl

theorem parseParts_vars : ∀ (parts : List Str) (i : Nat) (c : Calculator),
    (parseParts i parts c).2.vars = c.vars
  | [], _, _ => rfl
  | v :: rest, i, c => by
    rw [parseParts]
    have h := parsePart_vars i v c
    cases hp : parsePart i v c with
    | mk r c1 =>
      rw [hp] at h
      cases r with
      | ok u =>
        simp only
        rw [parseParts_vars rest (i + 1) c1]
        exact h
      | error e => exact h
      | panic p => exact h
      | exit => exact h
      | outOfFuel => exact h

theorem parseSplit_vars (c : Calculator) (expression : Str) (parts : List Str) :
    (parseSplit c expression parts).2.vars = c.vars := by
  unfold parseSplit
  split
  · cases getValue c _ <;> rfl
  · split
    · split
      · split
        · rfl
        · split
          · rfl
          · cases getValue c _ <;> rfl
      · rfl
    · exact parseParts_vars _ _ _

theorem parseExpression_vars (c : Calculator) (expression : Str) :
    (parseExpression c expression).2.vars = c.vars := by
  unfold parseExpression
  split
  · rfl
  · split
    · rfl
    · exact parseSplit_vars _ _ _

theorem reduce_vars (c : Calculator) : (reduce c).2.vars = c.vars := by
  unfold reduce
  cases reduceTiers priotiritisedOperators c.operands c.operators with
  | ok p =>
    obtain ⟨operands, operators⟩ := p
    cases operands <;> rfl
  | error e => rfl
  | panic p => rfl
  | exit => rfl
  | outOfFuel => rfl

/-- A call of `calculate` leaves the variable store alone unless it is a top-level call
that returns without error. -/
theorem calculate_vars (c : Calculator) (expression : Str) (sub : Bool) :
    (calculate c expression sub).2.vars = c.vars
      ∨ (sub = false ∧ ∃ r, (calculate c expression sub).1 = .ok r) := by
  unfold calculate
  have h := parseExpression_vars c expression
  cases hp : parseExpression c expression with
  | mk r c1 =>
    rw [hp] at h
    cases r with
    | ok u =>
      simp only
      cases hops : c1.operators with
      | nil =>
        simp only
        cases sub with
        | true => exact Or.inl h
        | false =>
          cases c1.operands with
          | nil => exact Or.inl h
          | cons x t => exact Or.inr ⟨rfl, _, rfl⟩
      | cons op0 t =>
        simp only
        by_cases h61 : op0 = 61
        · simp only [h61, if_true]
          cases sub with
          | true => exact Or.inl h
          | false =>
            simp only [Bool.false_eq_true, if_false]
            cases c1.operands with
            | nil => exact Or.inl h
            | cons x t => exact Or.inr ⟨trivial, _, rfl⟩
        · simp only [h61, if_false]
          left
          rw [reduce_vars]
          exact h
    | error e => exact Or.inl h
    | panic p => exact Or.inl h
    | exit => exact Or.inl h
    | outOfFuel => exact Or.inl h

theorem calculate_sub_vars (c : Calculator) (expression : Str) :
    (calculate c expression true).2.vars = c.vars := by
  rcases calculate_vars c expression true with h | ⟨h, _⟩
  · exact h
  · cases h

theorem resolveGroups_vars : ∀ (k : Nat) (c : Calculator) (expression : Str),
    (resolveGroups k c expression).2.vars = c.vars
  | 0, _, _ => rfl
  | k + 1, c, expression => by
    rw [resolveGroups]
    simp only
    split
    · rfl
    · have h := calculate_sub_vars c
        (prepareExpression (replaceFirst (replaceFirst (findGroup expression) ['('] []) [')'] []))
      cases hc : calculate c
        (prepareExpression (replaceFirst (replaceFirst (findGroup expression) ['('] []) [')'] []))
        true with
      | mk r c1 =>
        rw [hc] at h
        cases r with
        | ok p =>
          simp only
          rw [resolveGroups_vars k c1]
          exact h
        | error e => exact h
        | panic p => exact h
        | exit => exact h
        | outOfFuel => exact h

theorem handleCommand_state (c : Calculator) (cmd : Str) : (handleCommand c cmd).state = c := by
  unfold handleCommand
  split
  · rfl
  · split <;> rfl

theorem evaluateFlat_vars (c : Calculator) (flat : Str) (e : Err)
    (h : (evaluateFlat c flat).result = .error e) : (evaluateFlat c flat).state.vars = c.vars := by
  unfold evaluateFlat at h ⊢
  dsimp only at h ⊢
  cases hp : prepareExpression flat with
  | nil => rfl
  | cons ch t =>
    rw [hp] at h
    dsimp only at h ⊢
    by_cases hch : ch = '/'
    · rw [if_pos hch, handleCommand_state]
    · rw [if_neg hch] at h ⊢
      rcases calculate_vars c (ch :: t) false with hv | ⟨_, r, hr⟩
      · cases hc : calculate c (ch :: t) false with
        | mk r c2 =>
          rw [hc] at hv
          cases r <;> exact hv
      · cases hc : calculate c (ch :: t) false with
        | mk r' c2 =>
          rw [hc] at h hr
          dsimp only at hr
          subst hr
          simp at h

/-- C5: for every input line and every calculator, if `handleExpression` returns an
error, the variable map afterwards is the map before the call. -/
theorem failed_input_keeps_store (c : Calculator) (expression : Str) (e : Err)
    (h : (handleExpression c expression).result = .error e) :
    (handleExpression c expression).state.vars = c.vars := by
  unfold handleExpression at h ⊢
  have hv := resolveGroups_vars (expression.count '(' + 1) c expression
  cases hr : resolveGroups (expression.count '(' + 1) c expression with
  | mk r c1 =>
    rw [hr] at h hv
    dsimp only at hv
    cases r with
    | ok flat =>
      dsimp only at h ⊢
      rw [evaluateFlat_vars c1 flat e h]
      exact hv
    | error e1 => exact hv
    | panic p => exact hv
    | exit => exact hv
    | outOfFuel => exact hv

/-- C5 at the spec's example: after `y = 10`, the input `y = = 2` returns Invalid
expression, the variable map is the one before, and `y` still gives 10. -/
theorem failed_input_keeps_store_witness :
    (handleExpression
        (reset (handleExpression (reset NewCalculator) "y = 10".toList).state)
        "y = = 2".toList).result = .error .invalidExpression
      ∧ (handleExpression
          (reset (handleExpression (reset NewCalculator) "y = 10".toList).state)
          "y = = 2".toList).state.vars
        = (reset (handleExpression (reset NewCalculator) "y = 10".toList).state).vars
      ∧ (handleExpression
          (reset (handleExpression
            (reset (handleExpression (reset NewCalculator) "y = 10".toList).state)
            "y = = 2".toList).state)
          "y".toList).Prints 10 :=
  ⟨by decide,
    failed_input_keeps_store
      (reset (handleExpression (reset NewCalculator) "y = 10".toList).state)
      "y = = 2".toList .invalidExpression (by decide),
    by decide⟩

/-! ## Inputs given as explicit text -/

/-- A text without a parenthesised group passes the first loop unchanged. -/
theorem handleExpression_of_no_group (c : Calculator) (s : Str) (hg : findGroup s = []) :
    handleExpression c s = evaluateFlat c s := by
  unfold handleExpression
  rw [resolveGroups]
  simp [hg]

/-- After its first loop `handleExpression` hands the prepared text to `calculate`, unless
it is empty or a command. -/
theorem evaluateFlat_eq (c : Calculator) (s : Str) (ch : Char) (t : Str)
    (hp : prepareExpression s = ch :: t) (hcmd : ch ≠ '/') :
    evaluateFlat c s =
      match calculate c (ch :: t) false with
      | (.ok (n, print), c2) =>
        { result := .ok (), state := c2, printed := if print then [.int n] else [] }
      | (r, c2) => { result := r.cast (), state := c2, printed := [] } := by
  unfold evaluateFlat
  simp only [hp, hcmd, if_false]

/-- On text that passes its two checks `parseExpression` is `parseSplit` on its parts. -/
theorem parseExpression_eq (c : Calculator) (s : Str) (parts : List Str)
    (h1 : hasMulDivRun s = false) (h2 : s.count '(' = s.count ')')
    (h3 : splitSpace s = parts) : parseExpression c s = parseSplit c s parts := by
  unfold parseExpression
  simp [h1, h2, h3]

theorem dangling_plus (c0 : Calculator) :
    (handleExpression (reset c0) "2 +".toList).result = .panic .indexOutOfRange := by
  rw [handleExpression_of_no_group _ _ (by decide),
    evaluateFlat_eq _ _ '2' " +".toList (by decide) (by decide)]
  unfold calculate
  rw [parseExpression_eq _ _ ["2".toList, "+".toList] (by decide) (by decide) (by decide)]
  have hne : '=' ∉ '2' :: " +".toList := by decide
  have hv : ∀ c : Calculator, getValue c ['2'] = .ok 2 := fun c => by
    rw [getValue_numeric c (by decide)]; decide
  have e1 : firstByte '+' = 43 := by decide
  simp [parseSplit, hne, parseParts, parsePart, hv, e1, reset, reduce,
    reduceTiers, reduceTier, findAny, applyOperator, priotiritisedOperators, Res.cast]

theorem glued_minus (c0 : Calculator) :
    (handleExpression (reset c0) "2-3".toList).result = .panic .indexOutOfRange := by
  rw [handleExpression_of_no_group _ _ (by decide),
    evaluateFlat_eq _ _ '2' " -3".toList (by decide) (by decide)]
  unfold calculate
  rw [parseExpression_eq _ _ ["2".toList, "-3".toList] (by decide) (by decide) (by decide)]
  have hne : '=' ∉ '2' :: " -3".toList := by decide
  have hv : ∀ c : Calculator, getValue c ['2'] = .ok 2 := fun c => by
    rw [getValue_numeric c (by decide)]; decide
  have e1 : firstByte '-' = 45 := by decide
  have e2 : byteLen ['-', '3'] = 2 := by decide
  simp [parseSplit, hne, parseParts, parsePart, hv, e1, e2, reset, reduce,
    reduceTiers, reduceTier, findAny, applyOperator, priotiritisedOperators, Res.cast]

/-- C6 fails on the code: for every variable store, `2 +` and `2-3` (which
`prepareExpression` turns into `2 -3`, two parts) leave one operand and one operator, and
the read of `c.operands[i+1]` in `calculate` panics with an index out of range: the call
neither returns a value nor one of the named errors. -/
theorem index_out_of_range_on_missing_operand (c0 : Calculator) :
    (handleExpression (reset c0) "2 +".toList).result = .panic .indexOutOfRange
      ∧ (handleExpression (reset c0) "2-3".toList).result = .panic .indexOutOfRange
      ∧ prepareExpression "2-3".toList = "2 -3".toList :=
  ⟨dangling_plus c0, glued_minus c0, by decide⟩

/-- C7 fails as stated: `4 / 0` ends in the run-time panic of Go's integer division, not
in a returned error. -/
theorem division_by_zero_is_not_an_error :
    (handleExpression (reset NewCalculator) "4 / 0".toList).result = .panic .divideByZero
      ∧ ∀ e : Err, (handleExpression (reset NewCalculator) "4 / 0".toList).result ≠ .error e := by
  have h : (handleExpression (reset NewCalculator) "4 / 0".toList).result
      = .panic .divideByZero := by decide
  refine ⟨h, ?_⟩
  intro e he
  rw [h] at he
  cases he

/-- C7 (as amended): for every integer literal `a` and every variable store,
`handleExpression` (entered after `reset`) on `a / 0` does not return: the division
panics with Go's integer divide by zero, nothing is printed and the variable map is
the one before the call. -/
theorem division_by_zero_panics (c0 : Calculator) (a : Str) (ha : isNumeric a = true) :
    (handleExpression (reset c0) (a ++ " / 0".toList)).result = .panic .divideByZero
      ∧ (handleExpression (reset c0) (a ++ " / 0".toList)).printed = []
      ∧ (handleExpression (reset c0) (a ++ " / 0".toList)).state.vars = c0.vars := by
  have e : a ++ " / 0".toList = joinSp [a, ['/'], "0".toList] := by simp [joinSp]
  have h0 : atoi "0".toList = 0 := by decide
  have e4 : firstByte '/' = 47 := by decide
  have h := handleExpression_binary c0 a "0".toList '/' ha (by decide) (by simp)
  rw [h0, e4] at h
  have happ : applyOperator 47 [atoi a, 0] 0 = .panic .divideByZero := by
    simp [applyOperator]
  rw [happ] at h
  rw [e, h]
  exact ⟨rfl, rfl, rfl⟩

/-- C7 at the spec's example `4 / 0`. -/
theorem division_by_zero_panics_witness :
    (handleExpression (reset NewCalculator) ("4".toList ++ " / 0".toList)).result
        = .panic .divideByZero
      ∧ (handleExpression (reset NewCalculator) ("4".toList ++ " / 0".toList)).printed = [] :=
  ⟨(division_by_zero_panics NewCalculator "4".toList (by decide)).1,
    (division_by_zero_panics NewCalculator "4".toList (by decide)).2.1⟩

/-! ## Runs of minus signs -/

theorem replaceAllWith_skip (m : Str → Option (Str × Nat)) : ∀ (s : Str) (k : Nat),
    s.length ≤ k → replaceAllWith m k s = []
  | [], _, _ => by simp [replaceAllWith]
  | x :: t, 0, h => by simp at h
  | x :: t, k + 1, h => by
    rw [replaceAllWith]
    exact replaceAllWith_skip m t k (by simpa using h)

/-- Where the pattern matches at no position of a prefix, the prefix is copied. -/
theorem replaceAllWith_copy (m : Str → Option (Str × Nat)) (rest : Str) (P : Str → Prop)
    (hP : ∀ x t, P (x :: t) → P t) (hm : ∀ x t, P (x :: t) → m (x :: (t ++ rest)) = none) :
    ∀ pre : Str, P pre → replaceAllWith m 0 (pre ++ rest) = pre ++ replaceAllWith m 0 rest
  | [], _ => rfl
  | x :: t, h => by
    rw [List.cons_append, replaceAllWith, hm x t h]
    simp only
    rw [replaceAllWith_copy m rest P hP hm t (hP x t h)]
    rfl

theorem natLiteral_iff (s : Str) : isNatLiteral s = true ↔ s ≠ [] ∧ ∀ ch ∈ s, isDigit ch = true := by
  simp [isNatLiteral]

theorem natLiteral_numeric {s : Str} (h : isNatLiteral s = true) : isNumeric s = true :=
  (isNumeric_iff s).mpr (Or.inr ((natLiteral_iff s).mp h))

theorem natLiteral_neg_numeric {s : Str} (h : isNatLiteral s = true) :
    isNumeric ('-' :: s) = true :=
  (isNumeric_iff _).mpr (Or.inl ⟨s, rfl, (natLiteral_iff s).mp h⟩)

theorem NoMinusPair.dropFirst {x : Char} {t : Str} (h : NoMinusPair (x :: t)) : NoMinusPair t := by
  refine ⟨List.Chain'.tail h.1, ?_⟩
  intro y hy
  cases t with
  | nil => simp at hy
  | cons a r =>
    apply h.2
    rw [List.getLast?_cons_cons]
    exact hy

theorem matchMinusRun_none_of_noMinusPair (rest : Str) (x : Char) (t : Str)
    (h : NoMinusPair (x :: t)) : matchMinusRun (x :: (t ++ rest)) = none := by
  have hlen : ((x :: (t ++ rest)).takeWhile (fun ch => ch = '-')).length ≤ 1 := by
    by_cases hx : x = '-'
    · cases t with
      | nil => exact absurd hx (h.2 x (by simp))
      | cons y r =>
        have hy : ¬ y = '-' := fun hy => (List.chain'_cons.mp h.1).1 ⟨hx, hy⟩
        simp [List.takeWhile, hx, hy]
    · simp [List.takeWhile, hx]
  unfold matchMinusRun matchRunRun
  simp only
  rw [if_neg]
  omega

theorem digits_takeWhile_minus {b : Str} (hb : ∀ ch ∈ b, isDigit ch = true) :
    b.takeWhile (fun ch => decide (ch = '-')) = [] ∧ b.dropWhile (fun ch => decide (ch = '-')) = b := by
  cases b with
  | nil => exact ⟨rfl, rfl⟩
  | cons x t =>
    have hx : ¬ x = '-' := (digit_facts (hb x (by simp))).2.2.2.2.2.1
    simp [List.takeWhile, List.dropWhile, hx]

theorem digits_takeWhile_operand {b : Str} (hb : ∀ ch ∈ b, isDigit ch = true) :
    b.takeWhile isOperandChar = b :=
  List.takeWhile_eq_self_iff.mpr (fun ch hch => by simp [isOperandChar, hb ch hch])

theorem matchMinusRun_two {b : Str} (hne : b ≠ []) (hb : ∀ ch ∈ b, isDigit ch = true) :
    matchMinusRun ('-' :: '-' :: b) = some ('-' :: '-' :: ' ' :: b, 2 + b.length) := by
  have h1 := digits_takeWhile_minus hb
  have h2 := digits_takeWhile_operand hb
  have hlen : 1 ≤ b.length := List.length_pos.mpr hne
  unfold matchMinusRun matchRunRun
  simp [List.takeWhile, List.dropWhile, h1.1, h1.2, h2, hlen]

theorem chain_of_forall_left (P Q : Char → Prop) : ∀ s : Str, (∀ x ∈ s, ¬ P x) →
    List.Chain' (fun x y => ¬(P x ∧ Q y)) s
  | [], _ => List.chain'_nil
  | [_], _ => List.chain'_singleton _
  | x :: y :: t, h => by
    refine List.chain'_cons.mpr ⟨fun hxy => h x (by simp) hxy.1, ?_⟩
    exact chain_of_forall_left P Q (y :: t) (fun z hz => h z (List.mem_cons_of_mem _ hz))

/-- The minus-run pattern of `prepareExpression` splits `a - --b` into `a - -- b`. -/
theorem replaceMinusRun_unary (a b : Str) (ha : isNatLiteral a = true)
    (hb : isNatLiteral b = true) :
    replaceAllWith matchMinusRun 0 (joinSp [a, ['-'], '-' :: '-' :: b])
      = joinSp [a, ['-'], ['-', '-'], b] := by
  obtain ⟨_, hda⟩ := (natLiteral_iff a).mp ha
  obtain ⟨hnb, hdb⟩ := (natLiteral_iff b).mp hb
  have hpre : NoMinusPair (a ++ [' ', '-', ' ']) := by
    constructor
    · refine List.chain'_append.mpr ⟨?_, by simp, ?_⟩
      · exact chain_of_forall_left _ _ a (fun x hx => (digit_facts (hda x hx)).2.2.2.2.2.1)
      · intro x hx y _ hxy
        exact (digit_facts (hda x (List.mem_of_mem_getLast? hx))).2.2.2.2.2.1 hxy.1
    · intro x hx
      rw [List.getLast?_append_of_ne_nil _ (by simp)] at hx
      simp at hx
      rw [← hx]
      decide
  have e : joinSp [a, ['-'], '-' :: '-' :: b] = (a ++ [' ', '-', ' ']) ++ ('-' :: '-' :: b) := by
    simp [joinSp]
  rw [e, replaceAllWith_copy matchMinusRun _ NoMinusPair (fun _ _ h => h.dropFirst)
    (fun x t h => matchMinusRun_none_of_noMinusPair _ x t h) _ hpre]
  rw [replaceAllWith, matchMinusRun_two hnb hdb]
  simp only
  rw [replaceAllWith_skip _ _ _ (by simp; omega)]
  simp [joinSp]

theorem evaluateFlat_of_prepared (c : Calculator) (s t : Str) (r : List Str)
    (hp : prepareExpression s = joinSp (t :: r)) (ht : t ≠ [])
    (hcmd : ∀ x ∈ t.head?, x ≠ '/') :
    evaluateFlat c s =
      match calculate c (joinSp (t :: r)) false with
      | (.ok (n, print), c2) =>
        { result := .ok (), state := c2, printed := if print then [.int n] else [] }
      | (r, c2) => { result := r.cast (), state := c2, printed := [] } := by
  obtain ⟨x, u, hs⟩ := List.exists_cons_of_ne_nil (joinSp_ne_nil r ht)
  have hx : x ≠ '/' := by
    apply hcmd
    rw [← head?_joinSp t r ht, hs]
    rfl
  rw [hs] at hp ⊢
  exact evaluateFlat_eq c s x u hp hx

theorem lex_minus_pair : Lex ['-', '-'] where
  ne := by simp
  loose := List.chain'_cons.mpr ⟨by decide, List.chain'_singleton _⟩
  noSpace := by decide
  noParen := by decide

theorem lex_minus_minus_literal {b : Str} (hb : isNatLiteral b = true) : Lex ('-' :: '-' :: b) := by
  have h := (tok_numeric (natLiteral_neg_numeric hb)).lex
  refine ⟨by simp, List.chain'_cons.mpr ⟨by decide, h.loose⟩, ?_, ?_⟩
  · intro ch hch
    rcases List.mem_cons.mp hch with rfl | hch
    · exact ⟨by decide, by decide⟩
    · exact h.noSpace ch hch
  · intro ch hch
    rcases List.mem_cons.mp hch with rfl | hch
    · exact ⟨by decide, by decide⟩
    · exact h.noParen ch hch

theorem lex_list3 {a b c : Str} (ha : Lex a) (hb : Lex b) (hc : Lex c) :
    ∀ t ∈ [a, b, c], Lex t := by
  intro t ht
  simp only [List.mem_cons, List.mem_singleton, List.not_mem_nil, or_false] at ht
  rcases ht with rfl | rfl | rfl
  · exact ha
  · exact hb
  · exact hc

theorem lex_list4 {a b c d : Str} (ha : Lex a) (hb : Lex b) (hc : Lex c) (hd : Lex d) :
    ∀ t ∈ [a, b, c, d], Lex t := by
  intro t ht
  simp only [List.mem_cons, List.mem_singleton, List.not_mem_nil, or_false] at ht
  rcases ht with rfl | rfl | rfl | rfl
  · exact ha
  · exact hb
  · exact hc
  · exact hd

theorem tok_minus : Tok ['-'] := tok_arith (by simp)

/-- The function `prepareExpression` turns `a - --b` into `a - -- b`. -/
theorem prepareExpression_unary (a b : Str) (ha : isNatLiteral a = true)
    (hb : isNatLiteral b = true) :
    prepareExpression (joinSp [a, ['-'], '-' :: '-' :: b]) = joinSp [a, ['-'], ['-', '-'], b] := by
  have hna := natLiteral_numeric ha
  have hnb := natLiteral_numeric hb
  have hl0 := lex_list3 (tok_numeric hna).lex tok_minus.lex (lex_minus_minus_literal hb)
  have hl1 := lex_list4 (tok_numeric hna).lex tok_minus.lex lex_minus_pair (tok_numeric hnb).lex
  have hc0 := loose_joinSp _ hl0
  have hc1 := loose_joinSp _ hl1
  have htrim : trimSpace (joinSp [a, ['-'], '-' :: '-' :: b]) = joinSp [a, ['-'], '-' :: '-' :: b] := by
    apply trimSpace_eq_self
    · intro x hx
      rw [head?_joinSp a _ (tok_numeric hna).ne] at hx
      exact ((tok_numeric hna).noSpace x (List.mem_of_mem_head? hx)).1
    · exact getLast?_joinSp _ hl0
  have hh : ¬ (joinSp [a, ['-'], '-' :: '-' :: b]).head? = some '/' := by
    rw [head?_joinSp a _ (tok_numeric hna).ne]
    intro hx
    exact numeric_head hna '/' hx rfl
  unfold prepareExpression
  simp only [htrim, hh, if_false, collapseSpaces_of_loose _ hc0,
    replaceAllWith_of_chain _ _ (fun t ht => matchOpOperand_of_loose ht) _ hc0,
    replaceAllWith_of_chain _ _ (fun t ht => matchOperandOp_of_loose ht) _ hc0,
    replaceMinusRun_unary a b ha hb,
    replaceAllWith_of_chain _ _ (fun t ht => matchOpenSpace_of_loose ht) _ hc1,
    replaceAllWith_of_chain _ _ (fun t ht => matchSpaceClose_of_loose ht) _ hc1]

theorem handleExpression_unary (c0 : Calculator) (a b : Str) (ha : isNatLiteral a = true)
    (hb : isNatLiteral b = true) :
    handleExpression (reset c0) (a ++ " - --".toList ++ b) =
      { result := .error .invalidIdentifier, printed := [],
        state := { reset c0 with operands := [atoi a], operators := [45] } } := by
  have hna := natLiteral_numeric ha
  have hnb := natLiteral_numeric hb
  have hl0 := lex_list3 (tok_numeric hna).lex tok_minus.lex (lex_minus_minus_literal hb)
  have hl1 := lex_list4 (tok_numeric hna).lex tok_minus.lex lex_minus_pair (tok_numeric hnb).lex
  have e : a ++ " - --".toList ++ b = joinSp [a, ['-'], '-' :: '-' :: b] := by simp [joinSp]
  have hopen : '(' ∉ joinSp [a, ['-'], '-' :: '-' :: b] :=
    not_mem_joinSp (by decide) (fun t ht hm => ((hl0 t ht).noParen _ hm).1 rfl)
  have hne : '=' ∉ joinSp [a, ['-'], ['-', '-'], b] := by
    apply not_mem_joinSp (by decide)
    intro t ht
    simp only [List.mem_cons, List.mem_singleton, List.not_mem_nil, or_false] at ht
    rcases ht with rfl | rfl | rfl | rfl
    · exact numeric_noEq hna
    · decide
    · decide
    · exact numeric_noEq hnb
  have e2 : firstByte '-' = 45 := by decide
  have e5 : byteLen ['-'] = 1 := by decide
  have hmm : ∀ c : Calculator, getValue c ['-', '-'] = .error .invalidIdentifier := fun c => by
    have h1 : isNumeric ['-', '-'] = false := by decide
    have h2 : isValidVariable ['-', '-'] = false := by decide
    simp [getValue, h1, h2]
  rw [e, handleExpression_of_no_group _ _ (findGroup_of_no_open _ hopen),
    evaluateFlat_of_prepared _ _ a _ (prepareExpression_unary a b ha hb) (tok_numeric hna).ne
      (numeric_head hna)]
  unfold calculate
  rw [parseExpression_joinSp_lex _ _ (by simp) hl1]
  simp [parseSplit, hne, parseParts, parsePart, getValue_numeric _ hna, e2, e5, hmm, reset,
    Res.cast]

theorem litVal_natLiteral {b : Str} (hb : isNatLiteral b = true) :
    litVal b = (parseNat b : Int) ∧ litVal ('-' :: b) = -(parseNat b : Int) := by
  obtain ⟨hne, hd⟩ := (natLiteral_iff b).mp hb
  obtain ⟨x, t, rfl⟩ := List.exists_cons_of_ne_nil hne
  have hx : ¬ x = '-' := (digit_facts (hd x (by simp))).2.2.2.2.2.1
  simp [litVal, hx]

/-- C8 fails as stated: `5 - --3` does not give 2; `prepareExpression` makes `5 - -- 3`
of it, the part `--` stands where an operand is read, and `getValue` returns Invalid
identifier. -/
theorem unary_double_minus_rejected :
    (handleExpression (reset NewCalculator) "5 - --3".toList).result = .error .invalidIdentifier
      ∧ (handleExpression (reset NewCalculator) "5 - --3".toList).printed = []
      ∧ ¬ (handleExpression (reset NewCalculator) "5 - --3".toList).Prints 2 := by
  decide

/-- C8 (as amended): for non-negative integer literals `a` and `b` and any variable
store, `handleExpression` (entered after `reset`) on `a - -b` prints `a - (-b)` computed
in Go's 64-bit `int` on the values `Atoi` gives `a` and `-b`, which is `a + b` whenever
the literals and the sum fit 64 bits; on `a - --b` it returns Invalid identifier and
prints nothing, the variable map unchanged. -/
theorem unary_minus_parity (c0 : Calculator) (a b : Str) (ha : isNatLiteral a = true)
    (hb : isNatLiteral b = true) :
    handleExpression (reset c0) (a ++ " - -".toList ++ b) =
        { result := .ok (), state := reset c0,
          printed := [.int (goSub (atoi a) (atoi ('-' :: b)))] }
      ∧ (InRange (litVal a) → InRange (litVal b) → InRange (litVal a + litVal b) →
          (handleExpression (reset c0) (a ++ " - -".toList ++ b)).Prints (litVal a + litVal b))
      ∧ handleExpression (reset c0) (a ++ " - --".toList ++ b) =
        { result := .error .invalidIdentifier, printed := [],
          state := { reset c0 with operands := [atoi a], operators := [45] } } := by
  have hna := natLiteral_numeric ha
  have hnb := natLiteral_neg_numeric hb
  have e : a ++ " - -".toList ++ b = joinSp [a, ['-'], '-' :: b] := by simp [joinSp]
  have e2 : firstByte '-' = 45 := by decide
  have h1 : handleExpression (reset c0) (a ++ " - -".toList ++ b) =
      { result := .ok (), state := reset c0,
        printed := [.int (goSub (atoi a) (atoi ('-' :: b)))] } := by
    rw [e, handleExpression_binary c0 a ('-' :: b) '-' hna hnb (by simp)]
    simp [applyOperator, e2]
  refine ⟨h1, ?_, handleExpression_unary c0 a b ha hb⟩
  intro ra rb rab
  obtain ⟨l1, l2⟩ := litVal_natLiteral hb
  have rnb : InRange (litVal ('-' :: b)) := by
    rw [l2]
    rw [l1] at rb
    unfold InRange minInt maxInt at rb ⊢
    omega
  rw [h1, atoi_of_inRange ra, atoi_of_inRange rnb, l2]
  have : litVal a - -(parseNat b : Int) = litVal a + litVal b := by rw [l1]; omega
  simp only [goSub, this, wrap_of_inRange rab]
  exact ⟨rfl, rfl⟩

/-- C8 at the spec's examples: `5 - -3` prints 8, and `5 - --3` returns Invalid
identifier. -/
theorem unary_minus_parity_witness :
    (handleExpression (reset NewCalculator) ("5".toList ++ " - -".toList ++ "3".toList)).Prints 8
      ∧ (handleExpression (reset NewCalculator)
          ("5".toList ++ " - --".toList ++ "3".toList)).result = .error .invalidIdentifier :=
  ⟨(unary_minus_parity NewCalculator "5".toList "3".toList (by decide) (by decide)).2.1
      (by decide) (by decide) (by decide),
    by rw [(unary_minus_parity NewCalculator "5".toList "3".toList (by decide) (by decide)).2.2]⟩

/-! ## The two operand patterns -/

theorem char_le_iff (a b : Char) : a ≤ b ↔ a.toNat ≤ b.toNat := by
  rw [Char.le_def]
  exact Iff.rfl

theorem isDigit_iff (ch : Char) : isDigit ch = true ↔ '0' ≤ ch ∧ ch ≤ '9' := by
  simp only [isDigit, char_le_iff, Bool.and_eq_true, decide_eq_true_eq]
  exact Iff.rfl

theorem isLetter_iff (ch : Char) :
    isLetter ch = true ↔ ('a' ≤ ch ∧ ch ≤ 'z') ∨ ('A' ≤ ch ∧ ch ≤ 'Z') := by
  simp only [isLetter, char_le_iff, Bool.and_eq_true, Bool.or_eq_true, decide_eq_true_eq]
  exact Iff.rfl

theorem isNumeric_iff_matches (t : Str) : isNumeric t = true ↔ MatchesNumber t := by
  rw [isNumeric_iff]
  constructor
  · rintro (⟨ds, rfl, hne, hd⟩ | ⟨hne, hd⟩)
    · exact ⟨['-'], ds, rfl, Or.inr rfl, hne, fun ch hch => (isDigit_iff ch).mp (hd ch hch)⟩
    · exact ⟨[], t, rfl, Or.inl rfl, hne, fun ch hch => (isDigit_iff ch).mp (hd ch hch)⟩
  · rintro ⟨sign, ds, rfl, hs | hs, hne, hd⟩
    · subst hs
      exact Or.inr ⟨hne, fun ch hch => (isDigit_iff ch).mpr (hd ch hch)⟩
    · subst hs
      exact Or.inl ⟨ds, rfl, hne, fun ch hch => (isDigit_iff ch).mpr (hd ch hch)⟩

theorem isValidVariable_iff_matches (t : Str) : isValidVariable t = true ↔ MatchesName t := by
  rw [isValidVariable_iff]
  constructor
  · rintro ⟨hne, hl⟩
    exact ⟨hne, fun ch hch => (isLetter_iff ch).mp (hl ch hch)⟩
  · rintro ⟨hne, hl⟩
    exact ⟨hne, fun ch hch => (isLetter_iff ch).mpr (hl ch hch)⟩

theorem getValue_cases (c : Calculator) (t : Str) :
    (isNumeric t = true ∧ getValue c t = .ok (atoi t))
      ∨ (isNumeric t = false ∧ isValidVariable t = false
          ∧ getValue c t = .error .invalidIdentifier)
      ∨ (isNumeric t = false ∧ isValidVariable t = true
          ∧ ∃ n, c.vars t = some n ∧ getValue c t = .ok n)
      ∨ (isNumeric t = false ∧ isValidVariable t = true
          ∧ c.vars t = none ∧ getValue c t = .error .unknownVariable) := by
  unfold getValue
  cases hn : isNumeric t
  · cases hv : isValidVariable t
    · right; left
      simp
    · cases hk : c.vars t with
      | none =>
        right; right; right
        simp [hk]
      | some n =>
        right; right; left
        simp [hk]
  · left
    simp

/-- C9: for every token `t` and every variable store, `getValue` returns a value exactly
when `t` matches `^-?[0-9]+$` (the value `Atoi` gives it) or matches `^[a-zA-Z]+$` and
is a key of the store (the stored value); it returns Unknown variable exactly when `t`
matches `^[a-zA-Z]+$` and is no key; it returns Invalid identifier exactly when `t`
matches neither pattern.  `isNumeric` and `isValidVariable` decide the two patterns.
Evaluating `z` on a store without `z` returns Unknown variable. -/
theorem getValue_classification (c : Calculator) (t : Str) :
    (isNumeric t = true ↔ MatchesNumber t)
      ∧ (isValidVariable t = true ↔ MatchesName t)
      ∧ (∀ n, getValue c t = .ok n ↔
          (MatchesNumber t ∧ n = atoi t) ∨ (MatchesName t ∧ c.vars t = some n))
      ∧ (getValue c t = .error .unknownVariable ↔ MatchesName t ∧ c.vars t = none)
      ∧ (getValue c t = .error .invalidIdentifier ↔ ¬ MatchesNumber t ∧ ¬ MatchesName t)
      ∧ (c.vars "z".toList = none →
          (handleExpression (reset c) "z".toList).result = .error .unknownVariable
            ∧ (handleExpression (reset c) "z".toList).printed = []) := by
  have hnum := isNumeric_iff_matches t
  have hname := isValidVariable_iff_matches t
  have hdisj : isValidVariable t = true → isNumeric t = false := name_not_numeric
  refine ⟨hnum, hname, ?_, ?_, ?_, ?_⟩
  · intro n
    rcases getValue_cases c t with ⟨h1, h2⟩ | ⟨h1, h2, h3⟩ | ⟨h1, h2, m, h3, h4⟩ | ⟨h1, h2, h3, h4⟩
    · rw [h2]
      constructor
      · intro h
        cases h
        exact Or.inl ⟨hnum.mp h1, rfl⟩
      · rintro (⟨_, rfl⟩ | ⟨hm, _⟩)
        · rfl
        · rw [hdisj (hname.mpr hm)] at h1
          cases h1
    · rw [h3]
      constructor
      · intro h
        cases h
      · rintro (⟨hm, _⟩ | ⟨hm, _⟩)
        · rw [hnum.mpr hm] at h1
          cases h1
        · rw [hname.mpr hm] at h2
          cases h2
    · rw [h4]
      constructor
      · intro h
        cases h
        exact Or.inr ⟨hname.mp h2, h3⟩
      · rintro (⟨hm, _⟩ | ⟨_, hk⟩)
        · rw [hnum.mpr hm] at h1
          cases h1
        · rw [h3] at hk
          cases hk
          rfl
    · rw [h4]
      constructor
      · intro h
        cases h
      · rintro (⟨hm, _⟩ | ⟨_, hk⟩)
        · rw [hnum.mpr hm] at h1
          cases h1
        · rw [h3] at hk
          cases hk
  · rcases getValue_cases c t with ⟨h1, h2⟩ | ⟨h1, h2, h3⟩ | ⟨h1, h2, m, h3, h4⟩ | ⟨h1, h2, h3, h4⟩
    · rw [h2]
      constructor
      · intro h
        cases h
      · rintro ⟨hm, _⟩
        rw [hdisj (hname.mpr hm)] at h1
        cases h1
    · rw [h3]
      constructor
      · intro h
        cases h
      · rintro ⟨hm, _⟩
        rw [hname.mpr hm] at h2
        cases h2
    · rw [h4]
      constructor
      · intro h
        cases h
      · rintro ⟨_, hk⟩
        rw [h3] at hk
        cases hk
    · rw [h4]
      exact ⟨fun _ => ⟨hname.mp h2, h3⟩, fun _ => rfl⟩
  · rcases getValue_cases c t with ⟨h1, h2⟩ | ⟨h1, h2, h3⟩ | ⟨h1, h2, m, h3, h4⟩ | ⟨h1, h2, h3, h4⟩
    · rw [h2]
      constructor
      · intro h
        cases h
      · rintro ⟨hm, _⟩
        exact absurd (hnum.mp h1) hm
    · rw [h3]
      refine ⟨fun _ => ⟨?_, ?_⟩, fun _ => rfl⟩
      · intro hm
        rw [hnum.mpr hm] at h1
        cases h1
      · intro hm
        rw [hname.mpr hm] at h2
        cases h2
    · rw [h4]
      constructor
      · intro h
        cases h
      · rintro ⟨_, hm⟩
        exact absurd (hname.mp h2) hm
    · rw [h4]
      constructor
      · intro h
        cases h
      · rintro ⟨_, hm⟩
        exact absurd (hname.mp h2) hm
  · intro hz
    have hv : isValidVariable "z".toList = true := by decide
    have htok := tok_singleton (tok_name hv)
    have e : "z".toList = joinSp ["z".toList] := rfl
    have hg : getValue (reset c) "z".toList = .error .unknownVariable := by
      rw [getValue_name _ hv]
      simp only [reset, hz]
    rw [e, handleExpression_tokens _ _ _ htok, evaluateFlat_tokens _ _ _ htok (name_head hv)]
    unfold calculate
    rw [parseExpression_joinSp _ _ (by simp) htok]
    simp only [parseSplit]
    rw [hg]
    exact ⟨rfl, rfl⟩

/-- C9 at `z` on the empty store and at `-12`. -/
theorem getValue_classification_witness :
    (handleExpression (reset NewCalculator) "z".toList).result = .error .unknownVariable
      ∧ getValue NewCalculator "-12".toList = .ok (-12) :=
  ⟨((getValue_classification NewCalculator []).2.2.2.2.2 rfl).1,
    ((getValue_classification NewCalculator "-12".toList).2.2.1 (-12)).mpr
      (Or.inl ⟨((getValue_classification NewCalculator "-12".toList).1).mp (by decide),
        by decide⟩)⟩

theorem operand_value (c0 : Calculator) (t : Str)
    (ht : isNumeric t = true ∨ (isValidVariable t = true ∧ (c0.vars t).isSome = true)) :
    Tok t ∧ ∃ x, getValue (reset c0) t = .ok x := by
  rcases ht with h | ⟨h, hk⟩
  · exact ⟨tok_numeric h, _, getValue_numeric _ h⟩
  · obtain ⟨x, hx⟩ := Option.isSome_iff_exists.mp hk
    refine ⟨tok_name h, x, ?_⟩
    rw [getValue_name _ h]
    simp only [reset, hx]

/-- A group holding only an assignment `v = t` ends the call with Invalid expression. -/
theorem handleExpression_group_assign (c0 : Calculator) (v t : Str) (x : Int)
    (hv : isValidVariable v = true) (ht : Tok t) (hval : getValue (reset c0) t = .ok x) :
    handleExpression (reset c0) ("(".toList ++ v ++ " = ".toList ++ t ++ ")".toList) =
      { result := .error .invalidExpression, printed := [],
        state := { reset c0 with varName := v, operands := [x], operators := [61] } } := by
  have htok := tok_list3 (tok_name hv) tok_eq ht
  have e : "(".toList ++ v ++ " = ".toList ++ t ++ ")".toList
      = [] ++ '(' :: joinSp [v, ['='], t] ++ ')' :: [] := by simp [joinSp]
  have hcount : ("(".toList ++ v ++ " = ".toList ++ t ++ ")".toList).count '(' = 1 := by
    have h1 : v.count '(' = 0 := List.count_eq_zero.mpr (fun hm => ((tok_name hv).noParen _ hm).1 rfl)
    have h2 : t.count '(' = 0 := List.count_eq_zero.mpr (fun hm => (ht.noParen _ hm).1 rfl)
    simp [List.count_append, List.count_cons, h1, h2]
  have hmem : '=' ∈ joinSp [v, ['='], t] := by simp [joinSp]
  have hval' := hval
  simp only [reset] at hval'
  unfold handleExpression
  rw [hcount, e, resolveGroups_step _ _ [] _ (by simp) (joinSp_ne_nil _ (tok_name hv).ne)
      (joinSp_isNotParen htok),
    prepareExpression_joinSp _ _ htok (name_head hv)]
  unfold calculate
  rw [parseExpression_joinSp _ _ (by simp) htok]
  simp [parseSplit, hmem, hv, hval', reset, Res.cast]

/-- A group holding only an operand ends the call with Invalid expression. -/
theorem handleExpression_group_operand (c0 : Calculator) (t : Str) (x : Int) (ht : Tok t)
    (hcmd : ∀ ch ∈ t.head?, ch ≠ '/') (hval : getValue (reset c0) t = .ok x) :
    handleExpression (reset c0) ("(".toList ++ t ++ ")".toList) =
      { result := .error .invalidExpression, printed := [],
        state := { reset c0 with operands := [x] } } := by
  have htok := tok_singleton ht
  have e : "(".toList ++ t ++ ")".toList = [] ++ '(' :: joinSp [t] ++ ')' :: [] := by
    simp [joinSp]
  have hcount : ("(".toList ++ t ++ ")".toList).count '(' = 1 := by
    have h2 : t.count '(' = 0 := List.count_eq_zero.mpr (fun hm => (ht.noParen _ hm).1 rfl)
    simp [List.count_append, List.count_cons, h2]
  have hval' := hval
  simp only [reset] at hval'
  unfold handleExpression
  rw [hcount, e, resolveGroups_step _ _ [] _ (by simp) (joinSp_ne_nil _ ht.ne)
      (joinSp_isNotParen htok),
    prepareExpression_joinSp _ _ htok hcmd]
  unfold calculate
  rw [parseExpression_joinSp _ _ (by simp) htok]
  simp [parseSplit, joinSp, hval', reset, Res.cast]

theorem operand_head {t : Str}
    (ht : isNumeric t = true ∨ isValidVariable t = true) : ∀ ch ∈ t.head?, ch ≠ '/' := by
  rcases ht with h | h
  · exact numeric_head h
  · exact name_head h

/-- C10: for an alphabetic name `v`, an operand `t` that has a value (an integer literal
or an assigned variable) and any variable store, `handleExpression` (entered after
`reset`) on `(v = t)` and on `(t)` returns Invalid expression, prints nothing and leaves
the variable map as it was: no assignment is performed inside parentheses. -/
theorem group_needs_operator (c0 : Calculator) (v t : Str) (hv : isValidVariable v = true)
    (ht : isNumeric t = true ∨ (isValidVariable t = true ∧ (c0.vars t).isSome = true)) :
    ((handleExpression (reset c0) ("(".toList ++ v ++ " = ".toList ++ t ++ ")".toList)).result
        = .error .invalidExpression
      ∧ (handleExpression (reset c0) ("(".toList ++ v ++ " = ".toList ++ t ++ ")".toList)).printed
        = []
      ∧ (handleExpression (reset c0)
          ("(".toList ++ v ++ " = ".toList ++ t ++ ")".toList)).state.vars = c0.vars)
    ∧ ((handleExpression (reset c0) ("(".toList ++ t ++ ")".toList)).result
        = .error .invalidExpression
      ∧ (handleExpression (reset c0) ("(".toList ++ t ++ ")".toList)).printed = []
      ∧ (handleExpression (reset c0) ("(".toList ++ t ++ ")".toList)).state.vars = c0.vars) := by
  obtain ⟨htok, x, hx⟩ := operand_value c0 t ht
  have hhead : ∀ ch ∈ t.head?, ch ≠ '/' :=
    operand_head (ht.imp id (fun h => h.1))
  rw [handleExpression_group_assign c0 v t x hv htok hx,
    handleExpression_group_operand c0 t x htok hhead hx]
  exact ⟨⟨rfl, rfl, rfl⟩, ⟨rfl, rfl, rfl⟩⟩

/-- C10 at `(x = 5)` and `(5)` on the empty store, and at `(x = y)` and `(y)` after
`y = 7`. -/
theorem group_needs_operator_witness :
    (handleExpression (reset NewCalculator)
        ("(".toList ++ "x".toList ++ " = ".toList ++ "5".toList ++ ")".toList)).result
        = .error .invalidExpression
      ∧ (handleExpression (reset NewCalculator) ("(".toList ++ "5".toList ++ ")".toList)).result
        = .error .invalidExpression
      ∧ (handleExpression (reset (handleExpression (reset NewCalculator) "y = 7".toList).state)
          ("(".toList ++ "y".toList ++ ")".toList)).result = .error .invalidExpression :=
  ⟨(group_needs_operator NewCalculator "x".toList "5".toList (by decide) (Or.inl (by decide))).1.1,
    (group_needs_operator NewCalculator "x".toList "5".toList (by decide) (Or.inl (by decide))).2.1,
    (group_needs_operator (handleExpression (reset NewCalculator) "y = 7".toList).state
      "x".toList "y".toList (by decide) (Or.inr ⟨by decide, by decide⟩)).2.1⟩

/-! ## C11: empty groups -/

theorem trimSpace_of_all_space {s : Str} (h : ∀ ch ∈ s, isSpace ch = true) : trimSpace s = [] := by
  unfold trimSpace
  have : s.dropWhile isSpace = [] := List.dropWhile_eq_nil_iff.mpr h
  rw [this]
  rfl

theorem prepareExpression_of_all_space {s : Str} (h : ∀ ch ∈ s, isSpace ch = true) :
    prepareExpression s = [] := by
  unfold prepareExpression
  rw [trimSpace_of_all_space h]
  rfl

theorem getValue_nil (c : Calculator) : getValue c [] = .error .invalidIdentifier := by
  simp [getValue, isNumeric, isValidVariable]

theorem calculate_nil (c : Calculator) (sub : Bool) :
    calculate c [] sub = (.error .invalidIdentifier, c) := by
  unfold calculate
  rw [parseExpression_eq c [] [[]] (by decide) (by decide) (by decide)]
  simp [parseSplit, getValue_nil, Res.cast]

theorem handleExpression_empty_parens (c : Calculator) :
    handleExpression c "()".toList =
      { result := .error .invalidIdentifier, state := c, printed := [] } := by
  rw [handleExpression_of_no_group _ _ (by decide),
    evaluateFlat_eq _ _ '(' ")".toList (by decide) (by decide)]
  unfold calculate
  rw [parseExpression_eq _ _ ["()".toList] (by decide) (by decide) (by decide)]
  have h1 : isNumeric ['(', ')'] = false := by decide
  have h2 : isValidVariable ['(', ')'] = false := by decide
  simp [parseSplit, getValue, h1, h2, Res.cast]

theorem handleExpression_blank_group (c : Calculator) (body : Str) (hne : body ≠ [])
    (hb : ∀ ch ∈ body, isSpace ch = true) :
    handleExpression c ('(' :: body ++ [')']) =
      { result := .error .invalidIdentifier, state := c, printed := [] } := by
  have hnp : ∀ ch ∈ body, isNotParen ch = true := by
    intro ch hch
    have := hb ch hch
    have h1 : ch ≠ '(' := by rintro rfl; exact absurd this (by decide)
    have h2 : ch ≠ ')' := by rintro rfl; exact absurd this (by decide)
    simp [isNotParen, h1, h2]
  have e : '(' :: body ++ [')'] = [] ++ '(' :: body ++ ')' :: [] := by simp
  unfold handleExpression
  rw [e, resolveGroups_step _ c [] [] (by simp) hne hnp, prepareExpression_of_all_space hb,
    calculate_nil]
  rfl

/-- C11 fails as stated: on the empty store `()` and `( )` end with Invalid identifier,
not with Invalid expression. -/
theorem empty_group_is_invalid_identifier :
    (handleExpression (reset NewCalculator) "()".toList).result = .error .invalidIdentifier
      ∧ (handleExpression (reset NewCalculator) "( )".toList).result = .error .invalidIdentifier
      ∧ (handleExpression (reset NewCalculator) "()".toList).result ≠ .error .invalidExpression
      ∧ (handleExpression (reset NewCalculator) "( )".toList).result
          ≠ .error .invalidExpression := by
  decide

/-- C11 (as amended): for every calculator (every variable store and working set),
`handleExpression` on `()` and on a group that holds only white space, such as `( )`,
returns the error Invalid identifier, prints nothing and leaves the calculator as it
was: `()` is no group of the pattern and reaches `getValue` as the operand `()`, and the
body of a blank group is prepared to the empty text, which `getValue` rejects before
`calculate` checks for a lone operand. -/
theorem empty_group_rejected (c : Calculator) (body : Str) (hne : body ≠ [])
    (hb : ∀ ch ∈ body, isSpace ch = true) :
    handleExpression c "()".toList =
        { result := .error .invalidIdentifier, state := c, printed := [] }
      ∧ handleExpression c ('(' :: body ++ [')']) =
        { result := .error .invalidIdentifier, state := c, printed := [] } :=
  ⟨handleExpression_empty_parens c, handleExpression_blank_group c body hne hb⟩

/-- C11 (as amended) at `( )` and at a group of a blank and a tab, after `x = 1`. -/
theorem empty_group_rejected_witness :
    (handleExpression (reset NewCalculator) ('(' :: " ".toList ++ [')'])).result
        = .error .invalidIdentifier
      ∧ (handleExpression (handleExpression (reset NewCalculator) "x = 1".toList).state
          ('(' :: " \t".toList ++ [')'])).result = .error .invalidIdentifier :=
  ⟨by rw [(empty_group_rejected (reset NewCalculator) " ".toList (by decide) (by decide)).2],
    by rw [(empty_group_rejected _ " \t".toList (by decide) (by decide)).2]⟩

/-! ## C12: command lines -/

/-- A command line without a parenthesised group that is neither `/help` nor `/exit`
returns Unknown command and leaves the calculator as it was. -/
theorem handleExpression_command (c : Calculator) (s : Str) (hg : findGroup s = [])
    (h1 : (trimSpace s).head? = some '/') (h2 : trimSpace s ≠ "/help".toList)
    (h3 : trimSpace s ≠ "/exit".toList) :
    handleExpression c s = { result := .error .unknownCommand, state := c, printed := [] } := by
  have hp : prepareExpression s = trimSpace s := by
    unfold prepareExpression
    simp only [h1, if_true]
  rw [handleExpression_of_no_group _ _ hg]
  unfold evaluateFlat
  rw [hp]
  cases ht : trimSpace s with
  | nil => rw [ht] at h1; simp at h1
  | cons ch t =>
    rw [ht] at h1 h2 h3
    have hch : ch = '/' := by simpa using h1
    simp only [hch, if_true]
    rw [hch] at h2 h3
    unfold handleCommand
    rw [if_neg h2, if_neg h3]

theorem handleExpression_command_group (c0 : Calculator) :
    handleExpression (reset c0) "/(x)".toList =
      match c0.vars "x".toList with
      | none => { result := .error .unknownVariable, state := reset c0, printed := [] }
      | some v =>
        { result := .error .invalidExpression, printed := [],
          state := { reset c0 with operands := [v] } } := by
  have e : "/(x)".toList = ['/'] ++ '(' :: ['x'] ++ ')' :: [] := by decide
  have hp : prepareExpression ['x'] = ['x'] := by decide
  unfold handleExpression
  rw [e, resolveGroups_step _ _ ['/'] [] (by decide) (by decide) (by decide), hp]
  unfold calculate
  rw [parseExpression_eq _ _ [['x']] (by decide) (by decide) (by decide)]
  have hv : getValue (reset c0) ['x'] = match c0.vars ['x'] with
      | some n => .ok n
      | none => .error .unknownVariable := getValue_name _ (by decide)
  simp only [parseSplit, hv]
  cases hx : c0.vars ['x'] with
  | none => simp [Res.cast, hx]
  | some v => simp [Res.cast, hx, reset]

theorem handleExpression_command_division (c0 : Calculator) :
    (handleExpression (reset c0) "/(1 / 0)".toList).result = .panic .divideByZero := by
  have e : "/(1 / 0)".toList = ['/'] ++ '(' :: joinSp [['1'], ['/'], ['0']] ++ ')' :: [] := by
    decide
  have hp : prepareExpression (joinSp [['1'], ['/'], ['0']]) = joinSp [['1'], ['/'], ['0']] := by
    decide
  unfold handleExpression
  rw [e, resolveGroups_step _ _ ['/'] [] (by decide) (by decide) (by decide), hp,
    calculate_binary c0 ['1'] ['0'] '/' true (by decide) (by decide) (by simp)]
  have ha : applyOperator (firstByte '/') [atoi ['1'], atoi ['0']] 0 = .panic .divideByZero := by
    decide
  rw [ha]
  rfl

/-- C12 fails on the code: the loop over parenthesised groups runs before the command
check.  For every variable store, the command line `/(x)` (entered after `reset`) has
its group `x` parsed and evaluated: it returns Unknown variable when `x` is unassigned,
and otherwise Invalid expression with the value of `x` left in the operands; it never
returns Unknown command.  The command line `/(1 / 0)` ends in the run-time panic of the
division. -/
theorem command_line_group_is_evaluated (c0 : Calculator) :
    (handleExpression (reset c0) "/(x)".toList =
        match c0.vars "x".toList with
        | none => { result := .error .unknownVariable, state := reset c0, printed := [] }
        | some v =>
          { result := .error .invalidExpression, printed := [],
            state := { reset c0 with operands := [v] } })
      ∧ (handleExpression (reset c0) "/(x)".toList).result ≠ .error .unknownCommand
      ∧ (handleExpression (reset c0) "/(1 / 0)".toList).result = .panic .divideByZero := by
  refine ⟨handleExpression_command_group c0, ?_, handleExpression_command_division c0⟩
  rw [handleExpression_command_group c0]
  cases c0.vars "x".toList <;> simp

/-! ## C13: the two checks of `parseExpression` -/

theorem hasMulDivRun_iff : ∀ s : Str, hasMulDivRun s = true ↔ HasOperatorRun s
  | [] => by
    constructor
    · intro h; simp [hasMulDivRun] at h
    · rintro ⟨pre, a, b, post, h, _⟩
      cases pre <;> simp at h
  | [x] => by
    constructor
    · intro h; simp [hasMulDivRun] at h
    · rintro ⟨pre, a, b, post, h, _⟩
      cases pre with
      | nil => simp at h
      | cons y r => cases r <;> simp at h
  | x :: y :: t => by
    have ih := hasMulDivRun_iff (y :: t)
    simp only [hasMulDivRun, Bool.or_eq_true, Bool.and_eq_true, isMulDiv, decide_eq_true_eq]
    constructor
    · rintro (⟨hx, hy⟩ | h)
      · exact ⟨[], x, y, t, rfl, hx, hy⟩
      · obtain ⟨pre, a, b, post, he, ha, hb⟩ := ih.mp h
        exact ⟨x :: pre, a, b, post, by rw [he]; rfl, ha, hb⟩
    · rintro ⟨pre, a, b, post, he, ha, hb⟩
      cases pre with
      | nil =>
        simp only [List.nil_append, List.cons.injEq] at he
        obtain ⟨rfl, rfl, _⟩ := he
        exact Or.inl ⟨ha, hb⟩
      | cons z r =>
        simp only [List.cons_append, List.cons.injEq] at he
        exact Or.inr (ih.mpr ⟨r, a, b, post, he.2, ha, hb⟩)

/-- C13: for every calculator and every expression text that holds two or more
consecutive characters out of `*` and `/`, or in which the number of `(` differs from the
number of `)`, `parseExpression` returns Invalid expression and leaves the calculator
(operands, operators, variable name and variable map) exactly as it was: no operand has
been classified. -/
theorem tokenizer_validation (c : Calculator) (s : Str)
    (h : HasOperatorRun s ∨ s.count '(' ≠ s.count ')') :
    parseExpression c s = (.error .invalidExpression, c) := by
  unfold parseExpression
  by_cases h1 : hasMulDivRun s = true
  · rw [if_pos h1]
  · rw [if_neg h1]
    rcases h with h | h
    · exact absurd ((hasMulDivRun_iff s).mpr h) h1
    · rw [if_pos h]

/-- C13 at the spec's inputs `2 ** 3` and `(1 + 2`, on a calculator that holds a
variable and a working set. -/
theorem tokenizer_validation_witness :
    parseExpression (handleExpression (reset NewCalculator) "x = 1".toList).state "2 ** 3".toList
        = (.error .invalidExpression, (handleExpression (reset NewCalculator) "x = 1".toList).state)
      ∧ parseExpression NewCalculator "(1 + 2".toList = (.error .invalidExpression, NewCalculator) :=
  ⟨tokenizer_validation _ "2 ** 3".toList
      (Or.inl ⟨"2 ".toList, '*', '*', " 3".toList, by decide, Or.inl rfl, Or.inl rfl⟩),
    tokenizer_validation _ "(1 + 2".toList (Or.inr (by decide))⟩

/-! ## C16: the working set after a call -/

theorem workingSetEmpty_reset (c : Calculator) : WorkingSetEmpty (reset c) := ⟨rfl, rfl, rfl⟩

theorem reduce_ok_cleared (c : Calculator) (r : Int × Bool) (h : (reduce c).1 = .ok r) :
    WorkingSetEmpty (reduce c).2 := by
  unfold reduce at h ⊢
  cases hr : reduceTiers priotiritisedOperators c.operands c.operators with
  | ok p =>
    obtain ⟨operands, operators⟩ := p
    rw [hr] at h
    cases operands with
    | nil => simp at h
    | cons x t => exact workingSetEmpty_reset _
  | error e => rw [hr] at h; simp [Res.cast] at h
  | panic p => rw [hr] at h; simp [Res.cast] at h
  | exit => rw [hr] at h; simp [Res.cast] at h
  | outOfFuel => rw [hr] at h; simp [Res.cast] at h

/-- A call of `calculate` that returns without error leaves the working set empty. -/
theorem calculate_ok_cleared (c : Calculator) (expression : Str) (sub : Bool) (r : Int × Bool)
    (h : (calculate c expression sub).1 = .ok r) :
    WorkingSetEmpty (calculate c expression sub).2 := by
  unfold calculate at h ⊢
  cases hp : parseExpression c expression with
  | mk res c1 =>
    rw [hp] at h
    cases res with
    | ok u =>
      dsimp only at h ⊢
      cases hops : c1.operators with
      | nil =>
        rw [hops] at h
        dsimp only at h ⊢
        cases sub with
        | true => simp at h
        | false =>
          simp only [Bool.false_eq_true, if_false] at h ⊢
          cases hopd : c1.operands with
          | nil => rw [hopd] at h; simp at h
          | cons x t => exact workingSetEmpty_reset _
      | cons op0 rest =>
        rw [hops] at h
        dsimp only at h ⊢
        by_cases h61 : op0 = 61
        · rw [if_pos h61] at h ⊢
          cases sub with
          | true => simp at h
          | false =>
            simp only [Bool.false_eq_true, if_false] at h ⊢
            cases hopd : c1.operands with
            | nil => rw [hopd] at h; simp at h
            | cons x t => exact workingSetEmpty_reset _
        · rw [if_neg h61] at h ⊢
          exact reduce_ok_cleared c1 r h
    | error e => simp [Res.cast] at h
    | panic p => simp [Res.cast] at h
    | exit => simp [Res.cast] at h
    | outOfFuel => simp [Res.cast] at h

/-- When the first loop of `handleExpression` ends without error, the working set is as
empty as it was on entry. -/
theorem resolveGroups_ok_cleared : ∀ (k : Nat) (c : Calculator) (expression flat : Str),
    WorkingSetEmpty c → (resolveGroups k c expression).1 = .ok flat →
    WorkingSetEmpty (resolveGroups k c expression).2
  | 0, _, _, _, _, h => by simp [resolveGroups] at h
  | k + 1, c, expression, flat, hc, h => by
    rw [resolveGroups] at h ⊢
    dsimp only at h ⊢
    by_cases hg : findGroup expression = []
    · rw [if_pos hg]
      exact hc
    · rw [if_neg hg] at h ⊢
      have hcl := calculate_ok_cleared c
        (prepareExpression (replaceFirst (replaceFirst (findGroup expression) ['('] []) [')'] []))
        true
      cases hcalc : calculate c
        (prepareExpression (replaceFirst (replaceFirst (findGroup expression) ['('] []) [')'] []))
        true with
      | mk res c1 =>
        rw [hcalc] at h hcl
        cases res with
        | ok p =>
          obtain ⟨n, pr⟩ := p
          dsimp only at h ⊢
          exact resolveGroups_ok_cleared k c1 _ flat (hcl (n, pr) rfl) h
        | error e => simp [Res.cast] at h
        | panic p => simp [Res.cast] at h
        | exit => simp [Res.cast] at h
        | outOfFuel => simp [Res.cast] at h

theorem evaluateFlat_ok_cleared (c : Calculator) (flat : Str) (hc : WorkingSetEmpty c)
    (h : (evaluateFlat c flat).result = .ok ()) : WorkingSetEmpty (evaluateFlat c flat).state := by
  unfold evaluateFlat at h ⊢
  dsimp only at h ⊢
  cases hp : prepareExpression flat with
  | nil => exact hc
  | cons ch t =>
    rw [hp] at h
    dsimp only at h ⊢
    by_cases hch : ch = '/'
    · rw [if_pos hch, handleCommand_state]
      exact hc
    · rw [if_neg hch] at h ⊢
      have hcl := calculate_ok_cleared c (ch :: t) false
      cases hcalc : calculate c (ch :: t) false with
      | mk res c2 =>
        rw [hcalc] at h hcl
        cases res with
        | ok p =>
          obtain ⟨n, pr⟩ := p
          exact hcl (n, pr) rfl
        | error e => simp [Res.cast] at h
        | panic p => simp [Res.cast] at h
        | exit => simp [Res.cast] at h
        | outOfFuel => simp [Res.cast] at h

theorem handleExpression_ok_cleared (c : Calculator) (line : Str) (hc : WorkingSetEmpty c)
    (h : (handleExpression c line).result = .ok ()) :
    WorkingSetEmpty (handleExpression c line).state := by
  unfold handleExpression at h ⊢
  have hcl := resolveGroups_ok_cleared (line.count '(' + 1) c line
  cases hr : resolveGroups (line.count '(' + 1) c line with
  | mk res c1 =>
    rw [hr] at h hcl
    cases res with
    | ok flat =>
      dsimp only at h ⊢
      exact evaluateFlat_ok_cleared c1 flat (hcl flat hc rfl) h
    | error e => simp [Res.cast] at h
    | panic p => simp [Res.cast] at h
    | exit => simp [Res.cast] at h
    | outOfFuel => simp [Res.cast] at h

/-- C16 fails as stated: on `1 + z` with `z` unassigned `handleExpression` returns
Unknown variable and leaves the operand 1 and the operator `+` in the working set. -/
theorem working_set_kept_on_error :
    (handleExpression (reset NewCalculator) "1 + z".toList).result = .error .unknownVariable
      ∧ (handleExpression (reset NewCalculator) "1 + z".toList).state.operands = [1]
      ∧ (handleExpression (reset NewCalculator) "1 + z".toList).state.operators = [43]
      ∧ ¬ WorkingSetEmpty (handleExpression (reset NewCalculator) "1 + z".toList).state := by
  decide

/-- C16 (as amended): for every input line and every variable store, when
`handleExpression`, entered after `reset`, returns without error (a printed value, an
assignment, the help command or a blank line), operands and operators are empty and
`varName` is the empty string; and whatever it returns, the `reset` that `main` runs
before the next input leaves them empty. -/
theorem working_set_cleared_on_success (c0 : Calculator) (line : Str)
    (h : (handleExpression (reset c0) line).result = .ok ()) :
    WorkingSetEmpty (handleExpression (reset c0) line).state
      ∧ WorkingSetEmpty (reset (handleExpression (reset c0) line).state) :=
  ⟨handleExpression_ok_cleared _ line (workingSetEmpty_reset c0) h, workingSetEmpty_reset _⟩

/-- C16 (as amended) at `(1 + 2) * 3`, which prints 9, and at the assignment `x = 5`. -/
theorem working_set_cleared_on_success_witness :
    WorkingSetEmpty (handleExpression (reset NewCalculator) "(1 + 2) * 3".toList).state
      ∧ WorkingSetEmpty (handleExpression (reset NewCalculator) "x = 5".toList).state :=
  ⟨(working_set_cleared_on_success NewCalculator "(1 + 2) * 3".toList (by decide)).1,
    (working_set_cleared_on_success NewCalculator "x = 5".toList (by decide)).1⟩

/-! ## C17: what `parseExpression` hands to the reduction -/

theorem getValue_two (c : Calculator) : getValue c ['2'] = .ok 2 := by
  rw [getValue_numeric c (by decide)]; decide

theorem getValue_three (c : Calculator) : getValue c ['3'] = .ok 3 := by
  rw [getValue_numeric c (by decide)]; decide

theorem parseExpression_dangling (c0 : Calculator) :
    parseExpression (reset c0) "2 +".toList
      = (.ok (), { reset c0 with operands := [2], operators := [43] }) := by
  rw [parseExpression_eq _ _ ["2".toList, "+".toList] (by decide) (by decide) (by decide)]
  have hne : '=' ∉ "2 +".toList := by decide
  have e1 : firstByte '+' = 43 := by decide
  simp [parseSplit, hne, parseParts, parsePart, getValue_two, e1, reset]

theorem parseExpression_two_operands (c0 : Calculator) :
    parseExpression (reset c0) "2 3".toList
      = (.ok (), { reset c0 with operands := [2], operators := [51] }) := by
  rw [parseExpression_eq _ _ ["2".toList, "3".toList] (by decide) (by decide) (by decide)]
  have hne : '=' ∉ "2 3".toList := by decide
  have e1 : firstByte '3' = 51 := by decide
  simp [parseSplit, hne, parseParts, parsePart, getValue_two, e1, reset]

theorem parseExpression_name_as_operator (c0 : Calculator) :
    parseExpression (reset c0) "2 x 3".toList
      = (.ok (), { reset c0 with operands := [2, 3], operators := [120] }) := by
  rw [parseExpression_eq _ _ ["2".toList, "x".toList, "3".toList] (by decide) (by decide)
    (by decide)]
  have hne : '=' ∉ "2 x 3".toList := by decide
  have e1 : firstByte 'x' = 120 := by decide
  simp [parseSplit, hne, parseParts, parsePart, getValue_two, getValue_three, e1, reset]

theorem handleExpression_two_operands (c0 : Calculator) :
    (handleExpression (reset c0) "2 3".toList).Prints 2 := by
  rw [handleExpression_of_no_group _ _ (by decide),
    evaluateFlat_eq _ _ '2' " 3".toList (by decide) (by decide)]
  unfold calculate
  have e : '2' :: " 3".toList = "2 3".toList := rfl
  rw [e, parseExpression_two_operands]
  simp [reduce, reduceTiers, reduceTier, findAny, priotiritisedOperators, Outcome.Prints]

theorem handleExpression_name_as_operator (c0 : Calculator) :
    (handleExpression (reset c0) "2 x 3".toList).Prints 2 := by
  rw [handleExpression_of_no_group _ _ (by decide),
    evaluateFlat_eq _ _ '2' " x 3".toList (by decide) (by decide)]
  unfold calculate
  have e : '2' :: " x 3".toList = "2 x 3".toList := rfl
  rw [e, parseExpression_name_as_operator]
  simp [reduce, reduceTiers, reduceTier, findAny, priotiritisedOperators, Outcome.Prints]

/-- C17 fails on the code: the arithmetic branch of `parseExpression` checks neither the
number of parts nor the operator parts.  For every variable store, started from the empty
working set, it succeeds on the normalized texts `2 +` (one operand, one operator),
`2 3` (the operator list holds the byte of `3`) and `2 x 3` (the operator list holds the
byte of `x`); `calculate` then finds no operator it knows and `handleExpression` prints 2
for `2 3` and for `2 x 3`. -/
theorem tokenizer_accepts_malformed (c0 : Calculator) :
    (prepareExpression "2 +".toList = "2 +".toList
      ∧ parseExpression (reset c0) "2 +".toList
        = (.ok (), { reset c0 with operands := [2], operators := [43] }))
    ∧ (prepareExpression "2 3".toList = "2 3".toList
      ∧ parseExpression (reset c0) "2 3".toList
        = (.ok (), { reset c0 with operands := [2], operators := [51] })
      ∧ (handleExpression (reset c0) "2 3".toList).Prints 2)
    ∧ (prepareExpression "2 x 3".toList = "2 x 3".toList
      ∧ parseExpression (reset c0) "2 x 3".toList
        = (.ok (), { reset c0 with operands := [2, 3], operators := [120] })
      ∧ (handleExpression (reset c0) "2 x 3".toList).Prints 2) :=
  ⟨⟨by decide, parseExpression_dangling c0⟩,
    ⟨by decide, parseExpression_two_operands c0, handleExpression_two_operands c0⟩,
    ⟨by decide, parseExpression_name_as_operator c0, handleExpression_name_as_operator c0⟩⟩

/-! ## C18: a run of minus signs between two operands -/

/-- An operand with a value is a literal or an assigned name. -/
theorem operand_of_value {c : Calculator} {t : Str} {x : Int} (h : getValue c t = .ok x) :
    isNumeric t = true ∨ isValidVariable t = true := by
  rcases getValue_cases c t with ⟨h1, _⟩ | ⟨_, _, h3⟩ | ⟨_, h2, _⟩ | ⟨_, _, _, h4⟩
  · exact Or.inl h1
  · rw [h3] at h; cases h
  · exact Or.inr h2
  · rw [h4] at h; cases h

theorem tok_of_value {c : Calculator} {t : Str} {x : Int} (h : getValue c t = .ok x) : Tok t :=
  (operand_of_value h).elim tok_numeric tok_name

theorem noEq_of_value {c : Calculator} {t : Str} {x : Int} (h : getValue c t = .ok x) :
    '=' ∉ t :=
  (operand_of_value h).elim numeric_noEq name_noEq

theorem getValue_vars (c c1 : Calculator) (t : Str) (h : c1.vars = c.vars) :
    getValue c1 t = getValue c t := by
  unfold getValue
  rw [h]

theorem lex_minus_run (k : Nat) : Lex (List.replicate (k + 1) '-') where
  ne := by simp [List.replicate]
  loose := by
    induction k with
    | zero => exact List.chain'_singleton _
    | succ k ih => exact List.chain'_cons.mpr ⟨by decide, ih⟩
  noSpace := fun ch hch => by
    rw [List.eq_of_mem_replicate hch]
    exact ⟨by decide, by decide⟩
  noParen := fun ch hch => by
    rw [List.eq_of_mem_replicate hch]
    exact ⟨by decide, by decide⟩

theorem byteLen_minus_run (k : Nat) : byteLen (List.replicate k '-') = k := by
  induction k with
  | zero => rfl
  | succ k ih =>
    have e : byteLen ('-' :: List.replicate k '-') = 1 + byteLen (List.replicate k '-') := by
      simp [byteLen]
      rfl
    rw [List.replicate_succ, e, ih]
    omega

/-- A run of minus signs that a blank follows is not matched by the minus-run pattern,
at none of its positions. -/
theorem matchMinusRun_none_of_blank (rest : Str) (x : Char) (t : Str)
    (h : (∀ ch ∈ x :: t, isOperandChar ch = false) ∧ ∀ y ∈ (x :: t).getLast?, y ≠ '-') :
    matchMinusRun (x :: (t ++ rest)) = none := by
  have key : ∀ (s : Str), (∀ ch ∈ s, isOperandChar ch = false) → (∀ y ∈ s.getLast?, y ≠ '-') →
      s ≠ [] →
      (((s ++ rest).dropWhile (fun ch => decide (ch = '-'))).takeWhile isOperandChar).length = 0 := by
    intro s
    induction s with
    | nil => intro _ _ hne; exact absurd rfl hne
    | cons a r ih =>
      intro h1 h2 _
      by_cases ha : a = '-'
      · have hr : r ≠ [] := by
          rintro rfl
          exact h2 a (by simp) ha
        have h2' : ∀ y ∈ r.getLast?, y ≠ '-' := by
          intro y hy
          apply h2
          obtain ⟨b, r', rfl⟩ := List.exists_cons_of_ne_nil hr
          rw [List.getLast?_cons_cons]
          exact hy
        simp only [List.cons_append, List.dropWhile, ha, decide_True]
        exact ih (fun ch hch => h1 ch (List.mem_cons_of_mem _ hch)) h2' hr
      · have hop := h1 a (by simp)
        simp [List.dropWhile, ha, List.takeWhile, hop]
  have := key (x :: t) h.1 h.2 (by simp)
  unfold matchMinusRun matchRunRun
  simp only
  rw [if_neg]
  rw [List.cons_append] at this
  omega

/-- The text `a -…- b` with a run of minus signs between single blanks is left alone by
the minus-run pattern. -/
theorem replaceMinusRun_spaced (a b : Str) (k : Nat) (ha : Tok a) (hb : Tok b) :
    replaceAllWith matchMinusRun 0 (joinSp [a, List.replicate (k + 1) '-', b])
      = joinSp [a, List.replicate (k + 1) '-', b] := by
  have hpre : NoMinusPair (a ++ [' ']) := by
    constructor
    · refine List.chain'_append.mpr ⟨?_, by simp, ?_⟩
      · exact List.Chain'.imp (fun {x y} hxy hm => ((okPair_iff x y).mp hxy).2 hm) ha.clean
      · intro x _ y hy hxy
        simp only [List.head?_cons, Option.mem_def, Option.some.injEq] at hy
        rw [← hy] at hxy
        exact absurd hxy.2 (by decide)
    · intro x hx
      rw [List.getLast?_append_of_ne_nil _ (by simp)] at hx
      simp at hx
      rw [← hx]
      decide
  have hrun : (∀ ch ∈ List.replicate (k + 1) '-' ++ [' '], isOperandChar ch = false)
      ∧ ∀ y ∈ (List.replicate (k + 1) '-' ++ [' ']).getLast?, y ≠ '-' := by
    constructor
    · intro ch hch
      rcases List.mem_append.mp hch with h | h
      · rw [List.eq_of_mem_replicate h]; decide
      · rw [List.mem_singleton.mp h]; decide
    · intro y hy
      rw [List.getLast?_append_of_ne_nil _ (by simp)] at hy
      simp at hy
      rw [← hy]
      decide
  have e : joinSp [a, List.replicate (k + 1) '-', b]
      = (a ++ [' ']) ++ ((List.replicate (k + 1) '-' ++ [' ']) ++ b) := by
    simp [joinSp]
  rw [e, replaceAllWith_copy matchMinusRun _ NoMinusPair (fun _ _ h => h.dropFirst)
    (fun x t h => matchMinusRun_none_of_noMinusPair _ x t h) _ hpre,
    replaceAllWith_copy matchMinusRun b
      (fun s => (∀ ch ∈ s, isOperandChar ch = false) ∧ ∀ y ∈ s.getLast?, y ≠ '-')
      (fun x t h => ⟨fun ch hch => h.1 ch (List.mem_cons_of_mem _ hch), fun y hy => by
        cases t with
        | nil => simp at hy
        | cons z r => exact h.2 y (by rw [List.getLast?_cons_cons]; exact hy)⟩)
      (fun x t h => matchMinusRun_none_of_blank b x t h) _ hrun,
    replaceAllWith_of_chain _ _ (fun _ ht => matchMinusRun_of_clean ht) b hb.clean]

theorem prepareExpression_spaced (a b : Str) (k : Nat) (ha : Tok a) (hb : Tok b)
    (hcmd : ∀ x ∈ a.head?, x ≠ '/') :
    prepareExpression (joinSp [a, List.replicate (k + 1) '-', b])
      = joinSp [a, List.replicate (k + 1) '-', b] := by
  have hl := lex_list3 ha.lex (lex_minus_run k) hb.lex
  apply prepareExpression_of_loose (loose_joinSp _ hl) (replaceMinusRun_spaced a b k ha hb)
  · intro x hx
    rw [head?_joinSp a _ ha.ne] at hx
    exact ⟨(ha.noSpace x (List.mem_of_mem_head? hx)).1, hcmd x hx⟩
  · exact getLast?_joinSp _ hl

/-- The text `a -…- b` evaluates to the difference of the two values for a run of odd
length and to their sum for a run of even length. -/
theorem handleExpression_minus_run (c0 : Calculator) (a b : Str) (x y : Int) (k : Nat)
    (ha : getValue (reset c0) a = .ok x) (hb : getValue (reset c0) b = .ok y) :
    handleExpression (reset c0) (joinSp [a, List.replicate (k + 1) '-', b]) =
      { result := .ok (), state := reset c0,
        printed := [.int (if (k + 1) % 2 = 0 then goAdd x y else goSub x y)] } := by
  have hta := tok_of_value ha
  have htb := tok_of_value hb
  have hcmd : ∀ ch ∈ a.head?, ch ≠ '/' := (operand_of_value ha).elim numeric_head name_head
  have hl := lex_list3 hta.lex (lex_minus_run k) htb.lex
  have hopen : '(' ∉ joinSp [a, List.replicate (k + 1) '-', b] :=
    not_mem_joinSp (by decide) (fun t ht hm => ((hl t ht).noParen _ hm).1 rfl)
  have hne : '=' ∉ joinSp [a, List.replicate (k + 1) '-', b] := by
    apply not_mem_joinSp (by decide)
    intro t ht
    simp only [List.mem_cons, List.mem_singleton, List.not_mem_nil, or_false] at ht
    rcases ht with rfl | rfl | rfl
    · exact noEq_of_value ha
    · intro hm
      exact absurd (List.eq_of_mem_replicate hm) (by decide)
    · exact noEq_of_value hb
  have e2 : firstByte '-' = 45 := by decide
  have hlen : byteLen ('-' :: List.replicate k '-') = k + 1 := byteLen_minus_run (k + 1)
  have ha' := ha
  have hb' : ∀ ops : List Nat,
      getValue { reset c0 with operands := [x], operators := ops } b = .ok y := fun ops =>
    (getValue_vars (reset c0) _ b rfl).trans hb
  simp only [reset] at ha' hb'
  rw [handleExpression_of_no_group _ _ (findGroup_of_no_open _ hopen),
    evaluateFlat_of_prepared _ _ a _ (prepareExpression_spaced a b k hta htb hcmd) hta.ne hcmd]
  unfold calculate
  rw [parseExpression_joinSp_lex _ _ (by simp) hl]
  simp only [List.replicate_succ] at hne
  simp only [parseSplit, hne, if_false, List.replicate_succ]
  by_cases hpar : (k + 1) % 2 = 0
  · simp [parseParts, parsePart, reset, ha', hb', e2, hlen, hpar, reduce, reduceTiers, reduceTier,
      findAny, applyOperator, priotiritisedOperators, removeByIndexByte, removeByIndexInt]
  · simp [parseParts, parsePart, reset, ha', hb', e2, hlen, hpar, reduce, reduceTiers, reduceTier,
      findAny, applyOperator, priotiritisedOperators, removeByIndexByte, removeByIndexInt]

/-- C18: for operand tokens `a` and `b` with values `x` and `y` (integer literals or
assigned variables), every variable store and every `k ≥ 1`, `handleExpression` (entered
after `reset`) on `a`, a run of `k` minus signs and `b`, separated by single blanks,
prints `x - y` for odd `k` and `x + y` for even `k`, in Go's 64-bit `int` (the exact
difference or sum whenever it fits), and leaves the calculator as `reset` made it.  The
text passes `prepareExpression` unchanged; the parity is decided in `parseExpression`,
which stores `+` for a run of even length and `-` otherwise. -/
theorem minus_run_parity (c0 : Calculator) (a b : Str) (x y : Int) (k : Nat) (hk : 1 ≤ k)
    (ha : getValue (reset c0) a = .ok x) (hb : getValue (reset c0) b = .ok y) :
    handleExpression (reset c0) (a ++ ' ' :: List.replicate k '-' ++ ' ' :: b) =
        { result := .ok (), state := reset c0,
          printed := [.int (if k % 2 = 0 then goAdd x y else goSub x y)] }
      ∧ (k % 2 = 1 → InRange (x - y) →
          (handleExpression (reset c0) (a ++ ' ' :: List.replicate k '-' ++ ' ' :: b)).Prints
            (x - y))
      ∧ (k % 2 = 0 → InRange (x + y) →
          (handleExpression (reset c0) (a ++ ' ' :: List.replicate k '-' ++ ' ' :: b)).Prints
            (x + y))
      ∧ prepareExpression (a ++ ' ' :: List.replicate k '-' ++ ' ' :: b)
          = a ++ ' ' :: List.replicate k '-' ++ ' ' :: b
      ∧ (parseExpression (reset c0) (a ++ ' ' :: List.replicate k '-' ++ ' ' :: b)).2.operators
          = [if k % 2 = 0 then 43 else 45] := by
  obtain ⟨k, rfl⟩ : ∃ k', k = k' + 1 := ⟨k - 1, by omega⟩
  have hta := tok_of_value ha
  have htb := tok_of_value hb
  have hcmd : ∀ ch ∈ a.head?, ch ≠ '/' := (operand_of_value ha).elim numeric_head name_head
  have e : a ++ ' ' :: List.replicate (k + 1) '-' ++ ' ' :: b
      = joinSp [a, List.replicate (k + 1) '-', b] := by simp [joinSp]
  have h1 := handleExpression_minus_run c0 a b x y k ha hb
  rw [e]
  refine ⟨h1, ?_, ?_, prepareExpression_spaced a b k hta htb hcmd, ?_⟩
  · intro hodd hr
    have hpar : ¬ (k + 1) % 2 = 0 := by omega
    rw [h1, if_neg hpar, goSub, wrap_of_inRange hr]
    exact ⟨rfl, rfl⟩
  · intro heven hr
    rw [h1, if_pos heven, goAdd, wrap_of_inRange hr]
    exact ⟨rfl, rfl⟩
  · have hl := lex_list3 hta.lex (lex_minus_run k) htb.lex
    have hne : '=' ∉ joinSp [a, List.replicate (k + 1) '-', b] := by
      apply not_mem_joinSp (by decide)
      intro t ht
      simp only [List.mem_cons, List.mem_singleton, List.not_mem_nil, or_false] at ht
      rcases ht with rfl | rfl | rfl
      · exact noEq_of_value ha
      · intro hm
        exact absurd (List.eq_of_mem_replicate hm) (by decide)
      · exact noEq_of_value hb
    have e2 : firstByte '-' = 45 := by decide
    have hlen : byteLen ('-' :: List.replicate k '-') = k + 1 := byteLen_minus_run (k + 1)
    have ha' := ha
    have hb' : ∀ ops : List Nat,
        getValue { reset c0 with operands := [x], operators := ops } b = .ok y := fun ops =>
      (getValue_vars (reset c0) _ b rfl).trans hb
    simp only [reset] at ha' hb'
    rw [parseExpression_joinSp_lex _ _ (by simp) hl]
    simp only [List.replicate_succ] at hne
    simp only [parseSplit, hne, if_false, List.replicate_succ]
    by_cases hpar : (k + 1) % 2 = 0
    · simp [parseParts, parsePart, reset, ha', hb', e2, hlen, hpar]
    · simp [parseParts, parsePart, reset, ha', hb', e2, hlen, hpar]

/-- C18 at the spec's examples `5 -- 3` and `5 --- 3`, and at `x -- y` after `x = 7`
and `y = 2`. -/
theorem minus_run_parity_witness :
    (handleExpression (reset NewCalculator)
        ("5".toList ++ ' ' :: List.replicate 2 '-' ++ ' ' :: "3".toList)).Prints 8
      ∧ (handleExpression (reset NewCalculator)
        ("5".toList ++ ' ' :: List.replicate 3 '-' ++ ' ' :: "3".toList)).Prints 2
      ∧ (handleExpression
          (reset (handleExpression (reset (handleExpression (reset NewCalculator)
            "x = 7".toList).state) "y = 2".toList).state)
          ("x".toList ++ ' ' :: List.replicate 2 '-' ++ ' ' :: "y".toList)).Prints 9 :=
  ⟨(minus_run_parity NewCalculator "5".toList "3".toList 5 3 2 (by decide) (by decide)
      (by decide)).2.2.1 (by decide) (by decide),
    (minus_run_parity NewCalculator "5".toList "3".toList 5 3 3 (by decide) (by decide)
      (by decide)).2.1 (by decide) (by decide),
    (minus_run_parity
      (handleExpression (reset (handleExpression (reset NewCalculator) "x = 7".toList).state)
        "y = 2".toList).state
      "x".toList "y".toList 7 2 2 (by decide) (by decide) (by decide)).2.2.1 (by decide)
      (by decide)⟩

/-! ## C19: the working set at the calls of `calculate` -/

/-- The record of calls added to the first loop of `handleExpression` does not change
what the loop returns. -/
theorem resolveGroupsTraced_fst : ∀ (k : Nat) (c : Calculator) (expression : Str),
    (resolveGroupsTraced k c expression).1 = resolveGroups k c expression
  | 0, _, _ => rfl
  | k + 1, c, expression => by
    rw [resolveGroupsTraced, resolveGroups]
    dsimp only
    by_cases hg : findGroup expression = []
    · rw [if_pos hg, if_pos hg]
    · rw [if_neg hg, if_neg hg]
      cases hcalc : calculate c
        (prepareExpression (replaceFirst (replaceFirst (findGroup expression) ['('] []) [')'] []))
        true with
      | mk res c1 =>
        cases res with
        | ok p =>
          obtain ⟨n, pr⟩ := p
          exact resolveGroupsTraced_fst k c1 _
        | error e => rfl
        | panic p => rfl
        | exit => rfl
        | outOfFuel => rfl

theorem evaluateFlatTraced_fst (c1 : Calculator) (flat : Str) :
    (evaluateFlatTraced c1 flat).1 = evaluateFlat c1 flat := by
  unfold evaluateFlatTraced evaluateFlat
  dsimp only
  cases hp : prepareExpression flat with
  | nil => rfl
  | cons ch t =>
    dsimp only
    by_cases hch : ch = '/'
    · rw [if_pos hch, if_pos hch]
    · rw [if_neg hch, if_neg hch]
      cases hcalc : calculate c1 (ch :: t) false with
      | mk res c2 =>
        cases res with
        | ok p => rfl
        | error e => rfl
        | panic p => rfl
        | exit => rfl
        | outOfFuel => rfl

/-- The record of calls added to `handleExpression` does not change what it returns. -/
theorem handleExpressionTraced_fst (c : Calculator) (expression : Str) :
    (handleExpressionTraced c expression).1 = handleExpression c expression := by
  unfold handleExpressionTraced handleExpression
  have h := resolveGroupsTraced_fst (expression.count '(' + 1) c expression
  cases hr : resolveGroupsTraced (expression.count '(' + 1) c expression with
  | mk p calls =>
    rw [hr] at h
    dsimp only at h
    rw [← h]
    obtain ⟨res, c1⟩ := p
    cases res with
    | ok flat => exact evaluateFlatTraced_fst c1 flat
    | error e => rfl
    | panic p => rfl
    | exit => rfl
    | outOfFuel => rfl

/-- The record of calls added to a round of `main` does not change its outcome. -/
theorem mainStepTraced_fst (c : Calculator) (line : Str) :
    (mainStepTraced c line).1 = mainStep c line := by
  unfold mainStepTraced mainStep
  cases hp : prepareExpression line with
  | nil => rfl
  | cons ch t =>
    dsimp only
    have h := handleExpressionTraced_fst (reset c) (ch :: t)
    revert h
    generalize (handleExpressionTraced (reset c) (ch :: t)).1 = o
    intro h
    subst h
    cases (handleExpression (reset c) (ch :: t)).result <;> rfl

/-- The record of calls added to the loop of `main` does not change the outcomes of
its rounds. -/
theorem runSessionTraced_fst : ∀ (lines : List Str) (c : Calculator),
    (runSessionTraced c lines).map Prod.fst = runSession c lines
  | [], _ => rfl
  | line :: rest, c => by
    rw [runSessionTraced, runSession, List.map_cons, mainStepTraced_fst]
    congr 1
    cases hr : (mainStep c line).result with
    | ok u => exact runSessionTraced_fst rest _
    | error e => exact runSessionTraced_fst rest _
    | panic p => rfl
    | exit => rfl
    | outOfFuel => rfl

theorem resolveGroupsTraced_cleared : ∀ (k : Nat) (c : Calculator) (expression : Str),
    WorkingSetEmpty c → ∀ s ∈ (resolveGroupsTraced k c expression).2, WorkingSetEmpty s
  | 0, _, _, _, s, hs => by simp [resolveGroupsTraced] at hs
  | k + 1, c, expression, hc, s, hs => by
    rw [resolveGroupsTraced] at hs
    dsimp only at hs
    by_cases hg : findGroup expression = []
    · rw [if_pos hg] at hs
      simp at hs
    · rw [if_neg hg] at hs
      have hcl := calculate_ok_cleared c
        (prepareExpression (replaceFirst (replaceFirst (findGroup expression) ['('] []) [')'] []))
        true
      cases hcalc : calculate c
        (prepareExpression (replaceFirst (replaceFirst (findGroup expression) ['('] []) [')'] []))
        true with
      | mk res c1 =>
        rw [hcalc] at hs hcl
        cases res with
        | ok p =>
          obtain ⟨n, pr⟩ := p
          dsimp only at hs
          rcases List.mem_cons.mp hs with rfl | hs
          · exact hc
          · exact resolveGroupsTraced_cleared k c1 _ (hcl (n, pr) rfl) s hs
        | error e =>
          dsimp only at hs
          rw [List.mem_singleton.mp hs]
          exact hc
        | panic p =>
          dsimp only at hs
          rw [List.mem_singleton.mp hs]
          exact hc
        | exit =>
          dsimp only at hs
          rw [List.mem_singleton.mp hs]
          exact hc
        | outOfFuel =>
          dsimp only at hs
          rw [List.mem_singleton.mp hs]
          exact hc

theorem evaluateFlatTraced_cleared (c1 : Calculator) (flat : Str) (hc : WorkingSetEmpty c1) :
    ∀ s ∈ (evaluateFlatTraced c1 flat).2, WorkingSetEmpty s := by
  intro s hs
  unfold evaluateFlatTraced at hs
  dsimp only at hs
  cases hp : prepareExpression flat with
  | nil => rw [hp] at hs; simp at hs
  | cons ch t =>
    rw [hp] at hs
    dsimp only at hs
    by_cases hch : ch = '/'
    · rw [if_pos hch] at hs
      simp at hs
    · rw [if_neg hch] at hs
      cases hcalc : calculate c1 (ch :: t) false with
      | mk res c2 =>
        rw [hcalc] at hs
        cases res <;>
          · dsimp only at hs
            rw [List.mem_singleton.mp hs]
            exact hc

/-- A call of `handleExpression` entered with an empty working set hands an empty
working set to every call of `calculate` it makes. -/
theorem handleExpressionTraced_cleared (c : Calculator) (expression : Str)
    (hc : WorkingSetEmpty c) :
    ∀ s ∈ (handleExpressionTraced c expression).2, WorkingSetEmpty s := by
  intro s hs
  unfold handleExpressionTraced at hs
  have hfst := resolveGroupsTraced_fst (expression.count '(' + 1) c expression
  have hcalls := resolveGroupsTraced_cleared (expression.count '(' + 1) c expression hc
  have hcl := resolveGroups_ok_cleared (expression.count '(' + 1) c expression
  cases hr : resolveGroupsTraced (expression.count '(' + 1) c expression with
  | mk p calls =>
    rw [hr] at hs hfst hcalls
    dsimp only at hfst hcalls
    rw [← hfst] at hcl
    obtain ⟨res, c1⟩ := p
    cases res with
    | ok flat =>
      dsimp only at hs
      rcases List.mem_append.mp hs with hs | hs
      · exact hcalls s hs
      · exact evaluateFlatTraced_cleared c1 flat (hcl flat hc rfl) s hs
    | error e => exact hcalls s hs
    | panic p => exact hcalls s hs
    | exit => exact hcalls s hs
    | outOfFuel => exact hcalls s hs

/-- A round of `main` hands an empty working set to every call of `calculate` it makes,
whatever working set the round is entered with. -/
theorem mainStepTraced_cleared (c : Calculator) (line : Str) :
    ∀ s ∈ (mainStepTraced c line).2, WorkingSetEmpty s := by
  intro s hs
  unfold mainStepTraced at hs
  cases hp : prepareExpression line with
  | nil => rw [hp] at hs; simp at hs
  | cons ch t =>
    rw [hp] at hs
    dsimp only at hs
    exact handleExpressionTraced_cleared _ _ (workingSetEmpty_reset c) s hs

theorem runSessionTraced_cleared : ∀ (lines : List Str) (c : Calculator),
    ∀ p ∈ runSessionTraced c lines, ∀ s ∈ p.2, WorkingSetEmpty s
  | [], _, p, hp => by simp [runSessionTraced] at hp
  | line :: rest, c, p, hp => by
    rw [runSessionTraced] at hp
    rcases List.mem_cons.mp hp with rfl | hp
    · exact mainStepTraced_cleared c line
    · split at hp
      · exact runSessionTraced_cleared rest _ p hp
      · exact runSessionTraced_cleared rest _ p hp
      · simp at hp

theorem reset_of_vars {c c1 : Calculator} (h : c1.vars = c.vars) : reset c1 = reset c := by
  unfold reset
  rw [h]

/-- What a round of `main` returns, prints and stores does not depend on the working set
it is entered with. -/
theorem mainStep_sameObservable (c c1 : Calculator) (line : Str) (h : c1.vars = c.vars) :
    (mainStep c1 line).SameObservable (mainStep c line) := by
  unfold mainStep
  cases hp : prepareExpression line with
  | nil => exact ⟨rfl, rfl, h⟩
  | cons ch t =>
    dsimp only
    rw [reset_of_vars h]
    exact ⟨rfl, rfl, rfl⟩

/-- What the rounds of a session return, print and store does not depend on the
working set the session is entered with. -/
theorem runSession_sameObservable : ∀ (lines : List Str) (c c1 : Calculator),
    c1.vars = c.vars →
    List.Forall₂ Outcome.SameObservable (runSession c1 lines) (runSession c lines)
  | [], _, _, _ => by
    rw [runSession, runSession]
    exact List.Forall₂.nil
  | line :: rest, c, c1, h => by
    have hs := mainStep_sameObservable c c1 line h
    rw [runSession, runSession]
    refine List.Forall₂.cons hs ?_
    obtain ⟨h1, _, h3⟩ := hs
    rw [h1]
    cases hr : (mainStep c line).result with
    | ok u => exact runSession_sameObservable rest _ _ h3
    | error e => exact runSession_sameObservable rest _ _ h3
    | panic p => exact List.Forall₂.nil
    | exit => exact List.Forall₂.nil
    | outOfFuel => exact List.Forall₂.nil

/-- C19: in a session, where `main` runs `reset` and then `handleExpression` on every
line it reads, every call of `calculate` (and so of `parseExpression`, which `calculate`
calls first on the same calculator), for each parenthesised group and for the top-level
expression, starts with no operands, no operators and an empty `varName`, for every
starting calculator and every sequence of lines, whatever the earlier lines and groups
returned.  The calls are those recorded by `runSessionTraced`, the loop of `main` with a
record of the calculators handed to `calculate`; erasing the record gives `runSession`,
`mainStep` and `handleExpression` themselves.  Observably: what the rounds of `main`
return, print and store is the same for every working set the session or a round is
entered with. -/
theorem no_cross_contamination (c : Calculator) (lines : List Str) :
    (∀ p ∈ runSessionTraced c lines, ∀ s ∈ p.2, WorkingSetEmpty s)
      ∧ (runSessionTraced c lines).map Prod.fst = runSession c lines
      ∧ (∀ line : Str, (mainStepTraced c line).1 = mainStep c line
          ∧ (handleExpressionTraced c line).1 = handleExpression c line
          ∧ ∀ s ∈ (mainStepTraced c line).2, WorkingSetEmpty s)
      ∧ (∀ (c1 : Calculator) (line : Str), c1.vars = c.vars →
          (mainStep c1 line).SameObservable (mainStep c line))
      ∧ (∀ c1 : Calculator, c1.vars = c.vars →
          List.Forall₂ Outcome.SameObservable (runSession c1 lines) (runSession c lines)) :=
  ⟨runSessionTraced_cleared lines c, runSessionTraced_fst lines c,
    fun line => ⟨mainStepTraced_fst c line, handleExpressionTraced_fst c line,
      mainStepTraced_cleared c line⟩,
    fun c1 line h => mainStep_sameObservable c c1 line h,
    fun c1 h => runSession_sameObservable lines c c1 h⟩

/-- C19 on the session `x = 1`, `1 + z`, `(2 + 3) * (x + 1)`: the second round returns
an error and leaves an operand and an operator behind; the third round makes three calls
of `calculate`, and the last of them, for the top-level text `5 * 2`, starts with an
empty working set.  And the line `2` prints 2 also when the round is entered with the
operand 3 and the operator `+` in the working set. -/
theorem no_cross_contamination_witness :
    (runSession NewCalculator
        ["x = 1".toList, "1 + z".toList, "(2 + 3) * (x + 1)".toList]).length = 3
      ∧ (mainStep (mainStep NewCalculator "x = 1".toList).state "1 + z".toList).state.operands
          = [1]
      ∧ ((runSessionTraced NewCalculator
          ["x = 1".toList, "1 + z".toList, "(2 + 3) * (x + 1)".toList]).get
            ⟨2, by decide⟩).2.length = 3
      ∧ WorkingSetEmpty (((runSessionTraced NewCalculator
          ["x = 1".toList, "1 + z".toList, "(2 + 3) * (x + 1)".toList]).get
            ⟨2, by decide⟩).2.get ⟨2, by decide⟩)
      ∧ (mainStep { NewCalculator with operands := [3], operators := [43] } "2".toList).printed
          = [.int 2] :=
  ⟨by decide, by decide, by decide,
    (no_cross_contamination NewCalculator
      ["x = 1".toList, "1 + z".toList, "(2 + 3) * (x + 1)".toList]).1 _
      (List.get_mem _ 2 (by decide)) _ (List.get_mem _ 2 (by decide)),
    ((no_cross_contamination NewCalculator []).2.2.2.1
      { NewCalculator with operands := [3], operators := [43] } "2".toList rfl).2.1.trans
      (by decide)⟩

/-! ## C20: the loops end within their bounds -/

theorem cast_ne_outOfFuel {α β : Type} (b : β) {r : Res α} (h : r ≠ .outOfFuel) :
    r.cast b ≠ .outOfFuel := by
  cases r <;> simp [Res.cast] at h ⊢

theorem getValue_ne_outOfFuel (c : Calculator) (t : Str) : getValue c t ≠ .outOfFuel := by
  rcases getValue_cases c t with ⟨_, h⟩ | ⟨_, _, h⟩ | ⟨_, _, n, _, h⟩ | ⟨_, _, _, h⟩ <;>
    rw [h] <;> simp

theorem operand_step_ne_outOfFuel (c : Calculator) (p : Str) (f : Int → Calculator) :
    (match getValue c p with
      | .ok n => ((.ok () : Res Unit), f n)
      | r => (r.cast (), c)).1 ≠ .outOfFuel := by
  have := getValue_ne_outOfFuel c p
  cases hg : getValue c p <;> simp_all [Res.cast]

theorem parsePart_ne_outOfFuel (i : Nat) (v : Str) (c : Calculator) :
    (parsePart i v c).1 ≠ .outOfFuel := by
  unfold parsePart
  split
  · exact operand_step_ne_outOfFuel c v _
  · split
    · simp
    · split <;> simp

theorem parseParts_ne_outOfFuel : ∀ (parts : List Str) (i : Nat) (c : Calculator),
    (parseParts i parts c).1 ≠ .outOfFuel
  | [], _, _ => by simp [parseParts]
  | v :: rest, i, c => by
    rw [parseParts]
    have h := parsePart_ne_outOfFuel i v c
    cases hp : parsePart i v c with
    | mk r c1 =>
      rw [hp] at h
      cases r with
      | ok u => exact parseParts_ne_outOfFuel rest (i + 1) c1
      | error e => simp
      | panic p => simp
      | exit => simp
      | outOfFuel => exact absurd rfl h

theorem parseSplit_ne_outOfFuel (c : Calculator) (expression : Str) (parts : List Str) :
    (parseSplit c expression parts).1 ≠ .outOfFuel := by
  unfold parseSplit
  split
  · exact operand_step_ne_outOfFuel c _ _
  · split
    · split
      · split
        · simp
        · split
          · simp
          · exact operand_step_ne_outOfFuel c _ _
      · simp
    · exact parseParts_ne_outOfFuel _ _ _

theorem parseExpression_ne_outOfFuel (c : Calculator) (expression : Str) :
    (parseExpression c expression).1 ≠ .outOfFuel := by
  unfold parseExpression
  split
  · simp
  · split
    · simp
    · exact parseSplit_ne_outOfFuel _ _ _

theorem findAny_lt (ops : List Nat) : ∀ (l : List Nat) (i : Nat), findAny ops l = some i →
    i < l.length
  | [], _, h => by simp [findAny] at h
  | x :: t, i, h => by
    rw [findAny] at h
    split at h
    · cases h; simp
    · cases hf : findAny ops t with
      | none => rw [hf] at h; simp at h
      | some j =>
        rw [hf] at h
        simp only [Option.map_some', Option.some.injEq] at h
        have := findAny_lt ops t j hf
        rw [← h]
        simp only [List.length_cons]
        omega

/-- One round of the inner loop of `calculate` removes one operator. -/
theorem length_removeByIndexByte (ops : List Nat) (l : List Nat) (i : Nat)
    (h : findAny ops l = some i) : (removeByIndexByte l i).length + 1 = l.length := by
  have hi := findAny_lt ops l i h
  rw [removeByIndexByte_eq, List.length_eraseIdx, if_pos hi]
  omega

theorem applyOperator_ne_outOfFuel (op : Nat) (operands : List Int) (i : Nat) :
    applyOperator op operands i ≠ .outOfFuel := by
  unfold applyOperator
  split
  · split
    · split
      · simp
      · split
        · split <;> simp
        · split <;> simp
    · simp
  · simp

/-- The inner loop of `calculate` ends within `len(operators) + 1` rounds. -/
theorem reduceTier_ne_outOfFuel (ops : List Nat) : ∀ (k : Nat) (operands : List Int)
    (operators : List Nat), operators.length < k →
    reduceTier ops k operands operators ≠ .outOfFuel
  | 0, _, _, h => by omega
  | k + 1, operands, operators, h => by
    rw [reduceTier]
    cases hf : findAny ops operators with
    | none => simp
    | some i =>
      have hlen := length_removeByIndexByte ops operators i hf
      dsimp only
      cases hg : operators.get? i with
      | none => simp
      | some op =>
        dsimp only
        have ha := applyOperator_ne_outOfFuel op operands i
        cases hap : applyOperator op operands i with
        | ok result =>
          exact reduceTier_ne_outOfFuel ops k _ _ (by omega)
        | error e => simp [Res.cast]
        | panic p => simp [Res.cast]
        | exit => simp [Res.cast]
        | outOfFuel => exact absurd hap ha

/-- More rounds than `len(operators)` do not change what the inner loop returns. -/
theorem reduceTier_fuel (ops : List Nat) : ∀ (k1 k2 : Nat) (operands : List Int)
    (operators : List Nat), operators.length < k1 → operators.length < k2 →
    reduceTier ops k1 operands operators = reduceTier ops k2 operands operators
  | 0, _, _, _, h, _ => by omega
  | _, 0, _, _, _, h => by omega
  | k1 + 1, k2 + 1, operands, operators, h1, h2 => by
    rw [reduceTier, reduceTier]
    cases hf : findAny ops operators with
    | none => rfl
    | some i =>
      have hlen := length_removeByIndexByte ops operators i hf
      dsimp only
      cases hg : operators.get? i with
      | none => rfl
      | some op =>
        dsimp only
        cases hap : applyOperator op operands i with
        | ok result =>
          exact reduceTier_fuel ops k1 k2 _ _ (by omega) (by omega)
        | error e => rfl
        | panic p => rfl
        | exit => rfl
        | outOfFuel => rfl

theorem reduceTiers_ne_outOfFuel : ∀ (tiers : List (List Nat)) (operands : List Int)
    (operators : List Nat), reduceTiers tiers operands operators ≠ .outOfFuel
  | [], _, _ => by simp [reduceTiers]
  | ops :: rest, operands, operators => by
    rw [reduceTiers]
    have h := reduceTier_ne_outOfFuel ops (operators.length + 1) operands operators (by omega)
    cases hr : reduceTier ops (operators.length + 1) operands operators with
    | ok p =>
      obtain ⟨operands1, operators1⟩ := p
      dsimp only
      split
      · simp
      · exact reduceTiers_ne_outOfFuel rest operands1 operators1
    | error e => simp
    | panic p => simp
    | exit => simp
    | outOfFuel => exact absurd hr h

theorem reduce_ne_outOfFuel (c : Calculator) : (reduce c).1 ≠ .outOfFuel := by
  unfold reduce
  have h := reduceTiers_ne_outOfFuel priotiritisedOperators c.operands c.operators
  cases hr : reduceTiers priotiritisedOperators c.operands c.operators with
  | ok p =>
    obtain ⟨operands, operators⟩ := p
    cases operands <;> simp
  | error e => simp [Res.cast]
  | panic p => simp [Res.cast]
  | exit => simp [Res.cast]
  | outOfFuel => exact absurd hr h

theorem calculate_ne_outOfFuel (c : Calculator) (expression : Str) (sub : Bool) :
    (calculate c expression sub).1 ≠ .outOfFuel := by
  unfold calculate
  have h := parseExpression_ne_outOfFuel c expression
  cases hp : parseExpression c expression with
  | mk res c1 =>
    rw [hp] at h
    cases res with
    | ok u =>
      dsimp only
      split
      · split
        · simp
        · split <;> simp
      · split
        · split
          · simp
          · split <;> simp
        · exact reduce_ne_outOfFuel c1
    | error e => simp [Res.cast]
    | panic p => simp [Res.cast]
    | exit => simp [Res.cast]
    | outOfFuel => exact absurd rfl h

/-- A group found by `findGroup` lies in the text, between a `(` and a `)`, and holds
no parenthesis. -/
theorem findGroup_spec : ∀ (s : Str), findGroup s ≠ [] →
    ∃ (pre body suf : Str), s = pre ++ '(' :: body ++ ')' :: suf
      ∧ findGroup s = '(' :: body ++ [')'] ∧ ∀ ch ∈ body, isNotParen ch = true
  | [], h => by simp [findGroup] at h
  | x :: t, h => by
    rw [findGroup] at h ⊢
    cases hm : matchGroup (x :: t) with
    | none =>
      rw [hm] at h
      dsimp only at h ⊢
      obtain ⟨pre, body, suf, h1, h2, h3⟩ := findGroup_spec t h
      exact ⟨x :: pre, body, suf, by rw [h1]; simp, h2, h3⟩
    | some g =>
      dsimp only
      simp only [matchGroup] at hm
      split at hm
      · next hc =>
        obtain ⟨hx, _, hd⟩ := hc
        simp only [Option.some.injEq] at hm
        refine ⟨[], t.takeWhile isNotParen, ((t.dropWhile isNotParen).drop 1), ?_, ?_, ?_⟩
        · have ht : t = t.takeWhile isNotParen ++ t.dropWhile isNotParen :=
            (List.takeWhile_append_dropWhile _ _).symm
          have hdd : t.dropWhile isNotParen = ')' :: (t.dropWhile isNotParen).drop 1 := by
            cases hdw : t.dropWhile isNotParen with
            | nil => rw [hdw] at hd; simp at hd
            | cons y r =>
              rw [hdw] at hd
              simp only [List.head?_cons, Option.some.injEq] at hd
              rw [hd]
              rfl
          rw [hx]
          simp only [List.nil_append, List.cons_append, List.cons.injEq, true_and]
          rw [← hdd]
          exact ht
        · rw [← hm]
        · intro ch hch
          exact (List.mem_takeWhile_imp hch)
      · cases hm

/-- Where the old text occurs, `strings.Replace(s, old, new, 1)` puts the new text in
the place of one occurrence. -/
theorem replaceFirst_occurrence (old new : Str) (hne : old ≠ []) : ∀ (s pre suf : Str),
    s = pre ++ old ++ suf →
    ∃ (pre1 suf1 : Str), s = pre1 ++ old ++ suf1 ∧ replaceFirst s old new = pre1 ++ new ++ suf1
  | [], pre, suf, h => by
    have : old = [] := by
      have := congrArg List.length h
      simp at this
      exact List.length_eq_zero.mp (by omega)
    exact absurd this hne
  | x :: t, pre, suf, h => by
    rw [replaceFirst]
    by_cases hp : old <+: x :: t
    · rw [if_pos hp]
      obtain ⟨r, hr⟩ := hp
      refine ⟨[], r, by simp [hr], ?_⟩
      rw [← hr, List.drop_left]
      rfl
    · rw [if_neg hp]
      cases pre with
      | nil =>
        exfalso
        apply hp
        exact ⟨suf, by simpa using h.symm⟩
      | cons y pre' =>
        simp only [List.cons_append, List.cons.injEq] at h
        obtain ⟨pre1, suf1, h1, h2⟩ := replaceFirst_occurrence old new hne t pre' suf h.2
        exact ⟨x :: pre1, suf1, by rw [h1]; simp, by rw [h2]; simp⟩

/-- One round of the first loop of `handleExpression` removes one `(` from the text. -/
theorem count_open_replaceFirst (s : Str) (n : Int) (h : findGroup s ≠ []) :
    (replaceFirst s (findGroup s) (itoa n)).count '(' + 1 = s.count '(' := by
  obtain ⟨pre, body, suf, h1, h2, h3⟩ := findGroup_spec s h
  have hg : findGroup s ≠ [] := h
  obtain ⟨pre1, suf1, h4, h5⟩ := replaceFirst_occurrence (findGroup s) (itoa n) hg s pre suf (by
    rw [h2, h1]; simp)
  have hbody : body.count '(' = 0 := by
    rw [List.count_eq_zero]
    intro hm
    have := h3 _ hm
    simp [isNotParen] at this
  have hcg : (findGroup s).count '(' = 1 := by
    rw [h2]
    simp [List.count_cons, List.count_append, hbody]
  have hci : (itoa n).count '(' = 0 := count_open_numeric (isNumeric_itoa n)
  rw [h5]
  conv_rhs => rw [h4]
  simp only [List.count_append, hcg, hci]
  omega

/-- The first loop of `handleExpression` ends within as many rounds as the text has
`(`, plus the round that finds no group. -/
theorem resolveGroups_ne_outOfFuel : ∀ (k : Nat) (c : Calculator) (s : Str),
    s.count '(' < k → (resolveGroups k c s).1 ≠ .outOfFuel
  | 0, _, _, h => by omega
  | k + 1, c, s, h => by
    rw [resolveGroups]
    dsimp only
    by_cases hg : findGroup s = []
    · rw [if_pos hg]; simp
    · rw [if_neg hg]
      have hc := calculate_ne_outOfFuel c
        (prepareExpression (replaceFirst (replaceFirst (findGroup s) ['('] []) [')'] [])) true
      cases hcalc : calculate c
        (prepareExpression (replaceFirst (replaceFirst (findGroup s) ['('] []) [')'] []))
        true with
      | mk res c1 =>
        rw [hcalc] at hc
        cases res with
        | ok p =>
          obtain ⟨n, pr⟩ := p
          dsimp only
          have := count_open_replaceFirst s n hg
          exact resolveGroups_ne_outOfFuel k c1 _ (by omega)
        | error e => simp [Res.cast]
        | panic p => simp [Res.cast]
        | exit => simp [Res.cast]
        | outOfFuel => exact absurd rfl hc

/-- More rounds than the text has `(` do not change what the first loop returns. -/
theorem resolveGroups_fuel : ∀ (k1 k2 : Nat) (c : Calculator) (s : Str),
    s.count '(' < k1 → s.count '(' < k2 → resolveGroups k1 c s = resolveGroups k2 c s
  | 0, _, _, _, h, _ => by omega
  | _, 0, _, _, _, h => by omega
  | k1 + 1, k2 + 1, c, s, h1, h2 => by
    rw [resolveGroups, resolveGroups]
    dsimp only
    by_cases hg : findGroup s = []
    · rw [if_pos hg, if_pos hg]
    · rw [if_neg hg, if_neg hg]
      cases hcalc : calculate c
        (prepareExpression (replaceFirst (replaceFirst (findGroup s) ['('] []) [')'] []))
        true with
      | mk res c1 =>
        cases res with
        | ok p =>
          obtain ⟨n, pr⟩ := p
          dsimp only
          have := count_open_replaceFirst s n hg
          exact resolveGroups_fuel k1 k2 c1 _ (by omega) (by omega)
        | error e => rfl
        | panic p => rfl
        | exit => rfl
        | outOfFuel => rfl

theorem evaluateFlat_ne_outOfFuel (c : Calculator) (flat : Str) :
    (evaluateFlat c flat).result ≠ .outOfFuel := by
  unfold evaluateFlat
  dsimp only
  cases hp : prepareExpression flat with
  | nil => simp
  | cons ch t =>
    dsimp only
    by_cases hch : ch = '/'
    · rw [if_pos hch]
      unfold handleCommand
      split
      · simp
      · split <;> simp
    · rw [if_neg hch]
      have hc := calculate_ne_outOfFuel c (ch :: t) false
      cases hcalc : calculate c (ch :: t) false with
      | mk res c2 =>
        rw [hcalc] at hc
        cases res with
        | ok p => simp
        | error e => simp [Res.cast]
        | panic p => simp [Res.cast]
        | exit => simp [Res.cast]
        | outOfFuel => exact absurd rfl hc

theorem handleExpression_ne_outOfFuel (c : Calculator) (line : Str) :
    (handleExpression c line).result ≠ .outOfFuel := by
  unfold handleExpression
  have h := resolveGroups_ne_outOfFuel (line.count '(' + 1) c line (by omega)
  cases hr : resolveGroups (line.count '(' + 1) c line with
  | mk res c1 =>
    rw [hr] at h
    cases res with
    | ok flat => exact evaluateFlat_ne_outOfFuel c1 flat
    | error e => simp [Res.cast]
    | panic p => simp [Res.cast]
    | exit => simp [Res.cast]
    | outOfFuel => exact absurd rfl h

/-- C20: for every input text and every calculator, `handleExpression` ends: none of
its loops reaches the bound the model puts on it.  The loop over parenthesised groups
returns the same with any number of rounds above the number of `(` in the input (each
round that finds a group `\([^()]+\)` replaces it by decimal text without parentheses, one
`(` less); each inner loop of `calculate` returns the same with any number of rounds
above `len(operators)` (each round removes one operator); and the loop of
`prepareExpression` that collapses blanks ends with no two blanks in a row left. -/
theorem evaluation_terminates (c : Calculator) (line : Str) :
    (handleExpression c line).result ≠ .outOfFuel
      ∧ (∀ k : Nat, resolveGroups (line.count '(' + 1 + k) c line
          = resolveGroups (line.count '(' + 1) c line)
      ∧ (resolveGroups (line.count '(' + 1) c line).1 ≠ .outOfFuel
      ∧ (∀ n : Int, findGroup line ≠ [] →
          (replaceFirst line (findGroup line) (itoa n)).count '(' + 1 = line.count '(')
      ∧ (∀ (ops : List Nat) (operands : List Int) (operators : List Nat) (k : Nat),
          reduceTier ops (operators.length + 1 + k) operands operators
            = reduceTier ops (operators.length + 1) operands operators
          ∧ reduceTier ops (operators.length + 1) operands operators ≠ .outOfFuel)
      ∧ (∀ (ops operators : List Nat) (i : Nat), findAny ops operators = some i →
          (removeByIndexByte operators i).length + 1 = operators.length)
      ∧ containsDoubleSpace (collapseSpaces (trimSpace line).length (trimSpace line)) = false :=
  ⟨handleExpression_ne_outOfFuel c line,
    fun k => resolveGroups_fuel _ _ c line (by omega) (by omega),
    resolveGroups_ne_outOfFuel _ c line (by omega),
    fun n h => count_open_replaceFirst line n h,
    fun ops operands operators k =>
      ⟨reduceTier_fuel ops _ _ operands operators (by omega) (by omega),
        reduceTier_ne_outOfFuel ops _ operands operators (by omega)⟩,
    fun ops operators i h => length_removeByIndexByte ops operators i h,
    collapseSpaces_complete _ _ (Nat.le_refl _)⟩

/-- C20 at `((1 + 2) * (3 + 4))`: the call ends, and replacing the first group found by
the text of 3 leaves two of the three `(`. -/
theorem evaluation_terminates_witness :
    (handleExpression NewCalculator "((1 + 2) * (3 + 4))".toList).result ≠ .outOfFuel
      ∧ findGroup "((1 + 2) * (3 + 4))".toList = "(1 + 2)".toList
      ∧ (replaceFirst "((1 + 2) * (3 + 4))".toList (findGroup "((1 + 2) * (3 + 4))".toList)
          (itoa 3)).count '(' + 1 = "((1 + 2) * (3 + 4))".toList.count '('
      ∧ (removeByIndexByte [43, 42, 45] 1).length + 1 = [43, 42, 45].length :=
  ⟨(evaluation_terminates NewCalculator "((1 + 2) * (3 + 4))".toList).1,
    by decide,
    (evaluation_terminates NewCalculator "((1 + 2) * (3 + 4))".toList).2.2.2.1 3 (by decide),
    (evaluation_terminates NewCalculator "((1 + 2) * (3 + 4))".toList).2.2.2.2.2.1
      [42, 47] [43, 42, 45] 1 (by decide)⟩

/-! ## The passes of `prepareExpression` as functions on the text -/

theorem replaceAllWith_skip_append (m : Str → Option (Str × Nat)) (rest : Str) :
    ∀ pre : Str, replaceAllWith m pre.length (pre ++ rest) = replaceAllWith m 0 rest
  | [] => rfl
  | x :: t => by
    rw [List.length_cons, List.cons_append, replaceAllWith]
    exact replaceAllWith_skip_append m rest t

theorem insertAfterRun_nil (p q : Char → Bool) (k n : Nat) : insertAfterRun p q k n [] = [] := by
  unfold insertAfterRun
  rfl

theorem insertAfterRun_single (p q : Char → Bool) (k n : Nat) (x : Char) :
    insertAfterRun p q k n [x] = [x] := by
  unfold insertAfterRun
  rfl

theorem insertAfterRun_cons_cons (p q : Char → Bool) (k n : Nat) (x y : Char) (t : Str) :
    insertAfterRun p q k n (x :: y :: t) =
      if p x = true ∧ q y = true ∧ k ≤ n + 1 then
        x :: ' ' :: insertAfterRun p q k (if p x = true then n + 1 else 0) (y :: t)
      else x :: insertAfterRun p q k (if p x = true then n + 1 else 0) (y :: t) := by
  rw [insertAfterRun]

/-- The pass keeps the first character of the text in its place. -/
theorem insertAfterRun_cons (p q : Char → Bool) (k n : Nat) (x : Char) (t : Str) :
    ∃ r, insertAfterRun p q k n (x :: t) = x :: r := by
  cases t with
  | nil => exact ⟨[], insertAfterRun_single p q k n x⟩
  | cons y t =>
    rw [insertAfterRun_cons_cons]
    split
    · exact ⟨_, rfl⟩
    · exact ⟨_, rfl⟩

theorem insertAfterRun_of_not (p q : Char → Bool) (k n : Nat) (x : Char) (t : Str)
    (hx : p x = false) :
    insertAfterRun p q k n (x :: t) = x :: insertAfterRun p q k 0 t := by
  cases t with
  | nil => rw [insertAfterRun_single, insertAfterRun_nil]
  | cons y t =>
    rw [insertAfterRun_cons_cons]
    simp [hx]

/-- A run of `q` is copied. -/
theorem insertAfterRun_second (p q : Char → Bool) (k : Nat) (hd : ∀ ch, p ch = true → q ch = false)
    (rest : Str) : ∀ (g : Str) (n : Nat), (∀ ch ∈ g, q ch = true) → g ≠ [] →
    insertAfterRun p q k n (g ++ rest) = g ++ insertAfterRun p q k 0 rest
  | [], _, _, h => absurd rfl h
  | [y], n, hg, _ => by
    have hy : p y = false := by
      cases hp : p y
      · rfl
      · have := hd y hp
        rw [hg y (by simp)] at this
        cases this
    exact insertAfterRun_of_not p q k n y rest hy
  | y :: z :: g, n, hg, _ => by
    have hy : p y = false := by
      cases hp : p y
      · rfl
      · have := hd y hp
        rw [hg y (by simp)] at this
        cases this
    rw [List.cons_append, insertAfterRun_of_not p q k n y _ hy,
      insertAfterRun_second p q k hd rest (z :: g) 0
        (fun ch hch => hg ch (List.mem_cons_of_mem _ hch)) (by simp)]
    rfl

/-- A run of `p` that reaches the length `k` and that a character of `q` follows gets a
blank after it. -/
theorem insertAfterRun_first (p q : Char → Bool) (k : Nat) (hd : ∀ ch, p ch = true → q ch = false)
    (y : Char) (r : Str) (hy : q y = true) : ∀ (g : Str) (n : Nat), (∀ ch ∈ g, p ch = true) →
    g ≠ [] → k ≤ n + g.length →
    insertAfterRun p q k n (g ++ y :: r) = g ++ ' ' :: insertAfterRun p q k 0 (y :: r)
  | [], _, _, h, _ => absurd rfl h
  | [x], n, hg, _, hk => by
    have hx := hg x (by simp)
    have hpy : p y = false := by
      cases hp : p y
      · rfl
      · have := hd y hp
        rw [hy] at this
        cases this
    have hk' : k ≤ n + 1 := by simpa using hk
    show insertAfterRun p q k n (x :: y :: r) = _
    rw [insertAfterRun_cons_cons, if_pos ⟨hx, hy, hk'⟩, insertAfterRun_of_not p q k _ y r hpy,
      insertAfterRun_of_not p q k 0 y r hpy]
    rfl
  | x :: z :: g, n, hg, _, hk => by
    have hx := hg x (by simp)
    have hz := hg z (by simp)
    have hqz : q z = false := hd z hz
    show insertAfterRun p q k n (x :: z :: (g ++ y :: r)) = _
    rw [insertAfterRun_cons_cons, if_neg (by simp [hqz]), if_pos hx]
    have := insertAfterRun_first p q k hd y r hy (z :: g) (n + 1)
      (fun ch hch => hg ch (List.mem_cons_of_mem _ hch)) (by simp) (by
        simp only [List.length_cons] at hk ⊢
        omega)
    rw [List.cons_append] at this
    rw [this]
    rfl

/-- What `ReplaceAllString` does with the pattern `(P{k,})(Q+)` and the replacement
`${1} ${2}`, for classes without a common character: `insertAfterRun`. -/
theorem replaceAllWith_runRun (p q : Char → Bool) (k : Nat) (hk : 1 ≤ k)
    (hd : ∀ ch, p ch = true → q ch = false) :
    ∀ (N : Nat) (s : Str) (n : Nat), s.length ≤ N →
      (0 < n → ¬(k ≤ n + (s.takeWhile p).length ∧ 1 ≤ ((s.dropWhile p).takeWhile q).length)) →
      replaceAllWith (matchRunRun p q k) 0 s = insertAfterRun p q k n s
  | _, [], n, _, _ => by
    rw [insertAfterRun_nil]
    rfl
  | 0, x :: t, _, h, _ => by simp at h
  | N + 1, x :: t, n, hN, hn => by
    have hlen : t.length ≤ N := by simpa using hN
    by_cases hM : k ≤ ((x :: t).takeWhile p).length
        ∧ 1 ≤ (((x :: t).dropWhile p).takeWhile q).length
    · -- the pattern matches here
      have hn0 : n = 0 := by
        by_contra hne
        exact hn (Nat.pos_of_ne_zero hne) ⟨by omega, hM.2⟩
      subst hn0
      have hsplit : x :: t = (x :: t).takeWhile p
          ++ (((x :: t).dropWhile p).takeWhile q ++ ((x :: t).dropWhile p).dropWhile q) := by
        rw [List.takeWhile_append_dropWhile, List.takeWhile_append_dropWhile]
      have hg1 : ∀ ch ∈ (x :: t).takeWhile p, p ch = true := fun ch hch =>
        List.mem_takeWhile_imp hch
      have hg2 : ∀ ch ∈ ((x :: t).dropWhile p).takeWhile q, q ch = true := fun ch hch =>
        List.mem_takeWhile_imp hch
      have hg1ne : (x :: t).takeWhile p ≠ [] := by
        intro h0
        rw [h0] at hM
        simp at hM
        omega
      have hg2ne : ((x :: t).dropWhile p).takeWhile q ≠ [] := by
        intro h0
        rw [h0] at hM
        simp at hM
      generalize hG1 : (x :: t).takeWhile p = g1 at hsplit hg1 hg1ne hM
      generalize hG2 : ((x :: t).dropWhile p).takeWhile q = g2 at hsplit hg2 hg2ne hM
      generalize hR : ((x :: t).dropWhile p).dropWhile q = rest at hsplit
      have hmatch : matchRunRun p q k (x :: t) = some (g1 ++ ' ' :: g2, g1.length + g2.length) := by
        unfold matchRunRun
        simp only [hG1, hG2]
        rw [if_pos hM]
      obtain ⟨x1, g1', rfl⟩ := List.exists_cons_of_ne_nil hg1ne
      obtain ⟨y, g2', rfl⟩ := List.exists_cons_of_ne_nil hg2ne
      have hx1 : x1 = x ∧ t = g1' ++ (y :: g2' ++ rest) := by
        simp only [List.cons_append, List.cons.injEq] at hsplit
        exact ⟨hsplit.1.symm, hsplit.2⟩
      obtain ⟨rfl, ht⟩ := hx1
      have hrest : rest.length ≤ N := by
        rw [ht] at hlen
        simp only [List.length_append, List.length_cons] at hlen
        omega
      have ih := replaceAllWith_runRun p q k hk hd N rest 0 hrest (fun h => absurd h (by omega))
      rw [replaceAllWith, hmatch]
      simp only
      have hskip : replaceAllWith (matchRunRun p q k)
          ((x1 :: g1').length + (y :: g2').length - 1) t
          = replaceAllWith (matchRunRun p q k) 0 rest := by
        have e : t = (g1' ++ y :: g2') ++ rest := by rw [ht]; simp
        have el : (x1 :: g1').length + (y :: g2').length - 1 = (g1' ++ y :: g2').length := by
          simp only [List.length_cons, List.length_append]
          omega
        rw [el, e]
        exact replaceAllWith_skip_append _ rest _
      rw [hskip, ih]
      have e2 : x1 :: t = (x1 :: g1') ++ y :: (g2' ++ rest) := by rw [ht]; simp
      rw [e2, insertAfterRun_first p q k hd y (g2' ++ rest) (hg2 y (by simp)) (x1 :: g1') 0 hg1
        (by simp) (by simpa using hM.1)]
      have e3 : y :: (g2' ++ rest) = (y :: g2') ++ rest := rfl
      rw [e3, insertAfterRun_second p q k hd rest (y :: g2') 0 hg2 (by simp)]
      simp
    · -- no match here: the character is copied
      have hnone : matchRunRun p q k (x :: t) = none := by
        unfold matchRunRun
        simp only
        rw [if_neg hM]
      rw [replaceAllWith, hnone]
      simp only
      have hnext : 0 < (if p x = true then n + 1 else 0) →
          ¬(k ≤ (if p x = true then n + 1 else 0) + (t.takeWhile p).length
            ∧ 1 ≤ ((t.dropWhile p).takeWhile q).length) := by
        intro hpos
        by_cases hx : p x = true
        · rw [if_pos hx]
          have e1 : (x :: t).takeWhile p = x :: t.takeWhile p := by simp [List.takeWhile, hx]
          have e2 : (x :: t).dropWhile p = t.dropWhile p := by simp [List.dropWhile, hx]
          by_cases hn0 : n = 0
          · subst hn0
            rw [e1, e2] at hM
            simp only [List.length_cons] at hM
            intro h
            exact hM ⟨by omega, h.2⟩
          · have := hn (Nat.pos_of_ne_zero hn0)
            rw [e1, e2] at this
            simp only [List.length_cons] at this
            intro h
            exact this ⟨by omega, h.2⟩
        · rw [if_neg hx] at hpos
          omega
      rw [replaceAllWith_runRun p q k hk hd N t _ hlen hnext]
      cases t with
      | nil => rw [insertAfterRun_nil, insertAfterRun_single]
      | cons y t' =>
        have hc : ¬(p x = true ∧ q y = true ∧ k ≤ n + 1) := by
          rintro ⟨hx, hy, hkn⟩
          have hpy : p y = false := by
            cases hp : p y
            · rfl
            · have := hd y hp
              rw [hy] at this
              cases this
          have e1 : (x :: y :: t').takeWhile p = [x] := by simp [List.takeWhile, hx, hpy]
          have e2 : (x :: y :: t').dropWhile p = y :: t' := by simp [List.dropWhile, hx, hpy]
          have e3 : 1 ≤ ((y :: t').takeWhile q).length := by simp [List.takeWhile, hy]
          by_cases hn0 : n = 0
          · subst hn0
            rw [e1, e2] at hM
            exact hM ⟨by simpa using hkn, e3⟩
          · have := hn (Nat.pos_of_ne_zero hn0)
            rw [e1, e2] at this
            exact this ⟨by simpa using hkn, e3⟩
        rw [insertAfterRun_cons_cons, if_neg hc]

theorem dropAfterOpen_true (t : Str) :
    dropAfterOpen true t = dropAfterOpen false (t.dropWhile isReSpace) := by
  induction t with
  | nil => rfl
  | cons x t ih =>
    by_cases hx : isReSpace x = true
    · rw [dropAfterOpen, if_pos ⟨rfl, hx⟩, ih, List.dropWhile_cons_of_pos hx]
    · rw [List.dropWhile_cons_of_neg hx, dropAfterOpen, dropAfterOpen,
        if_neg (fun h => hx h.2), if_neg (fun h => hx h.2)]

theorem dropAfterOpen_false_cons (x : Char) (t : Str) :
    dropAfterOpen false (x :: t) = x :: dropAfterOpen (decide (x = '(')) t := by
  rw [dropAfterOpen, if_neg (fun h => Bool.noConfusion h.1)]

/-- What `ReplaceAllString` does with the pattern `\(\s+` and the replacement `(`:
`dropAfterOpen`. -/
theorem replaceAllWith_openSpace : ∀ (N : Nat) (s : Str), s.length ≤ N →
    replaceAllWith matchOpenSpace 0 s = dropAfterOpen false s
  | _, [], _ => rfl
  | 0, x :: t, h => by simp at h
  | N + 1, x :: t, hN => by
    have hlen : t.length ≤ N := by simpa using hN
    rw [dropAfterOpen_false_cons]
    by_cases hM : x = '(' ∧ 1 ≤ (t.takeWhile isReSpace).length
    · have hmatch : matchOpenSpace (x :: t) = some (['('], 1 + (t.takeWhile isReSpace).length) := by
        simp only [matchOpenSpace]
        rw [if_pos hM]
      rw [replaceAllWith, hmatch]
      simp only
      have e : t = t.takeWhile isReSpace ++ t.dropWhile isReSpace :=
        (List.takeWhile_append_dropWhile _ _).symm
      have hskip : replaceAllWith matchOpenSpace (1 + (t.takeWhile isReSpace).length - 1) t
          = replaceAllWith matchOpenSpace 0 (t.dropWhile isReSpace) := by
        have el : 1 + (t.takeWhile isReSpace).length - 1 = (t.takeWhile isReSpace).length := by
          omega
        rw [el]
        have := replaceAllWith_skip_append matchOpenSpace (t.dropWhile isReSpace)
          (t.takeWhile isReSpace)
        rw [List.takeWhile_append_dropWhile] at this
        exact this
      have hdl : (t.dropWhile isReSpace).length ≤ N :=
        Nat.le_trans (List.Sublist.length_le (List.dropWhile_sublist _)) hlen
      rw [hskip, replaceAllWith_openSpace N _ hdl, hM.1]
      simp only [decide_True, dropAfterOpen_true, List.singleton_append]
    · have hnone : matchOpenSpace (x :: t) = none := by
        simp only [matchOpenSpace]
        rw [if_neg hM]
      rw [replaceAllWith, hnone]
      simp only
      rw [replaceAllWith_openSpace N t hlen]
      by_cases hx : x = '('
      · have htw : t.takeWhile isReSpace = [] := by
          have : ¬ 1 ≤ (t.takeWhile isReSpace).length := fun h => hM ⟨hx, h⟩
          exact List.length_eq_zero.mp (by omega)
        have hdw : t.dropWhile isReSpace = t := by
          have := List.takeWhile_append_dropWhile isReSpace t
          rw [htw] at this
          exact this
        simp only [hx, decide_True, dropAfterOpen_true, hdw]
      · simp only [hx, decide_False]

/-- White space that leads up to a `)` is dropped with all that `dropBeforeClose` finds
behind it. -/
theorem dropBeforeClose_run (rest : Str) : ∀ w : Str, (∀ ch ∈ w, isReSpace ch = true) →
    dropBeforeClose (w ++ ')' :: rest) = ')' :: dropBeforeClose rest
  | [], _ => by
    rw [List.nil_append, dropBeforeClose, if_neg (fun h => absurd h.1 (by decide))]
  | x :: w, h => by
    have hx := h x (by simp)
    have hw : ∀ ch ∈ w, isReSpace ch = true := fun ch hch => h ch (List.mem_cons_of_mem _ hch)
    have hd : ((w ++ ')' :: rest).dropWhile isReSpace).head? = some ')' := by
      have hc : isReSpace ')' = false := by decide
      rw [List.dropWhile_append_of_pos hw]
      simp [List.dropWhile, hc]
    rw [List.cons_append, dropBeforeClose, if_pos ⟨hx, hd⟩, dropBeforeClose_run rest w hw]

/-- What `ReplaceAllString` does with the pattern `\s+\)` and the replacement `)`:
`dropBeforeClose`. -/
theorem replaceAllWith_spaceClose : ∀ (N : Nat) (s : Str), s.length ≤ N →
    replaceAllWith matchSpaceClose 0 s = dropBeforeClose s
  | _, [], _ => rfl
  | 0, x :: t, h => by simp at h
  | N + 1, x :: t, hN => by
    have hlen : t.length ≤ N := by simpa using hN
    by_cases hM : 1 ≤ ((x :: t).takeWhile isReSpace).length
        ∧ ((x :: t).dropWhile isReSpace).head? = some ')'
    · have hmatch : matchSpaceClose (x :: t)
          = some ([')'], ((x :: t).takeWhile isReSpace).length + 1) := by
        unfold matchSpaceClose
        rw [if_pos hM]
      have hsplit : x :: t = (x :: t).takeWhile isReSpace ++ (x :: t).dropWhile isReSpace :=
        (List.takeWhile_append_dropWhile _ _).symm
      have hw : ∀ ch ∈ (x :: t).takeWhile isReSpace, isReSpace ch = true := fun ch hch =>
        List.mem_takeWhile_imp hch
      obtain ⟨hM1, hM2⟩ := hM
      rw [replaceAllWith, hmatch]
      simp only
      generalize hW : (x :: t).takeWhile isReSpace = w at hsplit hw hM1
      cases hD : (x :: t).dropWhile isReSpace with
      | nil => rw [hD] at hM2; simp at hM2
      | cons y rest =>
        rw [hD] at hM2 hsplit
        simp only [List.head?_cons, Option.some.injEq] at hM2
        subst hM2
        cases w with
        | nil => simp at hM1
        | cons a w' =>
          simp only [List.cons_append, List.cons.injEq] at hsplit
          obtain ⟨rfl, ht⟩ := hsplit
          have hskip : replaceAllWith matchSpaceClose ((x :: w').length + 1 - 1) t
              = replaceAllWith matchSpaceClose 0 rest := by
            have e : t = (w' ++ [')']) ++ rest := by rw [ht]; simp
            have el : (x :: w').length + 1 - 1 = (w' ++ [')']).length := by simp
            rw [el, e]
            exact replaceAllWith_skip_append _ rest _
          have hrl : rest.length ≤ N := by
            rw [ht] at hlen
            simp only [List.length_append, List.length_cons] at hlen
            omega
          rw [hskip, replaceAllWith_spaceClose N rest hrl]
          have e2 : x :: t = (x :: w') ++ ')' :: rest := by rw [ht]; rfl
          rw [e2, dropBeforeClose_run rest (x :: w') hw]
          rfl
    · have hnone : matchSpaceClose (x :: t) = none := by
        unfold matchSpaceClose
        rw [if_neg hM]
      have hc : ¬(isReSpace x = true ∧ (t.dropWhile isReSpace).head? = some ')') := by
        rintro ⟨hx, hd⟩
        apply hM
        rw [List.takeWhile_cons_of_pos hx, List.dropWhile_cons_of_pos hx]
        exact ⟨by simp, hd⟩
      rw [replaceAllWith, hnone]
      simp only
      rw [replaceAllWith_spaceClose N t hlen, dropBeforeClose, if_neg hc]

/-- The function `prepareExpression` as a chain of passes over the text: a line that is
no command has its blanks collapsed, blanks put in after operators, after operands and
after runs of two or more minus signs, and white space dropped after `(` and before
`)`. -/
theorem prepareExpression_passes (line : Str) :
    prepareExpression line =
      if (trimSpace line).head? = some '/' then trimSpace line
      else
        dropBeforeClose (dropAfterOpen false
          (insertAfterRun (fun ch => decide (ch = '-')) isOperandChar 2 0
            (insertAfterRun isOperandChar isOpChar 1 0
              (insertAfterRun isOpNoMinus isOperandChar 1 0
                (collapseSpaces (trimSpace line).length (trimSpace line)))))) := by
  have h1 : ∀ ch, isOpNoMinus ch = true → isOperandChar ch = false := by
    intro ch h
    simp only [isOpNoMinus, isOperandChar, isLetter, isDigit, Bool.or_eq_true, Bool.and_eq_true,
      decide_eq_true_eq, char_eq_iff, Bool.or_eq_false_iff, Bool.and_eq_false_iff,
      decide_eq_false_iff_not] at *
    simp at *
    omega
  have h2 : ∀ ch, isOperandChar ch = true → isOpChar ch = false := by
    intro ch h
    simp only [isOpChar, isOperandChar, isLetter, isDigit, Bool.or_eq_true, Bool.and_eq_true,
      decide_eq_true_eq, char_eq_iff, Bool.or_eq_false_iff, Bool.and_eq_false_iff,
      decide_eq_false_iff_not] at *
    simp at *
    omega
  have h3 : ∀ ch, (fun ch => decide (ch = '-')) ch = true → isOperandChar ch = false := by
    intro ch h
    simp only [decide_eq_true_eq] at h
    subst h
    decide
  unfold prepareExpression
  simp only
  split
  · rfl
  · unfold matchOpOperand matchOperandOp matchMinusRun
    rw [replaceAllWith_runRun isOpNoMinus isOperandChar 1 (Nat.le_refl _) h1 _ _ 0 (Nat.le_refl _)
        (fun h => absurd h (by omega)),
      replaceAllWith_runRun isOperandChar isOpChar 1 (Nat.le_refl _) h2 _ _ 0 (Nat.le_refl _)
        (fun h => absurd h (by omega)),
      replaceAllWith_runRun (fun ch => decide (ch = '-')) isOperandChar 2 (by omega) h3 _ _ 0
        (Nat.le_refl _) (fun h => absurd h (by omega)),
      replaceAllWith_openSpace _ _ (Nat.le_refl _),
      replaceAllWith_spaceClose _ _ (Nat.le_refl _)]

/-! ## What the inserting passes keep -/

theorem insertAfterRun_head (p q : Char → Bool) (k n : Nat) (s : Str) :
    (insertAfterRun p q k n s).head? = s.head? := by
  cases s with
  | nil => rw [insertAfterRun_nil]
  | cons x t =>
    obtain ⟨r, hr⟩ := insertAfterRun_cons p q k n x t
    rw [hr]
    rfl

theorem insertAfterRun_getLast (p q : Char → Bool) (k : Nat) : ∀ (n : Nat) (s : Str),
    (insertAfterRun p q k n s).getLast? = s.getLast?
  | n, [] => by rw [insertAfterRun_nil]
  | n, [x] => by rw [insertAfterRun_single]
  | n, x :: y :: t => by
    have ih := insertAfterRun_getLast p q k (if p x = true then n + 1 else 0) (y :: t)
    obtain ⟨r, hr⟩ := insertAfterRun_cons p q k (if p x = true then n + 1 else 0) y t
    rw [hr] at ih
    rw [insertAfterRun_cons_cons]
    split
    · rw [hr, List.getLast?_cons_cons, List.getLast?_cons_cons, List.getLast?_cons_cons, ih]
    · rw [hr, List.getLast?_cons_cons, List.getLast?_cons_cons, ih]

/-- A relation between neighbours that a blank between a character of `p` and a
character of `q` does not break holds on the text after the pass as before. -/
theorem chain_insertAfterRun (R : Char → Char → Prop) (p q : Char → Bool) (k : Nat)
    (hR : ∀ x y, p x = true → q y = true → R x y → R x ' ' ∧ R ' ' y) :
    ∀ (n : Nat) (s : Str), List.Chain' R s → List.Chain' R (insertAfterRun p q k n s)
  | n, [], _ => by rw [insertAfterRun_nil]; exact List.chain'_nil
  | n, [x], _ => by rw [insertAfterRun_single]; exact List.chain'_singleton _
  | n, x :: y :: t, h => by
    obtain ⟨hxy, ht⟩ := List.chain'_cons.mp h
    have ih := chain_insertAfterRun R p q k hR (if p x = true then n + 1 else 0) (y :: t) ht
    obtain ⟨r, hr⟩ := insertAfterRun_cons p q k (if p x = true then n + 1 else 0) y t
    rw [hr] at ih
    rw [insertAfterRun_cons_cons]
    split
    · next hc =>
      obtain ⟨h1, h2⟩ := hR x y hc.1 hc.2.1 hxy
      rw [hr]
      exact List.chain'_cons.mpr ⟨h1, List.chain'_cons.mpr ⟨h2, ih⟩⟩
    · rw [hr]
      exact List.chain'_cons.mpr ⟨hxy, ih⟩

theorem insertsOnlyBefore_cons_cons (al p q : Char → Bool) (k n : Nat) (x y : Char) (t : Str) :
    InsertsOnlyBefore al p q k n (x :: y :: t) ↔
      (p x = true ∧ q y = true ∧ k ≤ n + 1 → al y = true)
        ∧ InsertsOnlyBefore al p q k (if p x = true then n + 1 else 0) (y :: t) := by
  rw [InsertsOnlyBefore]

theorem insertsOnlyBefore_nil (al p q : Char → Bool) (k n : Nat) :
    InsertsOnlyBefore al p q k n [] := by
  unfold InsertsOnlyBefore
  trivial

theorem insertsOnlyBefore_single (al p q : Char → Bool) (k n : Nat) (x : Char) :
    InsertsOnlyBefore al p q k n [x] := by
  unfold InsertsOnlyBefore
  trivial

theorem insertsOnlyBefore_rest (al p q : Char → Bool) (k n : Nat) (x : Char) (t : Str)
    (h : InsertsOnlyBefore al p q k n (x :: t)) :
    InsertsOnlyBefore al p q k (if p x = true then n + 1 else 0) t := by
  cases t with
  | nil => exact insertsOnlyBefore_nil _ _ _ _ _
  | cons y t => exact ((insertsOnlyBefore_cons_cons al p q k n x y t).mp h).2

/-- A shorter run before the text asks for less. -/
theorem insertsOnlyBefore_mono (al p q : Char → Bool) (k : Nat) : ∀ (s : Str) (n1 n2 : Nat),
    n1 ≤ n2 → InsertsOnlyBefore al p q k n2 s → InsertsOnlyBefore al p q k n1 s
  | [], _, _, _, _ => insertsOnlyBefore_nil _ _ _ _ _
  | [x], _, _, _, _ => insertsOnlyBefore_single _ _ _ _ _ _
  | x :: y :: t, n1, n2, hn, h => by
    rw [insertsOnlyBefore_cons_cons] at h ⊢
    refine ⟨fun hc => h.1 ⟨hc.1, hc.2.1, by omega⟩, ?_⟩
    apply insertsOnlyBefore_mono al p q k (y :: t) _ _ _ h.2
    split <;> omega

theorem insertsOnlyBefore_weaken (al al1 p q : Char → Bool) (k : Nat)
    (hal : ∀ y, q y = true → al y = true → al1 y = true) : ∀ (s : Str) (n : Nat),
    InsertsOnlyBefore al p q k n s → InsertsOnlyBefore al1 p q k n s
  | [], _, _ => insertsOnlyBefore_nil _ _ _ _ _
  | [x], _, _ => insertsOnlyBefore_single _ _ _ _ _ _
  | x :: y :: t, n, h => by
    rw [insertsOnlyBefore_cons_cons] at h ⊢
    exact ⟨fun hc => hal y hc.2.1 (h.1 hc), insertsOnlyBefore_weaken al al1 p q k hal _ _ h.2⟩

/-- Blanks put in by another pass make no new place for this pass. -/
theorem insertsOnlyBefore_insertAfterRun (al p1 q1 : Char → Bool) (k1 : Nat)
    (p q : Char → Bool) (k : Nat) (hp : p1 ' ' = false) (hq : q1 ' ' = false) :
    ∀ (s : Str) (n n1 : Nat), InsertsOnlyBefore al p1 q1 k1 n1 s →
      InsertsOnlyBefore al p1 q1 k1 n1 (insertAfterRun p q k n s)
  | [], n, _, _ => by rw [insertAfterRun_nil]; exact insertsOnlyBefore_nil _ _ _ _ _
  | [x], n, _, _ => by rw [insertAfterRun_single]; exact insertsOnlyBefore_single _ _ _ _ _ _
  | x :: y :: t, n, n1, h => by
    rw [insertsOnlyBefore_cons_cons] at h
    have ih := insertsOnlyBefore_insertAfterRun al p1 q1 k1 p q k hp hq (y :: t)
      (if p x = true then n + 1 else 0) _ h.2
    obtain ⟨r, hr⟩ := insertAfterRun_cons p q k (if p x = true then n + 1 else 0) y t
    rw [hr] at ih
    rw [insertAfterRun_cons_cons]
    split
    · rw [hr, insertsOnlyBefore_cons_cons, insertsOnlyBefore_cons_cons]
      refine ⟨fun hc => ?_, fun hc => ?_, ?_⟩
      · rw [hq] at hc
        exact absurd hc.2.1 (by decide)
      · rw [hp] at hc
        exact absurd hc.1 (by decide)
      · rw [hp]
        simp only [Bool.false_eq_true, if_false]
        exact insertsOnlyBefore_mono al p1 q1 k1 _ 0 _ (Nat.zero_le _) ih
    · rw [hr, insertsOnlyBefore_cons_cons]
      exact ⟨h.1, ih⟩

/-- After the pass no place is left where it would put a blank. -/
theorem insertsOnlyBefore_self (al p q : Char → Bool) (k : Nat) (hp : p ' ' = false)
    (hq : q ' ' = false) : ∀ (s : Str) (n : Nat),
    InsertsOnlyBefore al p q k n (insertAfterRun p q k n s)
  | [], n => by rw [insertAfterRun_nil]; exact insertsOnlyBefore_nil _ _ _ _ _
  | [x], n => by rw [insertAfterRun_single]; exact insertsOnlyBefore_single _ _ _ _ _ _
  | x :: y :: t, n => by
    have ih := insertsOnlyBefore_self al p q k hp hq (y :: t) (if p x = true then n + 1 else 0)
    obtain ⟨r, hr⟩ := insertAfterRun_cons p q k (if p x = true then n + 1 else 0) y t
    rw [hr] at ih
    rw [insertAfterRun_cons_cons]
    split
    · rw [hr, insertsOnlyBefore_cons_cons, insertsOnlyBefore_cons_cons]
      refine ⟨fun hc => ?_, fun hc => ?_, ?_⟩
      · rw [hq] at hc
        exact absurd hc.2.1 (by decide)
      · rw [hp] at hc
        exact absurd hc.1 (by decide)
      · rw [hp]
        simp only [Bool.false_eq_true, if_false]
        exact insertsOnlyBefore_mono al p q k _ 0 _ (Nat.zero_le _) ih
    · next hc =>
      rw [hr, insertsOnlyBefore_cons_cons]
      exact ⟨fun h => absurd h hc, ih⟩

/-- Where the pass finds no place for a blank it returns the text. -/
theorem insertAfterRun_eq_self (p q : Char → Bool) (k : Nat) : ∀ (s : Str) (n : Nat),
    InsertsOnlyBefore (fun _ => false) p q k n s → insertAfterRun p q k n s = s
  | [], n, _ => insertAfterRun_nil _ _ _ _
  | [x], n, _ => insertAfterRun_single _ _ _ _ _
  | x :: y :: t, n, h => by
    rw [insertsOnlyBefore_cons_cons] at h
    have hc : ¬(p x = true ∧ q y = true ∧ k ≤ n + 1) := fun hc => by
      have := h.1 hc
      simp at this
    rw [insertAfterRun_cons_cons, if_neg hc, insertAfterRun_eq_self p q k (y :: t) _ h.2]

theorem dropWhile_insertAfterRun (p q : Char → Bool) (k : Nat)
    (hw : ∀ ch, isReSpace ch = true → p ch = false) : ∀ (s : Str) (n : Nat),
    ((insertAfterRun p q k n s).dropWhile isReSpace).head? = (s.dropWhile isReSpace).head?
  | [], n => by rw [insertAfterRun_nil]
  | x :: t, n => by
    by_cases hx : isReSpace x = true
    · rw [insertAfterRun_of_not p q k n x t (hw x hx), List.dropWhile_cons_of_pos hx,
        List.dropWhile_cons_of_pos hx]
      exact dropWhile_insertAfterRun p q k hw t 0
    · obtain ⟨r, hr⟩ := insertAfterRun_cons p q k n x t
      rw [hr, List.dropWhile_cons_of_neg hx, List.dropWhile_cons_of_neg hx]
      rfl

theorem dropBeforeClose_cons_of_not (x : Char) (t : Str) (hx : isReSpace x = false) :
    dropBeforeClose (x :: t) = x :: dropBeforeClose t := by
  rw [dropBeforeClose, if_neg]
  rintro ⟨h, _⟩
  rw [hx] at h
  cases h

/-- Blanks that a pass puts in front of `)` only are dropped again by
`dropBeforeClose`. -/
theorem dropBeforeClose_insertAfterRun (p q : Char → Bool) (k : Nat)
    (hw : ∀ ch, isReSpace ch = true → p ch = false) : ∀ (s : Str) (n : Nat),
    InsertsOnlyBefore (fun ch => decide (ch = ')')) p q k n s →
      dropBeforeClose (insertAfterRun p q k n s) = dropBeforeClose s
  | [], n, _ => by rw [insertAfterRun_nil]
  | [x], n, _ => by rw [insertAfterRun_single]
  | x :: y :: t, n, h => by
    rw [insertsOnlyBefore_cons_cons] at h
    have ih := dropBeforeClose_insertAfterRun p q k hw (y :: t) _ h.2
    have hd := dropWhile_insertAfterRun p q k hw (y :: t) (if p x = true then n + 1 else 0)
    obtain ⟨r, hr⟩ := insertAfterRun_cons p q k (if p x = true then n + 1 else 0) y t
    rw [insertAfterRun_cons_cons]
    split
    · next hc =>
      have hy : y = ')' := by simpa using h.1 hc
      have hx : isReSpace x = false := by
        cases hws : isReSpace x
        · rfl
        · have := hw x hws
          rw [hc.1] at this
          cases this
      subst hy
      rw [dropBeforeClose_cons_of_not x _ hx, dropBeforeClose_cons_of_not x _ hx, ← ih, hr]
      have := dropBeforeClose_run r [' '] (by decide)
      simp only [List.singleton_append] at this
      rw [this, dropBeforeClose_cons_of_not ')' r (by decide)]
    · rw [dropBeforeClose, dropBeforeClose, hd, ih]

/-! ## What the dropping passes keep -/

theorem dropAfterOpen_nil (b : Bool) : dropAfterOpen b [] = [] := by
  unfold dropAfterOpen
  rfl

theorem dropAfterOpen_head (s : Str) : (dropAfterOpen false s).head? = s.head? := by
  cases s with
  | nil => rw [dropAfterOpen_nil]
  | cons x t => rw [dropAfterOpen_false_cons]; rfl

/-- A relation between neighbours that holds between `(` and any character holds on
the text after the pass as before. -/
theorem chain_dropAfterOpen (R : Char → Char → Prop) (hR : ∀ z, R '(' z) :
    ∀ (s : Str) (b : Bool), List.Chain' R s → List.Chain' R (dropAfterOpen b s)
  | [], b, _ => by rw [dropAfterOpen_nil]; exact List.chain'_nil
  | x :: t, b, h => by
    have ih := fun b1 => chain_dropAfterOpen R hR t b1 (List.Chain'.tail h)
    by_cases hb : b = true ∧ isReSpace x = true
    · rw [dropAfterOpen, if_pos hb]
      exact ih true
    · rw [dropAfterOpen, if_neg hb]
      refine List.chain'_cons'.mpr ⟨?_, ih _⟩
      intro y hy
      by_cases hx : x = '('
      · rw [hx]
        exact hR y
      · simp only [hx, decide_False] at hy
        rw [dropAfterOpen_head] at hy
        exact (List.chain'_cons'.mp h).1 y hy

theorem dropAfterOpen_getLast : ∀ (s : Str) (b : Bool),
    (∀ x ∈ s.getLast?, isReSpace x = false) → (dropAfterOpen b s).getLast? = s.getLast?
  | [], b, _ => by rw [dropAfterOpen_nil]
  | [x], b, h => by
    have hx : isReSpace x = false := h x (by simp)
    rw [dropAfterOpen, if_neg (fun hb => by rw [hx] at hb; exact absurd hb.2 (by decide)),
      dropAfterOpen_nil]
  | x :: y :: t, b, h => by
    have h1 : ∀ z ∈ (y :: t).getLast?, isReSpace z = false := by
      intro z hz
      exact h z (by rw [List.getLast?_cons_cons]; exact hz)
    have ih := fun b1 => dropAfterOpen_getLast (y :: t) b1 h1
    by_cases hb : b = true ∧ isReSpace x = true
    · rw [dropAfterOpen, if_pos hb, ih true, List.getLast?_cons_cons]
    · rw [dropAfterOpen, if_neg hb]
      have ih1 := ih (decide (x = '('))
      cases hD : dropAfterOpen (decide (x = '(')) (y :: t) with
      | nil =>
        exfalso
        rw [hD] at ih1
        have h2 : ((y :: t).getLast?).isSome = true := by
          rw [List.getLast?_isSome]
          simp
        rw [← ih1] at h2
        simp at h2
      | cons a r =>
        rw [hD] at ih1
        rw [List.getLast?_cons_cons, List.getLast?_cons_cons, ih1]

/-- After the pass no white space follows a `(`. -/
theorem dropAfterOpen_chain : ∀ (s : Str) (b : Bool),
    List.Chain' (fun x y => ¬(x = '(' ∧ isReSpace y = true)) (dropAfterOpen b s)
      ∧ (b = true → ∀ y ∈ (dropAfterOpen b s).head?, isReSpace y = false)
  | [], b => by
    rw [dropAfterOpen_nil]
    exact ⟨List.chain'_nil, fun _ y hy => by simp at hy⟩
  | x :: t, b => by
    have ih := fun b1 => dropAfterOpen_chain t b1
    by_cases hb : b = true ∧ isReSpace x = true
    · rw [dropAfterOpen, if_pos hb]
      exact ⟨(ih true).1, fun _ => (ih true).2 rfl⟩
    · rw [dropAfterOpen, if_neg hb]
      constructor
      · refine List.chain'_cons'.mpr ⟨?_, (ih _).1⟩
        rintro y hy ⟨hx, hws⟩
        have := (ih (decide (x = '('))).2 (by simp [hx]) y hy
        rw [hws] at this
        cases this
      · intro hbt y hy
        simp only [List.head?_cons, Option.mem_def, Option.some.injEq] at hy
        subst hy
        cases hws : isReSpace x
        · rfl
        · exact absurd ⟨hbt, hws⟩ hb

theorem insertsOnlyBefore_dropAfterOpen (al p q : Char → Bool) (k : Nat) (hp : p '(' = false)
    (hw : ∀ ch, isReSpace ch = true → p ch = false) : ∀ (s : Str) (n : Nat) (b : Bool),
    InsertsOnlyBefore al p q k n s → (b = true → n = 0) →
      InsertsOnlyBefore al p q k n (dropAfterOpen b s)
  | [], n, b, _, _ => by rw [dropAfterOpen_nil]; exact insertsOnlyBefore_nil _ _ _ _ _
  | x :: t, n, b, h, hn => by
    have hrest := insertsOnlyBefore_rest al p q k n x t h
    by_cases hb : b = true ∧ isReSpace x = true
    · rw [dropAfterOpen, if_pos hb]
      have hn0 := hn hb.1
      subst hn0
      rw [hw x hb.2] at hrest
      simp only [Bool.false_eq_true, if_false] at hrest
      exact insertsOnlyBefore_dropAfterOpen al p q k hp hw t 0 true hrest (fun _ => rfl)
    · rw [dropAfterOpen, if_neg hb]
      have ihD := insertsOnlyBefore_dropAfterOpen al p q k hp hw t
        (if p x = true then n + 1 else 0) (decide (x = '(')) hrest (by
          intro hx
          have hx1 : x = '(' := by simpa using hx
          rw [hx1, hp]
          rfl)
      cases hD : dropAfterOpen (decide (x = '(')) t with
      | nil => exact insertsOnlyBefore_single _ _ _ _ _ _
      | cons z r =>
        rw [hD] at ihD
        rw [insertsOnlyBefore_cons_cons]
        refine ⟨?_, ihD⟩
        intro hc
        have hx : x ≠ '(' := by
          rintro rfl
          rw [hp] at hc
          exact absurd hc.1 (by decide)
        simp only [hx, decide_False] at hD
        have hh := dropAfterOpen_head t
        rw [hD] at hh
        cases t with
        | nil => simp at hh
        | cons y t1 =>
          simp only [List.head?_cons, Option.some.injEq] at hh
          subst hh
          exact ((insertsOnlyBefore_cons_cons al p q k n x z t1).mp h).1 hc

/-- Where no white space follows a `(` the pass returns the text. -/
theorem dropAfterOpen_eq_self : ∀ (s : Str) (b : Bool),
    List.Chain' (fun x y => ¬(x = '(' ∧ isReSpace y = true)) s →
    (b = true → ∀ y ∈ s.head?, isReSpace y = false) → dropAfterOpen b s = s
  | [], b, _, _ => dropAfterOpen_nil b
  | x :: t, b, h, hb => by
    have hc : ¬(b = true ∧ isReSpace x = true) := by
      rintro ⟨h1, h2⟩
      have := hb h1 x (by simp)
      rw [h2] at this
      cases this
    rw [dropAfterOpen, if_neg hc, dropAfterOpen_eq_self t _ (List.Chain'.tail h)]
    intro hx y hy
    have hx1 : x = '(' := by simpa using hx
    have := (List.chain'_cons'.mp h).1 y hy
    cases hws : isReSpace y
    · rfl
    · exact absurd ⟨hx1, hws⟩ this

theorem dropBeforeClose_of_close (s : Str)
    (h : (s.dropWhile isReSpace).head? = some ')') : ∃ r, dropBeforeClose s = ')' :: r := by
  have e : s = s.takeWhile isReSpace ++ s.dropWhile isReSpace :=
    (List.takeWhile_append_dropWhile _ _).symm
  cases hD : s.dropWhile isReSpace with
  | nil => rw [hD] at h; simp at h
  | cons y rest =>
    rw [hD] at h e
    simp only [List.head?_cons, Option.some.injEq] at h
    subst h
    refine ⟨dropBeforeClose rest, ?_⟩
    rw [e]
    exact dropBeforeClose_run rest _ (fun ch hch => List.mem_takeWhile_imp hch)

theorem dropBeforeClose_head : ∀ (s : Str), ∀ y ∈ (dropBeforeClose s).head?,
    y = ')' ∨ y ∈ s.head?
  | [], y, hy => by simp [dropBeforeClose] at hy
  | x :: t, y, hy => by
    by_cases hc : isReSpace x = true ∧ (t.dropWhile isReSpace).head? = some ')'
    · obtain ⟨r, hr⟩ := dropBeforeClose_of_close (x :: t) (by
        rw [List.dropWhile_cons_of_pos hc.1]
        exact hc.2)
      rw [hr] at hy
      simp only [List.head?_cons, Option.mem_def, Option.some.injEq] at hy
      exact Or.inl hy.symm
    · rw [dropBeforeClose, if_neg hc] at hy
      exact Or.inr hy

/-- A relation between neighbours that holds between any character and `)` holds on
the text after the pass if it did before. -/
theorem chain_dropBeforeClose (R R1 : Char → Char → Prop) (h1 : ∀ x y, R x y → R1 x y)
    (h2 : ∀ w, R1 w ')') : ∀ (s : Str), List.Chain' R s → List.Chain' R1 (dropBeforeClose s)
  | [], _ => by
    have : dropBeforeClose [] = [] := rfl
    rw [this]
    exact List.chain'_nil
  | x :: t, h => by
    have ih := chain_dropBeforeClose R R1 h1 h2 t (List.Chain'.tail h)
    by_cases hc : isReSpace x = true ∧ (t.dropWhile isReSpace).head? = some ')'
    · rw [dropBeforeClose, if_pos hc]
      exact ih
    · rw [dropBeforeClose, if_neg hc]
      refine List.chain'_cons'.mpr ⟨?_, ih⟩
      intro y hy
      rcases dropBeforeClose_head t y hy with e | hm
      · rw [e]
        exact h2 x
      · exact h1 _ _ ((List.chain'_cons'.mp h).1 y hm)

theorem dropBeforeClose_getLast : ∀ (s : Str),
    (∀ x ∈ s.getLast?, isReSpace x = false) → (dropBeforeClose s).getLast? = s.getLast?
  | [], _ => rfl
  | [x], h => by
    have hx : isReSpace x = false := h x (by simp)
    rw [dropBeforeClose_cons_of_not x [] hx]
    rfl
  | x :: y :: t, h => by
    have h1 : ∀ z ∈ (y :: t).getLast?, isReSpace z = false := by
      intro z hz
      exact h z (by rw [List.getLast?_cons_cons]; exact hz)
    have ih := dropBeforeClose_getLast (y :: t) h1
    by_cases hc : isReSpace x = true ∧ ((y :: t).dropWhile isReSpace).head? = some ')'
    · rw [dropBeforeClose, if_pos hc, ih, List.getLast?_cons_cons]
    · rw [dropBeforeClose, if_neg hc]
      cases hD : dropBeforeClose (y :: t) with
      | nil =>
        exfalso
        rw [hD] at ih
        have : ((y :: t).getLast?).isSome = true := by
          rw [List.getLast?_isSome]
          simp
        rw [← ih] at this
        simp at this
      | cons a r =>
        rw [hD] at ih
        rw [List.getLast?_cons_cons, List.getLast?_cons_cons, ih]

theorem close_of_dropBeforeClose : ∀ (t : Str), (dropBeforeClose t).head? = some ')' →
    (t.dropWhile isReSpace).head? = some ')'
  | [], h => by simp [dropBeforeClose] at h
  | z :: t, h => by
    by_cases hc : isReSpace z = true ∧ (t.dropWhile isReSpace).head? = some ')'
    · rw [List.dropWhile_cons_of_pos hc.1]
      exact hc.2
    · rw [dropBeforeClose, if_neg hc] at h
      simp only [List.head?_cons, Option.some.injEq] at h
      subst h
      rfl

/-- After the pass no white space stands before a `)`. -/
theorem dropBeforeClose_chain : ∀ (s : Str),
    List.Chain' (fun x y => ¬(isReSpace x = true ∧ y = ')')) (dropBeforeClose s)
  | [] => by
    have : dropBeforeClose [] = [] := rfl
    rw [this]
    exact List.chain'_nil
  | x :: t => by
    have ih := dropBeforeClose_chain t
    by_cases hc : isReSpace x = true ∧ (t.dropWhile isReSpace).head? = some ')'
    · rw [dropBeforeClose, if_pos hc]
      exact ih
    · rw [dropBeforeClose, if_neg hc]
      refine List.chain'_cons'.mpr ⟨?_, ih⟩
      rintro y hy ⟨hx, rfl⟩
      exact hc ⟨hx, close_of_dropBeforeClose t hy⟩

theorem insertsOnlyBefore_counter_one (al p q : Char → Bool) (k : Nat) (hk : k ≤ 1) :
    ∀ (s : Str) (n1 n2 : Nat), InsertsOnlyBefore al p q k n1 s → InsertsOnlyBefore al p q k n2 s
  | [], _, _, _ => insertsOnlyBefore_nil _ _ _ _ _
  | [x], _, _, _ => insertsOnlyBefore_single _ _ _ _ _ _
  | x :: y :: t, n1, n2, h => by
    rw [insertsOnlyBefore_cons_cons] at h ⊢
    exact ⟨fun hc => h.1 ⟨hc.1, hc.2.1, by omega⟩,
      insertsOnlyBefore_counter_one al p q k hk (y :: t) _ _ h.2⟩

theorem insertsOnlyBefore_counter (al p q : Char → Bool) (k : Nat) (x : Char) (t : Str)
    (n1 n2 : Nat) (hk : k ≤ 1 ∨ p x = false) (h : InsertsOnlyBefore al p q k n1 (x :: t)) :
    InsertsOnlyBefore al p q k n2 (x :: t) := by
  rcases hk with hk | hx
  · exact insertsOnlyBefore_counter_one al p q k hk _ _ _ h
  · cases t with
    | nil => exact insertsOnlyBefore_single _ _ _ _ _ _
    | cons y t =>
      rw [insertsOnlyBefore_cons_cons] at h ⊢
      rw [hx] at h ⊢
      simp only [Bool.false_eq_true, if_false, false_and, false_implies, true_and] at h ⊢
      exact h

/-- The pass makes new places for a blank in front of `)` only. -/
theorem insertsOnlyBefore_dropBeforeClose (al al1 p q : Char → Bool) (k : Nat)
    (hal : ∀ y, al y = true → al1 y = true) (hc1 : al1 ')' = true)
    (hw : ∀ ch, isReSpace ch = true → p ch = false) (hk : k ≤ 1 ∨ p ')' = false) :
    ∀ (s : Str) (n : Nat), InsertsOnlyBefore al p q k n s →
      InsertsOnlyBefore al1 p q k n (dropBeforeClose s)
  | [], n, _ => insertsOnlyBefore_nil _ _ _ _ _
  | x :: t, n, h => by
    have hrest := insertsOnlyBefore_rest al p q k n x t h
    by_cases hc : isReSpace x = true ∧ (t.dropWhile isReSpace).head? = some ')'
    · rw [dropBeforeClose, if_pos hc]
      rw [hw x hc.1] at hrest
      simp only [Bool.false_eq_true, if_false] at hrest
      have ih := insertsOnlyBefore_dropBeforeClose al al1 p q k hal hc1 hw hk t 0 hrest
      obtain ⟨r, hr⟩ := dropBeforeClose_of_close t hc.2
      rw [hr] at ih ⊢
      exact insertsOnlyBefore_counter al1 p q k ')' r 0 n hk ih
    · rw [dropBeforeClose, if_neg hc]
      have ihD := insertsOnlyBefore_dropBeforeClose al al1 p q k hal hc1 hw hk t _ hrest
      cases hD : dropBeforeClose t with
      | nil => exact insertsOnlyBefore_single _ _ _ _ _ _
      | cons z r =>
        rw [hD] at ihD
        rw [insertsOnlyBefore_cons_cons]
        refine ⟨?_, ihD⟩
        intro hcz
        rcases dropBeforeClose_head t z (by rw [hD]; rfl) with e | hm
        · rw [e]
          exact hc1
        · cases t with
          | nil => simp at hm
          | cons y t1 =>
            simp only [List.head?_cons, Option.mem_def, Option.some.injEq] at hm
            subst hm
            exact hal _ (((insertsOnlyBefore_cons_cons al p q k n x y t1).mp h).1 hcz)

theorem close_first_of_chain : ∀ (s : Str),
    List.Chain' (fun x y => ¬(isReSpace x = true ∧ y = ')')) s →
    (s.dropWhile isReSpace).head? = some ')' → s.head? = some ')'
  | [], _, h => by simp at h
  | a :: s, hch, h => by
    by_cases ha : isReSpace a = true
    · exfalso
      rw [List.dropWhile_cons_of_pos ha] at h
      have := close_first_of_chain s (List.Chain'.tail hch) h
      exact (List.chain'_cons'.mp hch).1 ')' this ⟨ha, rfl⟩
    · rw [List.dropWhile_cons_of_neg ha] at h
      exact h

/-- Where no white space stands before a `)` the pass returns the text. -/
theorem dropBeforeClose_eq_self : ∀ (s : Str),
    List.Chain' (fun x y => ¬(isReSpace x = true ∧ y = ')')) s → dropBeforeClose s = s
  | [], _ => rfl
  | x :: t, h => by
    have hc : ¬(isReSpace x = true ∧ (t.dropWhile isReSpace).head? = some ')') := by
      rintro ⟨hx, hd⟩
      have := close_first_of_chain (x :: t) h (by rw [List.dropWhile_cons_of_pos hx]; exact hd)
      simp only [List.head?_cons, Option.some.injEq] at this
      rw [this] at hx
      exact absurd hx (by decide)
    rw [dropBeforeClose, if_neg hc, dropBeforeClose_eq_self t (List.Chain'.tail h)]

/-! ## The text `prepareExpression` returns -/

theorem reSpace_isSpace {ch : Char} (h : isReSpace ch = true) : isSpace ch = true := by
  simp only [isSpace, isReSpace, char_eq_iff, ne_eq] at *
  simp at *
  omega

theorem not_reSpace_of_not_space {ch : Char} (h : isSpace ch = false) : isReSpace ch = false := by
  cases hw : isReSpace ch
  · rfl
  · rw [reSpace_isSpace hw] at h
    cases h

theorem opNoMinus_facts {x : Char} (hx : isOpNoMinus x = true) :
    isOperandChar x = false ∧ isReSpace x = false ∧ x ≠ ' ' ∧ x ≠ '(' ∧ x ≠ ')' := by
  simp only [isOpNoMinus, isOperandChar, isReSpace, isLetter, isDigit, char_eq_iff, ne_eq] at *
  simp at *
  omega

theorem operandChar_facts {x : Char} (hx : isOperandChar x = true) :
    isOpChar x = false ∧ isReSpace x = false ∧ x ≠ ' ' ∧ x ≠ '(' ∧ x ≠ '-' := by
  simp only [isOpChar, isOperandChar, isReSpace, isLetter, isDigit, char_eq_iff, ne_eq] at *
  simp at *
  omega

theorem opChar_facts {x : Char} (hx : isOpChar x = true) :
    isReSpace x = false ∧ x ≠ ' ' ∧ x ≠ '(' ∧ x ≠ ')' := by
  simp only [isOpChar, isReSpace, char_eq_iff, ne_eq] at *
  simp at *
  omega

theorem reSpace_not_opNoMinus (ch : Char) (h : isReSpace ch = true) : isOpNoMinus ch = false := by
  cases hp : isOpNoMinus ch
  · rfl
  · rw [(opNoMinus_facts hp).2.1] at h
    cases h

theorem reSpace_not_operandChar (ch : Char) (h : isReSpace ch = true) :
    isOperandChar ch = false := by
  cases hp : isOperandChar ch
  · rfl
  · rw [(operandChar_facts hp).2.1] at h
    cases h

theorem reSpace_not_minus (ch : Char) (h : isReSpace ch = true) :
    (fun ch => decide (ch = '-')) ch = false := by
  simp only [decide_eq_false_iff_not]
  rintro rfl
  exact absurd h (by decide)

theorem head_dropWhile_false (p : Char → Bool) : ∀ (l : Str), ∀ x ∈ (l.dropWhile p).head?,
    p x = false
  | [], x, hx => by simp at hx
  | a :: l, x, hx => by
    by_cases ha : p a = true
    · rw [List.dropWhile_cons_of_pos ha] at hx
      exact head_dropWhile_false p l x hx
    · rw [List.dropWhile_cons_of_neg ha] at hx
      simp only [List.head?_cons, Option.mem_def, Option.some.injEq] at hx
      subst hx
      simpa using ha

theorem getLast_dropWhile (p : Char → Bool) : ∀ (l : Str), ∀ x ∈ (l.dropWhile p).getLast?,
    x ∈ l.getLast?
  | [], x, hx => by simp at hx
  | a :: l, x, hx => by
    by_cases ha : p a = true
    · rw [List.dropWhile_cons_of_pos ha] at hx
      have ih := getLast_dropWhile p l x hx
      cases l with
      | nil => simp at ih
      | cons b r =>
        rw [List.getLast?_cons_cons]
        exact ih
    · rw [List.dropWhile_cons_of_neg ha] at hx
      exact hx

/-- The result of `strings.TrimSpace` neither starts nor ends with white space. -/
theorem trimSpace_ends (s : Str) :
    (∀ x ∈ (trimSpace s).head?, isSpace x = false)
      ∧ ∀ x ∈ (trimSpace s).getLast?, isSpace x = false := by
  unfold trimSpace
  constructor
  · intro x hx
    rw [List.head?_reverse] at hx
    have h1 := getLast_dropWhile isSpace _ x hx
    rw [List.getLast?_reverse] at h1
    exact head_dropWhile_false isSpace s x h1
  · intro x hx
    rw [List.getLast?_reverse] at hx
    exact head_dropWhile_false isSpace _ x hx

theorem trimSpace_trimSpace (s : Str) : trimSpace (trimSpace s) = trimSpace s :=
  trimSpace_eq_self (trimSpace_ends s).1 (trimSpace_ends s).2

theorem replaceDoubleSpace_head : ∀ (s : Str), (replaceDoubleSpace s).head? = s.head?
  | [] => rfl
  | [_] => rfl
  | a :: b :: t => by
    rw [replaceDoubleSpace]
    split
    · next h => rw [h.1]; rfl
    · rfl

theorem replaceDoubleSpace_getLast : ∀ (s : Str), (∀ x ∈ s.getLast?, x ≠ ' ') →
    (replaceDoubleSpace s).getLast? = s.getLast?
  | [], _ => rfl
  | [_], _ => rfl
  | [a, b], h => by
    have hb : b ≠ ' ' := h b (by simp)
    rw [replaceDoubleSpace, if_neg (fun hc => hb hc.2)]
    rfl
  | a :: b :: c :: t, h => by
    have h1 : ∀ x ∈ (b :: c :: t).getLast?, x ≠ ' ' := by
      intro x hx
      exact h x (by rw [List.getLast?_cons_cons]; exact hx)
    have h2 : ∀ x ∈ (c :: t).getLast?, x ≠ ' ' := by
      intro x hx
      exact h1 x (by rw [List.getLast?_cons_cons]; exact hx)
    rw [replaceDoubleSpace]
    split
    · have ih := replaceDoubleSpace_getLast (c :: t) h2
      have hhead := replaceDoubleSpace_head (c :: t)
      cases hD : replaceDoubleSpace (c :: t) with
      | nil => rw [hD] at hhead; simp at hhead
      | cons y r =>
        rw [hD] at ih
        rw [List.getLast?_cons_cons, ih, List.getLast?_cons_cons, List.getLast?_cons_cons]
    · have ih := replaceDoubleSpace_getLast (b :: c :: t) h1
      have hhead := replaceDoubleSpace_head (b :: c :: t)
      cases hD : replaceDoubleSpace (b :: c :: t) with
      | nil => rw [hD] at hhead; simp at hhead
      | cons y r =>
        rw [hD] at ih
        rw [List.getLast?_cons_cons, ih]
        exact List.getLast?_cons_cons.symm

theorem collapseSpaces_ends : ∀ (k : Nat) (s : Str), (∀ x ∈ s.getLast?, x ≠ ' ') →
    (collapseSpaces k s).head? = s.head? ∧ (collapseSpaces k s).getLast? = s.getLast?
  | 0, _, _ => ⟨rfl, rfl⟩
  | k + 1, s, h => by
    rw [collapseSpaces]
    split
    · have h1 := replaceDoubleSpace_getLast s h
      have ih := collapseSpaces_ends k (replaceDoubleSpace s) (by rw [h1]; exact h)
      exact ⟨by rw [ih.1, replaceDoubleSpace_head], by rw [ih.2, h1]⟩
    · exact ⟨rfl, rfl⟩

theorem chain_of_no_double_space : ∀ (s : Str), containsDoubleSpace s = false →
    List.Chain' (fun x y => ¬(x = ' ' ∧ y = ' ')) s
  | [], _ => List.chain'_nil
  | [_], _ => List.chain'_singleton _
  | a :: b :: t, h => by
    simp only [containsDoubleSpace, Bool.or_eq_false_iff, Bool.and_eq_false_iff,
      decide_eq_false_iff_not] at h
    refine List.chain'_cons.mpr ⟨?_, chain_of_no_double_space (b :: t) h.2⟩
    rintro ⟨ha, hb⟩
    rcases h.1 with h1 | h1
    · exact h1 ha
    · exact h1 hb

theorem no_double_space_of_chain : ∀ (s : Str),
    List.Chain' (fun x y => ¬(x = ' ' ∧ y = ' ')) s → containsDoubleSpace s = false
  | [], _ => rfl
  | [_], _ => rfl
  | a :: b :: t, h => by
    obtain ⟨h1, h2⟩ := List.chain'_cons.mp h
    simp only [containsDoubleSpace, Bool.or_eq_false_iff, Bool.and_eq_false_iff,
      decide_eq_false_iff_not]
    refine ⟨?_, no_double_space_of_chain (b :: t) h2⟩
    by_cases ha : a = ' '
    · exact Or.inr (fun hb => h1 ⟨ha, hb⟩)
    · exact Or.inl ha

theorem collapseSpaces_of_no_double (k : Nat) (s : Str) (h : containsDoubleSpace s = false) :
    collapseSpaces k s = s := by
  cases k with
  | zero => rfl
  | succ k => simp [collapseSpaces, h]

theorem dropBeforeClose_head_eq (s : Str) (h : ∀ x ∈ s.head?, isReSpace x = false) :
    (dropBeforeClose s).head? = s.head? := by
  cases s with
  | nil => rfl
  | cons x t => rw [dropBeforeClose_cons_of_not x t (h x (by simp))]; rfl

/-! ## Normalized text is what `prepareExpression` returns and leaves alone -/

/-- The passes of `prepareExpression` after the collapsing of blanks turn text without
white space at its ends and without two blanks in a row into normalized text. -/
theorem normalized_passes (s1 : Str) (hfirst : ∀ x ∈ s1.head?, isSpace x = false ∧ x ≠ '/')
    (hlast : ∀ x ∈ s1.getLast?, isSpace x = false)
    (hbl : List.Chain' (fun x y => ¬(x = ' ' ∧ y = ' ')) s1) :
    Normalized (dropBeforeClose (dropAfterOpen false
      (insertAfterRun (fun ch => decide (ch = '-')) isOperandChar 2 0
        (insertAfterRun isOperandChar isOpChar 1 0
          (insertAfterRun isOpNoMinus isOperandChar 1 0 s1))))) := by
  have hb1 : isOpNoMinus ' ' = false := by decide
  have hb2 : isOperandChar ' ' = false := by decide
  have hb3 : isOpChar ' ' = false := by decide
  have hb4 : (fun ch => decide (ch = '-')) ' ' = false := by decide
  have ho1 : isOpNoMinus '(' = false := by decide
  have ho2 : isOperandChar '(' = false := by decide
  have ho4 : (fun ch => decide (ch = '-')) '(' = false := by decide
  have hc4 : (fun ch => decide (ch = '-')) ')' = false := by decide
  have hc1 : isOpNoMinus ')' = false := by decide
  have hcl : (fun ch => decide (ch = ')')) ')' = true := by decide
  have hfalse : ∀ y : Char, (fun _ => false) y = true → (fun ch => decide (ch = ')')) y = true :=
    fun y h => by simp at h
  have hh4 : (insertAfterRun (fun ch => decide (ch = '-')) isOperandChar 2 0
      (insertAfterRun isOperandChar isOpChar 1 0
        (insertAfterRun isOpNoMinus isOperandChar 1 0 s1))).head? = s1.head? := by
    rw [insertAfterRun_head, insertAfterRun_head, insertAfterRun_head]
  have hl4 : (insertAfterRun (fun ch => decide (ch = '-')) isOperandChar 2 0
      (insertAfterRun isOperandChar isOpChar 1 0
        (insertAfterRun isOpNoMinus isOperandChar 1 0 s1))).getLast? = s1.getLast? := by
    rw [insertAfterRun_getLast, insertAfterRun_getLast, insertAfterRun_getLast]
  generalize hs4 : insertAfterRun (fun ch => decide (ch = '-')) isOperandChar 2 0
      (insertAfterRun isOperandChar isOpChar 1 0
        (insertAfterRun isOpNoMinus isOperandChar 1 0 s1)) = s4 at hh4 hl4
  have hh5 : (dropAfterOpen false s4).head? = s1.head? := by rw [dropAfterOpen_head, hh4]
  have hl5 : (dropAfterOpen false s4).getLast? = s1.getLast? := by
    rw [dropAfterOpen_getLast s4 false
      (fun x hx => not_reSpace_of_not_space (hlast x (by rw [← hl4]; exact hx))), hl4]
  have hbl4 : List.Chain' (fun x y => ¬(x = ' ' ∧ y = ' ')) s4 := by
    rw [← hs4]
    apply chain_insertAfterRun
    · intro x y hx hy _
      have hx1 : x = '-' := by simpa using hx
      exact ⟨fun h => by rw [hx1] at h; exact absurd h.1 (by decide),
        fun h => (operandChar_facts hy).2.2.1 h.2⟩
    apply chain_insertAfterRun
    · intro x y hx hy _
      exact ⟨fun h => (operandChar_facts hx).2.2.1 h.1, fun h => (opChar_facts hy).2.1 h.2⟩
    apply chain_insertAfterRun
    · intro x y hx hy _
      exact ⟨fun h => (opNoMinus_facts hx).2.2.1 h.1, fun h => (operandChar_facts hy).2.2.1 h.2⟩
    exact hbl
  have hop4 : InsertsOnlyBefore (fun _ => false) isOpNoMinus isOperandChar 1 0 s4 := by
    rw [← hs4]
    apply insertsOnlyBefore_insertAfterRun _ _ _ _ _ _ _ hb1 hb2
    apply insertsOnlyBefore_insertAfterRun _ _ _ _ _ _ _ hb1 hb2
    exact insertsOnlyBefore_self _ _ _ _ hb1 hb2 _ _
  have hod4 : InsertsOnlyBefore (fun _ => false) isOperandChar isOpChar 1 0 s4 := by
    rw [← hs4]
    apply insertsOnlyBefore_insertAfterRun _ _ _ _ _ _ _ hb2 hb3
    exact insertsOnlyBefore_self _ _ _ _ hb2 hb3 _ _
  have hmi4 : InsertsOnlyBefore (fun _ => false) (fun ch => decide (ch = '-')) isOperandChar 2 0
      s4 := by
    rw [← hs4]
    exact insertsOnlyBefore_self _ _ _ _ hb4 hb2 _ _
  exact
    { first := fun x hx => by
        rw [dropBeforeClose_head_eq _ (fun y hy =>
          not_reSpace_of_not_space (hfirst y (by rw [← hh5]; exact hy)).1), hh5] at hx
        exact hfirst x hx
      last := fun x hx => by
        rw [dropBeforeClose_getLast _ (fun y hy =>
          not_reSpace_of_not_space (hlast y (by rw [← hl5]; exact hy))), hl5] at hx
        exact hlast x hx
      blanks :=
        chain_dropBeforeClose _ _ (fun _ _ h => h) (fun w h => absurd h.2 (by decide)) _
          (chain_dropAfterOpen _ (fun z h => absurd h.1 (by decide)) _ _ hbl4)
      afterOperator :=
        insertsOnlyBefore_dropBeforeClose _ _ _ _ _ hfalse hcl reSpace_not_opNoMinus
          (Or.inl (Nat.le_refl _)) _ _
          (insertsOnlyBefore_dropAfterOpen _ _ _ _ ho1 reSpace_not_opNoMinus _ _ _ hop4
            (fun h => absurd h (by decide)))
      afterOperand :=
        insertsOnlyBefore_weaken (fun ch => decide (ch = ')')) _ _ _ _
          (fun y hy hc => by
            have hy1 : y = ')' := by simpa using hc
            rw [hy1] at hy
            exact absurd hy (by decide)) _ _
          (insertsOnlyBefore_dropBeforeClose _ _ _ _ _ hfalse hcl reSpace_not_operandChar
            (Or.inl (Nat.le_refl _)) _ _
            (insertsOnlyBefore_dropAfterOpen _ _ _ _ ho2 reSpace_not_operandChar _ _ _ hod4
              (fun h => absurd h (by decide))))
      afterMinusRun :=
        insertsOnlyBefore_dropBeforeClose _ _ _ _ _ hfalse hcl reSpace_not_minus
          (Or.inr hc4) _ _
          (insertsOnlyBefore_dropAfterOpen _ _ _ _ ho4 reSpace_not_minus _ _ _ hmi4
            (fun h => absurd h (by decide)))
      afterOpen :=
        chain_dropBeforeClose _ _ (fun _ _ h => h) (fun w h => absurd h.2 (by decide)) _
          (dropAfterOpen_chain s4 false).1
      beforeClose := dropBeforeClose_chain _ }

/-- The function `prepareExpression` returns normalized text for every line that is no
command. -/
theorem normalized_prepareExpression (line : Str) (hcmd : (trimSpace line).head? ≠ some '/') :
    Normalized (prepareExpression line) := by
  rw [prepareExpression_passes, if_neg hcmd]
  have hends := trimSpace_ends line
  have hlast : ∀ x ∈ (trimSpace line).getLast?, x ≠ ' ' := by
    intro x hx hxe
    have := hends.2 x hx
    rw [hxe] at this
    exact absurd this (by decide)
  have hce := collapseSpaces_ends (trimSpace line).length (trimSpace line) hlast
  apply normalized_passes
  · intro x hx
    rw [hce.1] at hx
    refine ⟨hends.1 x hx, ?_⟩
    rintro rfl
    exact hcmd hx
  · intro x hx
    rw [hce.2] at hx
    exact hends.2 x hx
  · exact chain_of_no_double_space _ (collapseSpaces_complete _ _ (Nat.le_refl _))

/-- Normalized text is a fixed point of `prepareExpression`. -/
theorem prepareExpression_of_normalized {o : Str} (h : Normalized o) :
    prepareExpression o = o := by
  have hb1 : isOpNoMinus ' ' = false := by decide
  have hb2 : isOperandChar ' ' = false := by decide
  have hb3 : isOpChar ' ' = false := by decide
  have htrim : trimSpace o = o := trimSpace_eq_self (fun x hx => (h.first x hx).1) h.last
  have hhead : ¬ o.head? = some '/' := fun hh => (h.first '/' hh).2 rfl
  have hcol : collapseSpaces o.length o = o :=
    collapseSpaces_of_no_double _ _ (no_double_space_of_chain o h.blanks)
  have h2 : InsertsOnlyBefore (fun _ => false) isOperandChar isOpChar 1 0
      (insertAfterRun isOpNoMinus isOperandChar 1 0 o) :=
    insertsOnlyBefore_insertAfterRun _ _ _ _ _ _ _ hb2 hb3 _ _ _ h.afterOperand
  have h3 : InsertsOnlyBefore (fun ch => decide (ch = ')')) (fun ch => decide (ch = '-'))
      isOperandChar 2 0 (insertAfterRun isOpNoMinus isOperandChar 1 0 o) :=
    insertsOnlyBefore_insertAfterRun _ _ _ _ _ _ _ (by decide) hb2 _ _ _ h.afterMinusRun
  have h5 : List.Chain' (fun x y => ¬(x = '(' ∧ isReSpace y = true))
      (insertAfterRun (fun ch => decide (ch = '-')) isOperandChar 2 0
        (insertAfterRun isOpNoMinus isOperandChar 1 0 o)) := by
    apply chain_insertAfterRun
    · intro x y hx hy _
      have hx1 : x = '-' := by simpa using hx
      exact ⟨fun hc => by rw [hx1] at hc; exact absurd hc.1 (by decide),
        fun hc => absurd hc.1 (by decide)⟩
    apply chain_insertAfterRun
    · intro x y hx hy _
      exact ⟨fun hc => (opNoMinus_facts hx).2.2.2.1 hc.1, fun hc => absurd hc.1 (by decide)⟩
    exact h.afterOpen
  rw [prepareExpression_passes, htrim, if_neg hhead, hcol,
    insertAfterRun_eq_self _ _ _ _ _ h2,
    dropAfterOpen_eq_self _ false h5 (fun hf => absurd hf (by decide)),
    dropBeforeClose_insertAfterRun _ _ _ reSpace_not_minus _ _ h3,
    dropBeforeClose_insertAfterRun _ _ _ reSpace_not_opNoMinus _ _ h.afterOperator,
    dropBeforeClose_eq_self o h.beforeClose]

theorem prepareExpression_prepareExpression (line : Str) :
    prepareExpression (prepareExpression line) = prepareExpression line := by
  by_cases hcmd : (trimSpace line).head? = some '/'
  · have e : prepareExpression line = trimSpace line := by
      rw [prepareExpression_passes, if_pos hcmd]
    rw [e, prepareExpression_passes, trimSpace_trimSpace, if_pos hcmd]
  · exact prepareExpression_of_normalized (normalized_prepareExpression line hcmd)

/-! ## C14 and C15: spacing and idempotence of `prepareExpression` -/

theorem alphanumeric_facts {x : Char} (hx : isAlphanumeric x = true) :
    isOperandChar x = true ∧ isOpNoMinus x = false ∧ isOpChar x = false ∧ isSpace x = false
      ∧ x ≠ ' ' ∧ x ≠ '(' ∧ x ≠ ')' ∧ x ≠ '-' ∧ x ≠ '/' := by
  simp only [isAlphanumeric, isOperandChar, isOpNoMinus, isOpChar, isSpace, isLetter, isDigit,
    char_eq_iff, ne_eq] at *
  simp at *
  omega

theorem insertAfterRun_of_no_first (p q : Char → Bool) (k : Nat) : ∀ (s : Str) (n : Nat),
    (∀ ch ∈ s, p ch = false) → insertAfterRun p q k n s = s
  | [], n, _ => insertAfterRun_nil _ _ _ _
  | x :: t, n, h => by
    rw [insertAfterRun_of_not p q k n x t (h x (by simp)),
      insertAfterRun_of_no_first p q k t 0 (fun ch hch => h ch (List.mem_cons_of_mem _ hch))]

theorem insertAfterRun_of_no_second (p q : Char → Bool) (k : Nat) : ∀ (s : Str) (n : Nat),
    (∀ ch ∈ s, q ch = false) → insertAfterRun p q k n s = s
  | [], n, _ => insertAfterRun_nil _ _ _ _
  | [x], n, _ => insertAfterRun_single _ _ _ _ _
  | x :: y :: t, n, h => by
    have hy : q y = false := h y (by simp)
    rw [insertAfterRun_cons_cons, if_neg (fun hc => by rw [hy] at hc; exact absurd hc.2.1 (by decide)),
      insertAfterRun_of_no_second p q k (y :: t) _ (fun ch hch => h ch (List.mem_cons_of_mem _ hch))]

/-- A stretch without a character of `p` is copied. -/
theorem insertAfterRun_copy (p q : Char → Bool) (k : Nat) (rest : Str) : ∀ (a : Str) (n : Nat),
    a ≠ [] → (∀ ch ∈ a, p ch = false) →
    insertAfterRun p q k n (a ++ rest) = a ++ insertAfterRun p q k 0 rest
  | [], _, h, _ => absurd rfl h
  | [x], n, _, h => insertAfterRun_of_not p q k n x rest (h x (by simp))
  | x :: y :: t, n, _, h => by
    rw [List.cons_append, insertAfterRun_of_not p q k n x _ (h x (by simp)),
      insertAfterRun_copy p q k rest (y :: t) 0 (by simp)
        (fun ch hch => h ch (List.mem_cons_of_mem _ hch))]
    rfl

theorem dropAfterOpen_of_no_open : ∀ (s : Str), '(' ∉ s → dropAfterOpen false s = s
  | [], _ => dropAfterOpen_nil _
  | x :: t, h => by
    have hx : x ≠ '(' := fun hx => h (by simp [hx])
    rw [dropAfterOpen_false_cons]
    simp only [hx, decide_False]
    rw [dropAfterOpen_of_no_open t (fun ht => h (List.mem_cons_of_mem _ ht))]

theorem dropBeforeClose_of_no_close : ∀ (s : Str), ')' ∉ s → dropBeforeClose s = s
  | [], _ => rfl
  | x :: t, h => by
    have hc : ¬(isReSpace x = true ∧ (t.dropWhile isReSpace).head? = some ')') := by
      rintro ⟨_, hd⟩
      have h1 : ')' ∈ t.dropWhile isReSpace := List.mem_of_mem_head? hd
      exact h (List.mem_cons_of_mem _ ((List.dropWhile_sublist _).subset h1))
    rw [dropBeforeClose, if_neg hc,
      dropBeforeClose_of_no_close t (fun ht => h (List.mem_cons_of_mem _ ht))]

/-- The passes of `prepareExpression` on text that has no white space at its ends, no
blank and no parenthesis. -/
theorem prepareExpression_of_plain (s : Str) (hfirst : ∀ x ∈ s.head?, isSpace x = false ∧ x ≠ '/')
    (hlast : ∀ x ∈ s.getLast?, isSpace x = false) (hb : ' ' ∉ s) (ho : '(' ∉ s) (hc : ')' ∉ s) :
    prepareExpression s =
      insertAfterRun (fun ch => decide (ch = '-')) isOperandChar 2 0
        (insertAfterRun isOperandChar isOpChar 1 0
          (insertAfterRun isOpNoMinus isOperandChar 1 0 s)) := by
  have htrim : trimSpace s = s := trimSpace_eq_self (fun x hx => (hfirst x hx).1) hlast
  have hhead : ¬ s.head? = some '/' := fun hh => (hfirst '/' hh).2 rfl
  have hchain : ∀ t : Str, ' ' ∉ t → List.Chain' (fun x y => ¬(x = ' ' ∧ y = ' ')) t := by
    intro t
    induction t with
    | nil => intro _; exact List.chain'_nil
    | cons x t ih =>
      intro ht
      refine List.chain'_cons'.mpr ⟨fun y _ hxy => ht (by simp [hxy.1]), ?_⟩
      exact ih (fun h1 => ht (List.mem_cons_of_mem _ h1))
  have hcol : collapseSpaces s.length s = s :=
    collapseSpaces_of_no_double _ _ (no_double_space_of_chain s (hchain s hb))
  have hmem : ∀ (p q : Char → Bool) (k n : Nat) (c : Char) (t : Str), c ≠ ' ' → c ∉ t →
      c ∉ insertAfterRun p q k n t := by
    intro p q k n c t hcb
    induction t using List.rec generalizing n with
    | nil => intro _; rw [insertAfterRun_nil]; simp
    | cons x t ih =>
      intro ht
      have hx : c ≠ x := fun h1 => ht (by simp [h1])
      have ht1 : c ∉ t := fun h1 => ht (List.mem_cons_of_mem _ h1)
      cases t with
      | nil => rw [insertAfterRun_single]; simpa using hx
      | cons y t1 =>
        rw [insertAfterRun_cons_cons]
        split
        · simp only [List.mem_cons, not_or]
          exact ⟨hx, hcb, by simpa using ih _ ht1⟩
        · simp only [List.mem_cons, not_or]
          exact ⟨hx, by simpa using ih _ ht1⟩
  rw [prepareExpression_passes, htrim, if_neg hhead, hcol,
    dropAfterOpen_of_no_open _ (hmem _ _ _ _ _ _ (by decide)
      (hmem _ _ _ _ _ _ (by decide) (hmem _ _ _ _ _ _ (by decide) ho))),
    dropBeforeClose_of_no_close _ (hmem _ _ _ _ _ _ (by decide)
      (hmem _ _ _ _ _ _ (by decide) (hmem _ _ _ _ _ _ (by decide) hc)))]

theorem prepareExpression_glued (a b : Str) (op : Char) (hane : a ≠ [])
    (ha : ∀ ch ∈ a, isAlphanumeric ch = true) (hbne : b ≠ [])
    (hb : ∀ ch ∈ b, isAlphanumeric ch = true)
    (hop : op = '+' ∨ op = '*' ∨ op = '/' ∨ op = '=') :
    prepareExpression (a ++ op :: b) = a ++ ' ' :: op :: ' ' :: b := by
  have hop1 : isOpNoMinus op = true ∧ isOpChar op = true ∧ isOperandChar op = false
      ∧ isSpace op = false ∧ op ≠ ' ' ∧ op ≠ '(' ∧ op ≠ ')' ∧ op ≠ '-' := by
    rcases hop with rfl | rfl | rfl | rfl <;> decide
  obtain ⟨x, a1, rfl⟩ := List.exists_cons_of_ne_nil hane
  obtain ⟨y, b1, rfl⟩ := List.exists_cons_of_ne_nil hbne
  have hx := alphanumeric_facts (ha x (by simp))
  have hy := alphanumeric_facts (hb y (by simp))
  have hmem : ∀ c : Char, (∀ ch, isAlphanumeric ch = true → ch ≠ c) → op ≠ c →
      c ∉ (x :: a1) ++ op :: y :: b1 := by
    intro c hc hoc hm
    rcases List.mem_append.mp hm with h1 | h1
    · exact hc _ (ha _ h1) rfl
    · rcases List.mem_cons.mp h1 with h2 | h2
      · exact hoc h2.symm
      · exact hc _ (hb _ h2) rfl
  have hlast : ∀ z ∈ ((x :: a1) ++ op :: y :: b1).getLast?, isSpace z = false := by
    intro z hz
    rw [List.getLast?_append_of_ne_nil _ (by simp), List.getLast?_cons_cons] at hz
    exact (alphanumeric_facts (hb z (List.mem_of_mem_getLast? hz))).2.2.2.1
  rw [prepareExpression_of_plain _ (fun z hz => by
      simp only [List.cons_append, List.head?_cons, Option.mem_def, Option.some.injEq] at hz
      subst hz
      exact ⟨hx.2.2.2.1, hx.2.2.2.2.2.2.2.2⟩) hlast
    (hmem ' ' (fun ch h => (alphanumeric_facts h).2.2.2.2.1) hop1.2.2.2.2.1)
    (hmem '(' (fun ch h => (alphanumeric_facts h).2.2.2.2.2.1) hop1.2.2.2.2.2.1)
    (hmem ')' (fun ch h => (alphanumeric_facts h).2.2.2.2.2.2.1) hop1.2.2.2.2.2.2.1)]
  -- the blank after the operator
  have e1 : insertAfterRun isOpNoMinus isOperandChar 1 0 ((x :: a1) ++ op :: y :: b1)
      = (x :: a1) ++ op :: ' ' :: y :: b1 := by
    rw [insertAfterRun_copy _ _ _ _ _ _ (by simp) (fun ch hch => (alphanumeric_facts (ha ch hch)).2.1),
      insertAfterRun_cons_cons, if_pos ⟨hop1.1, hy.1, Nat.le_refl _⟩,
      insertAfterRun_of_no_first _ _ _ _ _ (fun ch hch => (alphanumeric_facts (hb ch hch)).2.1)]
  -- the blank before the operator
  have e2 : insertAfterRun isOperandChar isOpChar 1 0 ((x :: a1) ++ op :: ' ' :: y :: b1)
      = (x :: a1) ++ ' ' :: op :: ' ' :: y :: b1 := by
    rw [insertAfterRun_first isOperandChar isOpChar 1
        (fun ch h => (operandChar_facts h).1) op _ hop1.2.1 (x :: a1) 0
        (fun ch hch => (alphanumeric_facts (ha ch hch)).1) (by simp) (by simp),
      insertAfterRun_of_not _ _ _ _ op _ hop1.2.2.1,
      insertAfterRun_of_not _ _ _ _ ' ' _ (by decide),
      insertAfterRun_of_no_second _ _ _ _ _ (fun ch hch => (alphanumeric_facts (hb ch hch)).2.2.1)]
  have e3 : insertAfterRun (fun ch => decide (ch = '-')) isOperandChar 2 0
      ((x :: a1) ++ ' ' :: op :: ' ' :: y :: b1) = (x :: a1) ++ ' ' :: op :: ' ' :: y :: b1 := by
    apply insertAfterRun_of_no_first
    intro ch hch
    simp only [decide_eq_false_iff_not]
    rintro rfl
    rcases List.mem_append.mp hch with h1 | h1
    · exact (alphanumeric_facts (ha _ h1)).2.2.2.2.2.2.2.1 rfl
    · simp only [List.mem_cons] at h1
      rcases h1 with h2 | h2 | h2 | h2
      · exact absurd h2 (by decide)
      · exact hop1.2.2.2.2.2.2.2 h2.symm
      · exact absurd h2 (by decide)
      · exact (alphanumeric_facts (hb _ (List.mem_cons.mpr h2))).2.2.2.2.2.2.2.1 rfl
  rw [e1, e2, e3]

theorem prepareExpression_glued_minus (a b : Str) (hane : a ≠ [])
    (ha : ∀ ch ∈ a, isAlphanumeric ch = true) (hbne : b ≠ [])
    (hb : ∀ ch ∈ b, isAlphanumeric ch = true) :
    prepareExpression (a ++ '-' :: b) = a ++ ' ' :: '-' :: b := by
  obtain ⟨x, a1, rfl⟩ := List.exists_cons_of_ne_nil hane
  obtain ⟨y, b1, rfl⟩ := List.exists_cons_of_ne_nil hbne
  have hx := alphanumeric_facts (ha x (by simp))
  have hy := alphanumeric_facts (hb y (by simp))
  have hmem : ∀ c : Char, (∀ ch, isAlphanumeric ch = true → ch ≠ c) → '-' ≠ c →
      c ∉ (x :: a1) ++ '-' :: y :: b1 := by
    intro c hc hoc hm
    rcases List.mem_append.mp hm with h1 | h1
    · exact hc _ (ha _ h1) rfl
    · rcases List.mem_cons.mp h1 with h2 | h2
      · exact hoc h2.symm
      · exact hc _ (hb _ h2) rfl
  have hlast : ∀ z ∈ ((x :: a1) ++ '-' :: y :: b1).getLast?, isSpace z = false := by
    intro z hz
    rw [List.getLast?_append_of_ne_nil _ (by simp), List.getLast?_cons_cons] at hz
    exact (alphanumeric_facts (hb z (List.mem_of_mem_getLast? hz))).2.2.2.1
  rw [prepareExpression_of_plain _ (fun z hz => by
      simp only [List.cons_append, List.head?_cons, Option.mem_def, Option.some.injEq] at hz
      subst hz
      exact ⟨hx.2.2.2.1, hx.2.2.2.2.2.2.2.2⟩) hlast
    (hmem ' ' (fun ch h => (alphanumeric_facts h).2.2.2.2.1) (by decide))
    (hmem '(' (fun ch h => (alphanumeric_facts h).2.2.2.2.2.1) (by decide))
    (hmem ')' (fun ch h => (alphanumeric_facts h).2.2.2.2.2.2.1) (by decide))]
  -- the first pattern has no minus sign: nothing is put in after it
  have e1 : insertAfterRun isOpNoMinus isOperandChar 1 0 ((x :: a1) ++ '-' :: y :: b1)
      = (x :: a1) ++ '-' :: y :: b1 := by
    apply insertAfterRun_of_no_first
    intro ch hch
    rcases List.mem_append.mp hch with h1 | h1
    · exact (alphanumeric_facts (ha _ h1)).2.1
    · rcases List.mem_cons.mp h1 with h2 | h2
      · rw [h2]; decide
      · exact (alphanumeric_facts (hb _ h2)).2.1
  have e2 : insertAfterRun isOperandChar isOpChar 1 0 ((x :: a1) ++ '-' :: y :: b1)
      = (x :: a1) ++ ' ' :: '-' :: y :: b1 := by
    rw [insertAfterRun_first isOperandChar isOpChar 1
        (fun ch h => (operandChar_facts h).1) '-' _ (by decide) (x :: a1) 0
        (fun ch hch => (alphanumeric_facts (ha ch hch)).1) (by simp) (by simp),
      insertAfterRun_of_not _ _ _ _ '-' _ (by decide),
      insertAfterRun_of_no_second _ _ _ _ _ (fun ch hch => (alphanumeric_facts (hb ch hch)).2.2.1)]
  have hnm : ∀ ch ∈ y :: b1, (fun ch => decide (ch = '-')) ch = false := by
    intro ch hch
    simp only [decide_eq_false_iff_not]
    exact (alphanumeric_facts (hb _ hch)).2.2.2.2.2.2.2.1
  have e3 : insertAfterRun (fun ch => decide (ch = '-')) isOperandChar 2 0
      ((x :: a1) ++ ' ' :: '-' :: y :: b1) = (x :: a1) ++ ' ' :: '-' :: y :: b1 := by
    rw [insertAfterRun_copy _ _ _ _ _ _ (by simp) (fun ch hch => by
        simp only [decide_eq_false_iff_not]
        exact (alphanumeric_facts (ha _ hch)).2.2.2.2.2.2.2.1),
      insertAfterRun_of_not _ _ _ _ ' ' _ (by decide), insertAfterRun_cons_cons,
      if_neg (fun hc => absurd hc.2.2 (by decide)),
      insertAfterRun_of_no_first _ _ _ _ _ hnm]
  rw [e1, e2, e3]

/-- C14 fails as stated: `2-3` is prepared to `2 -3`, with no blank between the minus
sign and the operand after it. -/
theorem minus_stays_glued :
    prepareExpression "2-3".toList = "2 -3".toList
      ∧ prepareExpression "2-3".toList ≠ "2 - 3".toList := by
  decide

/-- C14 (as amended): for non-empty alphanumeric tokens `a` and `b`, `prepareExpression`
turns `a`, `op`, `b` written without blanks into `a`, blank, `op`, blank, `b` for each of
the operators `+`, `*`, `/` and `=`, and into `a`, blank, `-`, `b` for the operator `-`:
the pattern that puts a blank after an operator leaves the minus sign out. -/
theorem operator_spacing (a b : Str) (hane : a ≠ []) (ha : ∀ ch ∈ a, isAlphanumeric ch = true)
    (hbne : b ≠ []) (hb : ∀ ch ∈ b, isAlphanumeric ch = true) :
    (∀ op : Char, op = '+' ∨ op = '*' ∨ op = '/' ∨ op = '=' →
        prepareExpression (a ++ op :: b) = a ++ ' ' :: op :: ' ' :: b)
      ∧ prepareExpression (a ++ '-' :: b) = a ++ ' ' :: '-' :: b :=
  ⟨fun op hop => prepareExpression_glued a b op hane ha hbne hb hop,
    prepareExpression_glued_minus a b hane ha hbne hb⟩

/-- C14 (as amended) at `2+3`, `ab=c3` and `2-3`. -/
theorem operator_spacing_witness :
    prepareExpression ("2".toList ++ '+' :: "3".toList) = "2 + 3".toList
      ∧ prepareExpression ("ab".toList ++ '=' :: "c3".toList) = "ab = c3".toList
      ∧ prepareExpression ("2".toList ++ '-' :: "3".toList) = "2 -3".toList :=
  ⟨(operator_spacing "2".toList "3".toList (by decide) (by decide) (by decide) (by decide)).1 '+'
      (Or.inl rfl),
    (operator_spacing "ab".toList "c3".toList (by decide) (by decide) (by decide)
      (by decide)).1 '=' (Or.inr (Or.inr (Or.inr rfl))),
    (operator_spacing "2".toList "3".toList (by decide) (by decide) (by decide) (by decide)).2⟩

/-- C15: `prepareExpression` is idempotent: for every input line (commands, blank
lines and any other text), preparing the prepared line returns it unchanged; so for the
spec's example, `1 + 2` is returned as it is, the first time and the second. -/
theorem normalizer_idempotent (line : Str) :
    prepareExpression (prepareExpression line) = prepareExpression line
      ∧ prepareExpression "1 + 2".toList = "1 + 2".toList
      ∧ prepareExpression (prepareExpression "1 + 2".toList) = "1 + 2".toList :=
  ⟨prepareExpression_prepareExpression line, by decide, by decide⟩

end SmartCalculator
